import Mathlib

/-!
Verification of the razorbill static-site content pipeline.

This file gives a shallow embedding of the content-graph aggregation and
Markdown/shortcode compilation core of the `razorbill` crate
(`crates/razorbill/src`), and proves or refutes the specified properties
against it.

Conventions of the embedding:
* Rust `PathBuf` values are lists of path segments (`Path := List String`);
  `join` is append of one segment, `Path::parent` drops the last segment
  (returning `none` on the empty path, as in Rust).
* Rust `HashMap`s are association lists.  An association list's order plays
  the role of the map's (unspecified) iteration order; properties that must
  hold "for any insertion/iteration order" are quantified over permutations
  of these lists.  `HashMap::insert` replaces the binding of an existing key
  in place and appends a fresh key at the end.
* Rust `usize` arithmetic wraps at `2 ^ 64` (release builds); operations that
  panic (`unwrap` on `None`, underflow in debug, division by zero) are
  modelled by `Option`, with `none` for the panic.
* `sort_unstable_by` is modelled by `List.insertionSort`: the source only
  guarantees some permutation sorted by the comparator, which is what the
  theorems below rely on.
-/

namespace Razorbill

/-- A filesystem path, as its list of segments.  `PathBuf::from("a/b/c")`
is `["a", "b", "c"]`. -/
abbrev Path := List String

/-- The index-file name the aggregator appends when walking parent
directories (`parent.join("_index.md")`). -/
def indexMd : String := "_index.md"

/-- Rust `Path::parent`: `none` for the empty path, otherwise the path
without its final segment (possibly the empty path). -/
def pathParent (p : Path) : Option Path :=
  match p with
  | [] => none
  | _ :: _ => some p.dropLast

/-- Rust `path.strip_prefix(root).unwrap_or(path)` as used by
`FileInfo::components`: drops `root` when it is a leading run of segments,
otherwise returns the path unchanged. -/
def stripRoot (root p : Path) : Path :=
  if root.isPrefixOf p then p.drop root.length else p

/-- `content/file_info.rs`: identity of a content file. -/
structure FileInfo where
  path : Path
  parent : Path
  components : List String
  deriving DecidableEq

/-- `FileInfo::new(root_path, path)`.  `components` is the stripped path's
parent's segments (`FileInfo::components`); the source `unwrap`s the parent
there, which only panics for an empty stripped path (excluded wherever this
is used below, where file paths always have a file-name segment). -/
def FileInfo.new (root_path path : Path) : FileInfo :=
  { path := path
    parent := (pathParent path).getD root_path
    components := (stripRoot root_path path).dropLast }

/-- `content/sorting.rs`: the sort key.  `Date` sorts by date, newest to
oldest. -/
inductive SortBy where
  | date
  deriving DecidableEq

/-- `content/page.rs` `PageFrontMatter`, restricted to the fields the
aggregator and sorter read.  `taxonomies` is the page's taxonomy-name →
term-list mapping. -/
structure PageFrontMatter where
  date : Option String
  template : Option String
  taxonomies : List (String × List String)
  deriving DecidableEq

/-- `content/page.rs` `Page`, restricted to the fields the aggregator and
sorter read.  `path` is the route string (`PagePath.0`), used as the sort
tie-breaker. -/
structure Page where
  meta : PageFrontMatter
  file : FileInfo
  path : String
  ancestors : List Path
  deriving DecidableEq

/-- `content/section.rs` `SectionFrontMatter`, restricted to the fields the
aggregator reads.  `sort_by` models `MaybeSortBy` through its
`Into<Option<SortBy>>` conversion. -/
structure SectionFrontMatter where
  page_template : Option String
  sort_by : Option SortBy
  transparent : Bool
  deriving DecidableEq

/-- `content/section.rs` `Section`, restricted to the fields the aggregator
reads and writes.  `pages` is the ordered list of child page keys. -/
structure Section where
  meta : SectionFrontMatter
  file : FileInfo
  pages : List Path
  deriving DecidableEq

/-! ## Sorting (`content/sorting.rs`) -/

/-- The comparator of `sort_pages_by` for `SortBy::Date`, as a `≤`-style
relation: `a` may precede `b` iff `b.date.cmp(a.date)` then
`a.path.0.cmp(b.path.0)` is not `Greater` — date descending, route string
ascending on ties.  Both pages are in the sortable partition, so their
dates are `some`; `getD ""` is the `unwrap`. -/
def pageLe (a b : Page) : Prop :=
  b.meta.date.getD "" < a.meta.date.getD "" ∨
    (b.meta.date.getD "" = a.meta.date.getD "" ∧ a.path ≤ b.path)

instance : DecidableRel pageLe := fun a b => by
  unfold pageLe; infer_instance

instance : IsTotal Page pageLe := by
  constructor
  intro a b
  unfold pageLe
  rcases lt_trichotomy (b.meta.date.getD "") (a.meta.date.getD "") with h | h | h
  · exact Or.inl (Or.inl h)
  · rcases le_total a.path b.path with h' | h'
    · exact Or.inl (Or.inr ⟨h, h'⟩)
    · exact Or.inr (Or.inr ⟨h.symm, h'⟩)
  · exact Or.inr (Or.inl h)

instance : IsTrans Page pageLe := by
  constructor
  intro a b c hab hbc
  unfold pageLe at *
  rcases hab with h1 | ⟨h1, h1'⟩
  · rcases hbc with h2 | ⟨h2, h2'⟩
    · exact Or.inl (h2.trans h1)
    · exact Or.inl (h2 ▸ h1)
  · rcases hbc with h2 | ⟨h2, h2'⟩
    · exact Or.inl (h1 ▸ h2)
    · exact Or.inr ⟨h1 ▸ h2, h1'.trans h2'⟩

/-- Whether a page has the field required by the sort key
(`sort_pages_by`'s partition predicate). -/
def hasSortField (sort_by : SortBy) (p : Page) : Bool :=
  match sort_by with
  | .date => p.meta.date.isSome

/-- The sortable partition of `sort_pages_by`, sorted by the comparator
(`sort_unstable_by` modelled as a sorted permutation via insertion sort). -/
def sortedPart (sort_by : SortBy) (pages : List Page) : List Page :=
  ((pages.partition (hasSortField sort_by)).1).insertionSort pageLe

/-- `sort_pages_by(sort_by, pages)`: partition into pages that have the sort
field and pages that do not (both in input order), sort the first group by
the comparator, and return the two groups' file paths. -/
def sort_pages_by (sort_by : SortBy) (pages : List Page) :
    List Path × List Path :=
  ((sortedPart sort_by pages).map (fun p => p.file.path),
    ((pages.partition (hasSortField sort_by)).2).map (fun p => p.file.path))

/-! ## Reading metrics (`content/reading_metrics.rs`) -/

/-- `ReadingMetrics`, with `usize` fields as `Nat`. -/
structure ReadingMetrics where
  word_count : Nat
  read_time : Nat
  deriving DecidableEq

/-- `ReadingMetrics::for_content(content, wpm)`.  The unicode word count is
produced by the external `unicode_segmentation` crate and enters the model
as the `word_count` argument.  `wpm = 0` makes `wpm - 1` underflow (panic in
debug, and the subsequent division by zero panics in release), modelled as
`none`.  The addition `word_count + (wpm - 1)` is `usize` arithmetic and
wraps at `2 ^ 64`. -/
def ReadingMetrics.for_content (word_count wpm : Nat) : Option ReadingMetrics :=
  if wpm = 0 then none
  else some { word_count := word_count
              read_time := ((word_count + (wpm - 1)) % 2 ^ 64) / wpm }

/-! ## Association lists standing in for `HashMap` -/

/-- Lookup of a key's binding (the `HashMap::get` of the model). -/
def alookup {α β : Type} [DecidableEq α] (m : List (α × β)) (k : α) : Option β :=
  match m with
  | [] => none
  | kv :: rest => if kv.1 = k then some kv.2 else alookup rest k

/-- `HashMap::insert`: replace an existing key's binding in place, or append
a fresh binding. -/
def ainsert {α β : Type} [DecidableEq α] (m : List (α × β)) (k : α) (v : β) :
    List (α × β) :=
  if (alookup m k).isSome then
    m.map (fun kv => if kv.1 = k then (kv.1, v) else kv)
  else m ++ [(k, v)]

/-- `HashMap::get_mut` followed by an in-place mutation of the value. -/
def amodify {α β : Type} [DecidableEq α] (m : List (α × β)) (k : α) (f : β → β) :
    List (α × β) :=
  m.map (fun kv => if kv.1 = k then (kv.1, f kv.2) else kv)

/-! ## Content aggregator (`content/aggregator.rs`) -/

/-- The builder state: content root, the two keyed maps, and the taxonomy
index (taxonomy name → term → ordered page keys). -/
structure ContentAggregator where
  content_path : Path
  sections : List (Path × Section)
  pages : List (Path × Page)
  taxonomies : List (String × List (String × List Path))
  deriving DecidableEq

/-- `ContentAggregator::new(content_path, taxonomy_definitions)`: pre-seeds
one empty bucket map per configured taxonomy name. -/
def ContentAggregator.new (content_path : Path)
    (taxonomy_definitions : List String) : ContentAggregator :=
  { content_path := content_path
    sections := []
    pages := []
    taxonomies := taxonomy_definitions.foldl (fun m name => ainsert m name []) [] }

/-- `ContentAggregator::add_section`: insert by the section's file path,
last write wins. -/
def ContentAggregator.add_section (a : ContentAggregator) (s : Section) :
    ContentAggregator :=
  { a with sections := ainsert a.sections s.file.path s }

/-- One term bucket update of `add_page`:
`pages_by_term.entry(term).or_default().push(path)`. -/
def bucketPush (b : List (String × List Path)) (term : String) (p : Path) :
    List (String × List Path) :=
  if (alookup b term).isSome then amodify b term (fun ps => ps ++ [p])
  else b ++ [(term, [p])]

/-- The taxonomy-index update of `add_page`: for every `(name, terms)` pair
of the page's front matter whose taxonomy is configured, push the page's
key into each declared term's bucket. -/
def addPageTax (page : Page) (txs : List (String × List (String × List Path))) :
    List (String × List (String × List Path)) :=
  page.meta.taxonomies.foldl (fun txs pair =>
    match alookup txs pair.1 with
    | none => txs
    | some _ =>
      amodify txs pair.1 (fun bucket =>
        pair.2.foldl (fun b term => bucketPush b term page.file.path) bucket))
    txs

/-- `ContentAggregator::add_page`: push the page's key into every declared
term bucket of every *configured* taxonomy (unknown taxonomy names are
skipped), then insert the page by its file path, last write wins. -/
def ContentAggregator.add_page (a : ContentAggregator) (page : Page) :
    ContentAggregator :=
  { a with
    taxonomies := addPageTax page a.taxonomies
    pages := ainsert a.pages page.file.path page }

/-- The ancestor list `build_ancestors` computes for one section: sections
with no components (the root index) get `[]`; otherwise the list is seeded
with the content root's index path (unconditionally — whether or not a root
section exists) and extended with the index path of every existing section
strictly between the root and the section's own directory.  `ancestorStep`
is one component's step of that walk (the source's loop body, with the
`current_path` binding inlined). -/
def ancestorStep (sections : List (Path × Section)) (s : Section)
    (st : Path × List Path) (component : String) : Path × List Path :=
  if st.1 ++ [component] = s.file.parent then (st.1 ++ [component], st.2)
  else
    match alookup sections ((st.1 ++ [component]) ++ [indexMd]) with
    | some ancestor => (st.1 ++ [component], st.2 ++ [ancestor.file.path])
    | none => (st.1 ++ [component], st.2)

def sectionAncestors (content_path : Path) (sections : List (Path × Section))
    (s : Section) : List Path :=
  if s.file.components = [] then []
  else
    (s.file.components.foldl (ancestorStep sections s)
      (content_path, [content_path ++ [indexMd]])).2

/-- `ContentAggregator::build_ancestors`: the ancestor table, keyed by each
section's file path. -/
def ContentAggregator.build_ancestors (a : ContentAggregator) :
    List (Path × List Path) :=
  a.sections.map (fun kv => (kv.2.file.path, sectionAncestors a.content_path a.sections kv.2))

/-- The hop of the transparent-section walk:
`parent_section_path.parent().unwrap().parent().map(|p| p.join("_index.md"))`.
`none` is the `None => break` arm.  (On the empty path the source's first
`unwrap` panics; that state is unreachable from the walk, whose paths always
end in the index segment.) -/
def nextIndexPath (p : Path) : Option Path :=
  match p with
  | [] => none
  | _ :: _ =>
    match p.dropLast with
    | [] => none
    | dir => some (dir.dropLast ++ [indexMd])

/-- The inherited-template scan: walk the freshly assigned ancestors nearest
to farthest and adopt the first `page_template` that is set.  This is the
*total* variant; the source `unwrap`s each ancestor lookup and panics on a
missing key, which `resolveTemplateP` below models faithfully.  The two
coincide exactly when every scanned key is present
(`resolveTemplateP_eq`). -/
def resolveTemplate (sections : List (Path × Section)) (ancestors : List Path) :
    Option String :=
  ancestors.reverse.findSome? (fun k =>
    (alookup sections k).bind (fun s => s.meta.page_template))

/-- `parent_section.pages.push(path)`: append one page key to a section's
child list. -/
def pushChild (path : Path) (s : Section) : Section :=
  { s with pages := s.pages ++ [path] }

/-- The `while let` walk of `aggregate` for a single page, starting from its
immediate parent's index path: append the page key to the section's child
list, overwrite the page's ancestors with the section's table entry plus the
section itself, resolve an inherited template if the page has none yet, and
continue to the grandparent index while the section is transparent.  `fuel`
bounds the walk; every hop strictly shortens the path, so any fuel above the
starting path's length is exact. -/
def placePage (fuel : Nat) (sections : List (Path × Section))
    (ancestors : List (Path × List Path)) (path : Path) (page : Page)
    (parent_section_path : Path) : List (Path × Section) × Page :=
  match fuel with
  | 0 => (sections, page)
  | fuel + 1 =>
    match alookup sections parent_section_path with
    | none => (sections, page)
    | some parent_section =>
      let sections' := amodify sections parent_section_path (pushChild path)
      let anc := ((alookup ancestors parent_section_path).getD []) ++
        [parent_section.file.path]
      let tmpl :=
        if page.meta.template = none then resolveTemplate sections' anc
        else page.meta.template
      let page' :=
        { page with ancestors := anc, meta := { page.meta with template := tmpl } }
      if parent_section.meta.transparent then
        match nextIndexPath parent_section_path with
        | some parent => placePage fuel sections' ancestors path page' parent
        | none => (sections', page')
      else (sections', page')

/-- `ContentAggregator::aggregate`: build the ancestor table, place every
page (in the page map's iteration order, threading the section map through
the child-list pushes), then reorder every sorted section's child list and
every taxonomy term bucket as sorted-then-unsorted.  This is the *total*
variant: the source's panic sites — the template scan's ancestor `unwrap`,
the section pass's `&self.pages[path]` indexing and the taxonomy pass's
`.get(page).unwrap()` — are modelled faithfully by `aggregateP` below
(`none` = panic), and `aggregateP_eq` proves the two coincide exactly on
panic-free inputs. -/
def ContentAggregator.aggregate (a : ContentAggregator) :
    List (Path × Section) × List (Path × Page) ×
      List (String × List (String × List Path)) :=
  let ancestors := a.build_ancestors
  let placed := a.pages.foldl
    (fun (st : List (Path × Section) × List (Path × Page)) kv =>
      let parent_section_path := kv.2.file.parent ++ [indexMd]
      let res := placePage (parent_section_path.length + 1) st.1 ancestors
        kv.1 kv.2 parent_section_path
      (res.1, st.2 ++ [(kv.1, res.2)]))
    (a.sections, [])
  let pages := placed.2
  let sections := placed.1.map (fun kv =>
    match kv.2.meta.sort_by with
    | none => kv
    | some sort_by =>
      let sr := sort_pages_by sort_by (kv.2.pages.filterMap (fun p => alookup pages p))
      (kv.1, { kv.2 with pages := sr.1 ++ sr.2 }))
  let taxonomies := a.taxonomies.map (fun tx =>
    (tx.1, tx.2.map (fun bucket =>
      let sr := sort_pages_by SortBy.date (bucket.2.filterMap (fun p => alookup pages p))
      (bucket.1, sr.1 ++ sr.2))))
  (sections, pages, taxonomies)

/-- An aggregator populated through the public surface: `new`, then
`add_section` for each section, then `add_page` for each page.  The two add
operations touch disjoint parts of the state, so the two list orders
together range over every interleaved call order. -/
def buildAggregator (content_path : Path) (taxonomy_definitions : List String)
    (secs : List Section) (pgs : List Page) : ContentAggregator :=
  pgs.foldl ContentAggregator.add_page
    (secs.foldl ContentAggregator.add_section
      (ContentAggregator.new content_path taxonomy_definitions))

/-! ## Markdown compilation (`markdown.rs`)

Rust `String`s flowing through the compiler are modelled as `List Char` so
that every operation is a kernel-computable structural recursion. -/

/-- Text as a character list (Rust `String` in the markdown pipeline). -/
abbrev Str := List Char

/-- `escape_html` (via `pulldown_cmark::escape::escape_html`, an external
collaborator): escapes `&`, `<`, `>` and `"`. -/
def escape_html (s : Str) : Str :=
  (s.map (fun c =>
    if c = '&' then "&amp;".toList
    else if c = '<' then "&lt;".toList
    else if c = '>' then "&gt;".toList
    else if c = '"' then "&quot;".toList
    else [c])).flatten

/-- `escape_html_extended`: `escape_html` then the single quote and the
slash replaced by numeric entities. -/
def escape_html_extended (s : Str) : Str :=
  ((escape_html s).map (fun c =>
    if c = '\'' then "&#x27;".toList
    else if c = '/' then "&#x2F;".toList
    else [c])).flatten

/-- The compiled tree node (auk's `Element`): literal text or a tagged
element with attributes and children. -/
inductive Element where
  | text (text : Str)
  | html (tag_name : Str) (attrs : List (Str × Str)) (children : List Element)

mutual

def decEqElement (a b : Element) : Decidable (a = b) :=
  match a, b with
  | .text s, .text t =>
    if h : s = t then .isTrue (by rw [h]) else .isFalse (fun hh => by cases hh; exact h rfl)
  | .text _, .html _ _ _ => .isFalse (fun hh => by cases hh)
  | .html _ _ _, .text _ => .isFalse (fun hh => by cases hh)
  | .html t1 a1 c1, .html t2 a2 c2 =>
    if h1 : t1 = t2 then
      if h2 : a1 = a2 then
        match decEqElementList c1 c2 with
        | .isTrue h3 => .isTrue (by rw [h1, h2, h3])
        | .isFalse h3 => .isFalse (fun hh => by cases hh; exact h3 rfl)
      else .isFalse (fun hh => by cases hh; exact h2 rfl)
    else .isFalse (fun hh => by cases hh; exact h1 rfl)

def decEqElementList (xs ys : List Element) : Decidable (xs = ys) :=
  match xs, ys with
  | [], [] => .isTrue rfl
  | [], _ :: _ => .isFalse (fun h => by cases h)
  | _ :: _, [] => .isFalse (fun h => by cases h)
  | x :: xs, y :: ys =>
    match decEqElement x y, decEqElementList xs ys with
    | .isTrue h1, .isTrue h2 => .isTrue (by rw [h1, h2])
    | .isFalse h1, _ => .isFalse (fun h => by cases h; exact h1 rfl)
    | _, .isFalse h2 => .isFalse (fun h => by cases h; exact h2 rfl)

end

instance : DecidableEq Element := decEqElement

/-- An element still open on the writer's stack (auk `HtmlElement` under
construction). -/
structure OpenElem where
  tag_name : Str
  attrs : List (Str × Str)
  children : List Element
  deriving DecidableEq

/-- Closing an open element yields a tree node. -/
def OpenElem.toElement (e : OpenElem) : Element :=
  Element.html e.tag_name e.attrs e.children

/-- The Markdown tags exercised by the documents examined below.  The
writer's remaining tag arms (headings, tables, lists, links, …) are not
reached by any theorem in this file and are omitted from the event type;
the arms that are present follow `HtmlElementWriter::start_tag`/`end_tag`
exactly. -/
inductive MdTag where
  | paragraph
  deriving DecidableEq

/-- A `pulldown_cmark::Event` of the subset the examined documents
produce.  `stop` is `Event::End`. -/
inductive MdEvent where
  | start (tag : MdTag)
  | stop (tag : MdTag)
  | text (s : Str)
  deriving DecidableEq

/-- The element factory for a tag (default `MarkdownComponents`: a fresh,
empty element of the matching tag name). -/
def componentFor (tag : MdTag) : OpenElem :=
  match tag with
  | .paragraph => { tag_name := "p".toList, attrs := [], children := [] }

/-- `HtmlElementWriter`'s mutable state: finished top-level elements and the
open-element stack (last entry is the deepest open element). -/
structure WriterState where
  elements : List Element
  stack : List OpenElem
  deriving DecidableEq

/-- `HtmlElementWriter::write`: attach to the deepest open element, or to
the top level when the stack is empty. -/
def writerWrite (st : WriterState) (e : Element) : WriterState :=
  match st.stack.getLast? with
  | some parent =>
    { st with stack := st.stack.dropLast ++
        [{ parent with children := parent.children ++ [e] }] }
  | none => { st with elements := st.elements ++ [e] }

/-- `HtmlElementWriter::pop`: close the deepest open element and write it. -/
def writerPop (st : WriterState) : WriterState :=
  match st.stack.getLast? with
  | some el => writerWrite { st with stack := st.stack.dropLast } el.toElement
  | none => st

/-- `write_img_alt_text` over the stack, deepest-first: append the escaped
text to the deepest open `img`'s `alt` attribute; `false` when no `img` is
open. -/
def writeImgAlt (stack : List OpenElem) (s : Str) : List OpenElem × Bool :=
  match stack with
  | [] => ([], false)
  | el :: rest =>
    let r := writeImgAlt rest s
    if r.2 then (el :: r.1, true)
    else if el.tag_name = "img".toList then
      (({ el with attrs :=
          if (alookup el.attrs "alt".toList).isSome then
            amodify el.attrs "alt".toList (fun v => v ++ escape_html s)
          else ainsert el.attrs "alt".toList (escape_html s) }) :: rest, true)
    else (el :: rest, false)

/-- One event step of `HtmlElementWriter::run` for the modelled subset. -/
def writerStep (st : WriterState) (ev : MdEvent) : WriterState :=
  match ev with
  | .start tag => { st with stack := st.stack ++ [componentFor tag] }
  | .stop _ => writerPop st
  | .text s =>
    let inside_pre := st.stack.any (fun el => el.tag_name = "pre".toList)
    let st' :=
      match st.stack.getLast? with
      | some parent =>
        let t := if inside_pre then escape_html_extended s else escape_html s
        { st with stack := st.stack.dropLast ++
            [{ parent with children := parent.children ++ [Element.text t] }] }
      | none => st
    { st' with stack := (writeImgAlt st'.stack s).1 }

/-- `HtmlElementWriter::run`: fold the event stream; unclosed elements left
on the stack are dropped, as in the source. -/
def writerRun (events : List MdEvent) : List Element :=
  (events.foldl writerStep { elements := [], stack := [] }).elements

/-- A table-of-contents heading record (`markdown.rs` `Heading`). -/
inductive Heading where
  | mk (level : Nat) (id : Str) (title : Str) (children : List Heading)

def Heading.level : Heading → Nat
  | .mk l _ _ _ => l

def Heading.id : Heading → Str
  | .mk _ i _ _ => i

def Heading.title : Heading → Str
  | .mk _ _ t _ => t

def Heading.children : Heading → List Heading
  | .mk _ _ _ c => c

mutual

def decEqHeading (a b : Heading) : Decidable (a = b) :=
  match a, b with
  | .mk l1 i1 t1 c1, .mk l2 i2 t2 c2 =>
    if h1 : l1 = l2 then
      if h2 : i1 = i2 then
        if h3 : t1 = t2 then
          match decEqHeadingList c1 c2 with
          | .isTrue h4 => .isTrue (by rw [h1, h2, h3, h4])
          | .isFalse h4 => .isFalse (fun hh => by cases hh; exact h4 rfl)
        else .isFalse (fun hh => by cases hh; exact h3 rfl)
      else .isFalse (fun hh => by cases hh; exact h2 rfl)
    else .isFalse (fun hh => by cases hh; exact h1 rfl)

def decEqHeadingList (xs ys : List Heading) : Decidable (xs = ys) :=
  match xs, ys with
  | [], [] => .isTrue rfl
  | [], _ :: _ => .isFalse (fun h => by cases h)
  | _ :: _, [] => .isFalse (fun h => by cases h)
  | x :: xs, y :: ys =>
    match decEqHeading x y, decEqHeadingList xs ys with
    | .isTrue h1, .isTrue h2 => .isTrue (by rw [h1, h2])
    | .isFalse h1, _ => .isFalse (fun h => by cases h; exact h1 rfl)
    | _, .isFalse h2 => .isFalse (fun h => by cases h; exact h2 rfl)

end

instance : DecidableEq Heading := decEqHeading

/-- `TableOfContents::insert_into_parent`: `none` is the source's `false`
(the heading does not belong under this parent), `some` returns the updated
parent.  A heading at or above the parent's level is rejected; otherwise it
is attached under the parent's last child when possible and becomes a direct
child otherwise.  (The source's `heading.level + 1 == parent.level` arm is
kept verbatim; it is unreachable after the first guard.)  `fuel` bounds the
descent and is always called with more fuel than the tree is deep. -/
def insertIntoParent (fuel : Nat) (parent heading : Heading) : Option Heading :=
  match fuel with
  | 0 => none
  | fuel + 1 =>
    if heading.level ≤ parent.level then none
    else if heading.level + 1 = parent.level then
      some (Heading.mk parent.level parent.id parent.title
        (parent.children ++ [heading]))
    else
      match parent.children.getLast? with
      | none =>
        some (Heading.mk parent.level parent.id parent.title
          (parent.children ++ [heading]))
      | some last =>
        match insertIntoParent fuel last heading with
        | some last' =>
          some (Heading.mk parent.level parent.id parent.title
            (parent.children.dropLast ++ [last']))
        | none =>
          some (Heading.mk parent.level parent.id parent.title
            (parent.children ++ [heading]))

/-- `TableOfContents::from_headings`: fold the flat, emission-ordered
heading list; a heading that cannot be inserted under the last top-level
entry starts a new top-level entry.  The descent fuel exceeds any possible
tree depth (each heading adds at most one level). -/
def TableOfContents.from_headings (headings : List Heading) : List Heading :=
  headings.foldl (fun toc heading =>
    match toc.getLast? with
    | none => toc ++ [heading]
    | some last =>
      match insertIntoParent (headings.length + 1) last heading with
      | some last' => toc.dropLast ++ [last']
      | none => toc ++ [heading]) []

/-- Modelled from the spec: the external `slug` crate's `slugify` (the crate
is not part of this repository).  Restricted to ASCII: alphanumeric
characters are lowercased, every other character separates, maximal runs of
separators collapse to a single hyphen, and no hyphen leads or trails. -/
def slugify (s : Str) : Str :=
  ((s.map (fun c => if c.isAlphanum then c.toLower else '-')).foldr
    (fun c acc =>
      if c = '-' then
        match acc with
        | [] => []
        | '-' :: _ => acc
        | _ => '-' :: acc
      else c :: acc) []).dropWhile (fun c => c = '-')

/-- Rust `str::replace(pat, rep)`, replacing every non-overlapping
occurrence left to right. -/
def replaceAllAux (fuel : Nat) (s pat rep : Str) : Str :=
  match fuel, s with
  | 0, s => s
  | _ + 1, [] => []
  | fuel + 1, c :: rest =>
    if pat ≠ [] ∧ pat.isPrefixOf (c :: rest) then
      rep ++ replaceAllAux fuel ((c :: rest).drop pat.length) pat rep
    else c :: replaceAllAux fuel rest pat rep

/-- Rust `str::replace`: the fuel equals the input length, which the scan
consumes at least one character per step. -/
def replaceAll (s pat rep : Str) : Str :=
  replaceAllAux s.length s pat rep

/-- The tags `HeadingIdentifier::visit` matches on. -/
def headingLevelOf (tag : Str) : Option Nat :=
  if tag = "h2".toList then some 2
  else if tag = "h3".toList then some 3
  else if tag = "h4".toList then some 4
  else if tag = "h5".toList then some 5
  else if tag = "h6".toList then some 6
  else none

/-- `HeadingIdentifier`'s mutable state. -/
structure HIState where
  headings : List Heading
  heading_id_counts : List (Str × Nat)
  inside_header : Bool
  title : Option Str
  deriving DecidableEq

/-- `HeadingIdentifier::new()`. -/
def HIState.new : HIState :=
  { headings := [], heading_id_counts := [], inside_header := false, title := none }

/-- `HeadingIdentifier::visit_text`: inside a heading, accumulate the text
into the pending title. -/
def hiVisitText (st : HIState) (t : Str) : HIState :=
  if st.inside_header then { st with title := some ((st.title.getD []) ++ t) }
  else st

/-- The `title.take()` block of `HeadingIdentifier::visit`: slugify the
accumulated title (with the `&quot;` removal hack), disambiguate against the
per-document id counts, set the element's `id` attribute only when no
explicit one exists, and record the `Heading` — always with the freshly
computed id. -/
def recordHeading (st : HIState) (level : Nat) (attrs : List (Str × Str)) :
    HIState × List (Str × Str) :=
  match st.title with
  | none => (st, attrs)
  | some title =>
    let base := slugify (replaceAll title "&quot;".toList [])
    let id_count := (alookup st.heading_id_counts base).getD 0
    let id := if id_count > 0 then base ++ '-' :: (toString id_count).toList else base
    let counts := ainsert st.heading_id_counts base (id_count + 1)
    let attrs' :=
      if (alookup attrs "id".toList).isSome then attrs
      else ainsert attrs "id".toList id
    ({ st with
        title := none
        heading_id_counts := counts
        headings := st.headings ++ [Heading.mk level id title []] },
      attrs')

mutual

/-- The height of an element tree, used to seed the visitor's descent
fuel. -/
def elemHeight : Element → Nat
  | .text _ => 1
  | .html _ _ cs => 1 + elemHeightList cs

def elemHeightList : List Element → Nat
  | [] => 0
  | e :: rest => max (elemHeight e) (elemHeightList rest)

end

/-- `HeadingIdentifier::visit` as a depth-first pass (the traversal itself —
`visit_children`, `noop_visit_element`, `Text` dispatched to `visit_text` —
is the external auk visitor's interface).  For a heading tag the children
are visited with `inside_header` set, the pending title is recorded, and
then — as for every element — the trailing `noop_visit_element` visits the
(already rewritten) children once more.  `fuel` decreases one per tree
level; the pass preserves tree shape even when it runs out, so any fuel
above the tree height makes the pass exact. -/
def hiVisit (fuel : Nat) (st : HIState) (e : Element) : HIState × Element :=
  match fuel with
  | 0 => (st, e)
  | fuel + 1 =>
    match e with
    | Element.text t => (hiVisitText st t, Element.text t)
    | Element.html tag attrs cs =>
      let pass := fun (st0 : HIState) (xs : List Element) =>
        xs.foldl (fun (acc : HIState × List Element) c =>
          let r := hiVisit fuel acc.1 c
          (r.1, acc.2 ++ [r.2])) (st0, [])
      match headingLevelOf tag with
      | some level =>
        let r1 := pass { st with inside_header := true } cs
        let r2 := recordHeading r1.1 level attrs
        let r3 := pass { r2.1 with inside_header := false } r1.2
        (r3.1, Element.html tag r2.2 r3.2)
      | none =>
        let r := pass st cs
        (r.1, Element.html tag attrs r.2)

/-- `heading_identifier.visit_children(&mut elements)` at the top level:
visit every top-level node in order, with enough fuel for the whole
forest. -/
def hiRun (elements : List Element) : HIState × List Element :=
  elements.foldl (fun (acc : HIState × List Element) c =>
    let r := hiVisit (elemHeightList elements + 1) acc.1 c
    (r.1, acc.2 ++ [r.2])) (HIState.new, [])

/-! ## Shortcodes (`markdown/shortcodes.rs`, `markdown/shortcodes/parser.rs`)

The pest grammar file (`markdown/shortcodes/grammar.pest`) is not among the
provided sources; the recognizer below is modelled from the spec's §4.5
grammar (text runs and `\x7b\x7b name(arg=literal, ...) \x7d\x7d` call
expressions with boolean / quoted-string / integer / float / array
literals, a malformed call being a parse failure), while the placeholder
substitution and span bookkeeping follow `parser.rs` exactly. -/

/-- `SHORTCODE_PLACEHOLDER`. -/
def SHORTCODE_PLACEHOLDER : Str := "@@RAZORBILL_SHORTCODE@@".toList

/-- A shortcode argument literal (`serde_json::Value` as produced by
`parse_literal`).  Floats keep their source text: no claim examines float
arithmetic. -/
inductive Value where
  | bool (b : Bool)
  | str (s : Str)
  | int (n : Int)
  | float (raw : Str)
  | arr (vs : List Value)

mutual

def decEqValue (a b : Value) : Decidable (a = b) :=
  match a, b with
  | .bool x, .bool y =>
    if h : x = y then .isTrue (by rw [h]) else .isFalse (fun hh => by cases hh; exact h rfl)
  | .str x, .str y =>
    if h : x = y then .isTrue (by rw [h]) else .isFalse (fun hh => by cases hh; exact h rfl)
  | .int x, .int y =>
    if h : x = y then .isTrue (by rw [h]) else .isFalse (fun hh => by cases hh; exact h rfl)
  | .float x, .float y =>
    if h : x = y then .isTrue (by rw [h]) else .isFalse (fun hh => by cases hh; exact h rfl)
  | .arr x, .arr y =>
    match decEqValueList x y with
    | .isTrue h => .isTrue (by rw [h])
    | .isFalse h => .isFalse (fun hh => by cases hh; exact h rfl)
  | .bool _, .str _ => .isFalse (fun hh => by cases hh)
  | .bool _, .int _ => .isFalse (fun hh => by cases hh)
  | .bool _, .float _ => .isFalse (fun hh => by cases hh)
  | .bool _, .arr _ => .isFalse (fun hh => by cases hh)
  | .str _, .bool _ => .isFalse (fun hh => by cases hh)
  | .str _, .int _ => .isFalse (fun hh => by cases hh)
  | .str _, .float _ => .isFalse (fun hh => by cases hh)
  | .str _, .arr _ => .isFalse (fun hh => by cases hh)
  | .int _, .bool _ => .isFalse (fun hh => by cases hh)
  | .int _, .str _ => .isFalse (fun hh => by cases hh)
  | .int _, .float _ => .isFalse (fun hh => by cases hh)
  | .int _, .arr _ => .isFalse (fun hh => by cases hh)
  | .float _, .bool _ => .isFalse (fun hh => by cases hh)
  | .float _, .str _ => .isFalse (fun hh => by cases hh)
  | .float _, .int _ => .isFalse (fun hh => by cases hh)
  | .float _, .arr _ => .isFalse (fun hh => by cases hh)
  | .arr _, .bool _ => .isFalse (fun hh => by cases hh)
  | .arr _, .str _ => .isFalse (fun hh => by cases hh)
  | .arr _, .int _ => .isFalse (fun hh => by cases hh)
  | .arr _, .float _ => .isFalse (fun hh => by cases hh)

def decEqValueList (xs ys : List Value) : Decidable (xs = ys) :=
  match xs, ys with
  | [], [] => .isTrue rfl
  | [], _ :: _ => .isFalse (fun h => by cases h)
  | _ :: _, [] => .isFalse (fun h => by cases h)
  | x :: xs, y :: ys =>
    match decEqValue x y, decEqValueList xs ys with
    | .isTrue h1, .isTrue h2 => .isTrue (by rw [h1, h2])
    | .isFalse h1, _ => .isFalse (fun h => by cases h; exact h1 rfl)
    | _, .isFalse h2 => .isFalse (fun h => by cases h; exact h2 rfl)

end

instance : DecidableEq Value := decEqValue

/-- `ShortcodeCall`: name, keyword arguments, and the byte span of the
placeholder inside the working buffer. -/
structure ShortcodeCall where
  name : Str
  args : List (Str × Value)
  span : Nat × Nat
  deriving DecidableEq

/-- A structured parse error, carrying the offending byte offset (pest's
error position). -/
structure ParseErr where
  pos : Nat
  deriving DecidableEq

/-- Skip a run of ASCII whitespace, tracking the absolute offset. -/
def skipWs (s : Str) (pos : Nat) : Str × Nat :=
  match s with
  | c :: rest =>
    if c = ' ' ∨ c = '\t' ∨ c = '\n' ∨ c = '\r' then skipWs rest (pos + 1)
    else (c :: rest, pos)
  | [] => ([], pos)

def isIdentStart (c : Char) : Bool := c.isAlpha ∨ c = '_'

def isIdentChar (c : Char) : Bool := c.isAlphanum ∨ c = '_'

/-- Read an identifier (letter or underscore, then letters, digits,
underscores). -/
def takeIdent (s : Str) (pos : Nat) : Except ParseErr (Str × Str × Nat) :=
  match s with
  | c :: rest =>
    if isIdentStart c then
      let t := rest.takeWhile isIdentChar
      .ok (c :: t, rest.drop t.length, pos + 1 + t.length)
    else .error ⟨pos⟩
  | [] => .error ⟨pos⟩

/-- Read a quoted string body for quote character `q`; no escape
processing, the body simply ends at the next `q` (`unquote_string` strips
every `q`, which equals the body since the body cannot contain one). -/
def takeQuoted (q : Char) (s : Str) (pos : Nat) : Except ParseErr (Str × Str × Nat) :=
  let body := s.takeWhile (fun c => c ≠ q)
  match s.drop body.length with
  | c :: rest => if c = q then .ok (body, rest, pos + body.length + 1) else .error ⟨pos + body.length⟩
  | [] => .error ⟨pos + body.length⟩

/-- Decimal digits to a `Nat`. -/
def digitsToNat (ds : Str) : Nat :=
  ds.foldl (fun n c => n * 10 + (c.toNat - '0'.toNat)) 0

/-- Finish a number: a dot followed by digits makes it a float (kept as raw
text), otherwise an integer. -/
def parseNumberTail (neg : Bool) (intDigits : Str) (s : Str) (pos : Nat) :
    Except ParseErr (Value × Str × Nat) :=
  match s with
  | '.' :: rest =>
    let fs := rest.takeWhile Char.isDigit
    if fs = [] then .error ⟨pos + 1⟩
    else
      .ok (.float ((if neg then ['-'] else []) ++ intDigits ++ '.' :: fs),
        rest.drop fs.length, pos + 1 + fs.length)
  | _ =>
    let n : Int := digitsToNat intDigits
    .ok (.int (if neg then -n else n), s, pos)

mutual

/-- A literal: boolean, quoted string (double, single or backtick), number
(integer, or float kept as raw text), or array of literals. -/
def parseLiteral (fuel : Nat) (s : Str) (pos : Nat) :
    Except ParseErr (Value × Str × Nat) :=
  match fuel with
  | 0 => .error ⟨pos⟩
  | fuel + 1 =>
    if "true".toList.isPrefixOf s then .ok (.bool true, s.drop 4, pos + 4)
    else if "false".toList.isPrefixOf s then .ok (.bool false, s.drop 5, pos + 5)
    else
      match s with
      | '"' :: rest =>
        match takeQuoted '"' rest (pos + 1) with
        | .ok (body, rest', pos') => .ok (.str body, rest', pos')
        | .error e => .error e
      | '\'' :: rest =>
        match takeQuoted '\'' rest (pos + 1) with
        | .ok (body, rest', pos') => .ok (.str body, rest', pos')
        | .error e => .error e
      | '`' :: rest =>
        match takeQuoted '`' rest (pos + 1) with
        | .ok (body, rest', pos') => .ok (.str body, rest', pos')
        | .error e => .error e
      | '[' :: rest =>
        let ws := skipWs rest (pos + 1)
        (match ws.1 with
         | ']' :: rest' => .ok (.arr [], rest', ws.2 + 1)
         | _ =>
           match parseLiteral fuel ws.1 ws.2 with
           | .error e => .error e
           | .ok (v, rest', pos') => parseArrayTail fuel [v] rest' pos')
      | '-' :: rest =>
        let ds := rest.takeWhile Char.isDigit
        if ds = [] then .error ⟨pos + 1⟩
        else parseNumberTail true ds (rest.drop ds.length) (pos + 1 + ds.length)
      | c :: rest =>
        if c.isDigit then
          let ds := rest.takeWhile Char.isDigit
          parseNumberTail false (c :: ds) (rest.drop ds.length) (pos + 1 + ds.length)
        else .error ⟨pos⟩
      | [] => .error ⟨pos⟩

/-- The remaining `, literal`* `]` of an array. -/
def parseArrayTail (fuel : Nat) (acc : List Value) (s : Str) (pos : Nat) :
    Except ParseErr (Value × Str × Nat) :=
  match fuel with
  | 0 => .error ⟨pos⟩
  | fuel + 1 =>
    let ws := skipWs s pos
    match ws.1 with
    | ']' :: rest => .ok (.arr acc, rest, ws.2 + 1)
    | ',' :: rest =>
      let ws' := skipWs rest (ws.2 + 1)
      match parseLiteral fuel ws'.1 ws'.2 with
      | .error e => .error e
      | .ok (v, rest', pos') => parseArrayTail fuel (acc ++ [v]) rest' pos'
    | _ => .error ⟨ws.2⟩

end

/-- The keyword arguments between the call's parentheses, `accArgs` holding
those read so far (`Map::insert` replaces duplicates). -/
def parseArgsTail (fuel : Nat) (accArgs : List (Str × Value)) (s : Str)
    (pos : Nat) : Except ParseErr (List (Str × Value) × Str × Nat) :=
  match fuel with
  | 0 => .error ⟨pos⟩
  | fuel + 1 =>
    let ws := skipWs s pos
    match takeIdent ws.1 ws.2 with
    | .error e => .error e
    | .ok (arg_name, rest, pos') =>
      let ws' := skipWs rest pos'
      match ws'.1 with
      | '=' :: rest' =>
        let ws'' := skipWs rest' (ws'.2 + 1)
        (match parseLiteral (ws''.1.length + 1) ws''.1 ws''.2 with
         | .error e => .error e
         | .ok (v, rest'', pos'') =>
           let acc := ainsert accArgs arg_name v
           let wsE := skipWs rest'' pos''
           match wsE.1 with
           | ')' :: restE => .ok (acc, restE, wsE.2 + 1)
           | ',' :: restE => parseArgsTail fuel acc restE (wsE.2 + 1)
           | _ => .error ⟨wsE.2⟩)
      | _ => .error ⟨ws'.2⟩

/-- One call expression, entered just after its opening braces: optional
whitespace, the name, `(`, the arguments, `)`, optional whitespace, and the
closing braces. -/
def parseCall (s : Str) (pos : Nat) :
    Except ParseErr ((Str × List (Str × Value)) × Str × Nat) :=
  let ws := skipWs s pos
  match takeIdent ws.1 ws.2 with
  | .error e => .error e
  | .ok (name, rest, pos') =>
    match rest with
    | '(' :: rest' =>
      let afterArgs :=
        let ws' := skipWs rest' (pos' + 1)
        match ws'.1 with
        | ')' :: rest'' => Except.ok (([] : List (Str × Value)), rest'', ws'.2 + 1)
        | _ => parseArgsTail (rest'.length + 1) [] rest' (pos' + 1)
      match afterArgs with
      | .error e => .error e
      | .ok (args, rest'', pos'') =>
        let wsE := skipWs rest'' pos''
        if "\x7d\x7d".toList.isPrefixOf wsE.1 then
          .ok ((name, args), wsE.1.drop 2, wsE.2 + 2)
        else .error ⟨wsE.2⟩
    | _ => .error ⟨pos'⟩

/-- The main loop of `parse_document`: copy text into the output buffer
until an opening `\x7b\x7b` commits to a call expression; a recognized call
contributes a `ShortcodeCall` whose span covers the fixed-width placeholder
appended in its place, and a malformed call fails the whole parse. -/
def parseDocumentLoop (fuel : Nat) (s : Str) (pos : Nat) (output : Str)
    (calls : List ShortcodeCall) : Except ParseErr (Str × List ShortcodeCall) :=
  match fuel with
  | 0 => .error ⟨pos⟩
  | fuel + 1 =>
    match s with
    | [] => .ok (output, calls)
    | c :: rest =>
      if "\x7b\x7b".toList.isPrefixOf (c :: rest) then
        match parseCall ((c :: rest).drop 2) (pos + 2) with
        | .error e => .error e
        | .ok ((name, args), rest', pos') =>
          let start := output.length
          let call : ShortcodeCall :=
            { name := name, args := args
              span := (start, start + SHORTCODE_PLACEHOLDER.length) }
          parseDocumentLoop fuel rest' pos' (output ++ SHORTCODE_PLACEHOLDER)
            (calls ++ [call])
      else parseDocumentLoop fuel rest (pos + 1) (output ++ [c]) calls

/-- `parse_document(document)`: the placeholder-bearing buffer and the
extracted calls, or a structured error with the offending offset.  Each
loop step consumes at least one character, so the fuel is exact. -/
def parse_document (document : Str) : Except ParseErr (Str × List ShortcodeCall) :=
  parseDocumentLoop (document.length + 1) document 0 [] []

/-- The shortcode registry: name → render function (the `Shortcode.render`
closure, already specialized over its deserialized arguments). -/
abbrev Shortcodes := List (Str × (List (Str × Value) → Element))

/-- `str::split_once`: split at the first occurrence of `pat`. -/
def splitOnceAux (fuel : Nat) (s pat : Str) : Option (Str × Str) :=
  match fuel with
  | 0 => none
  | fuel + 1 =>
    if pat.isPrefixOf s then some ([], s.drop pat.length)
    else
      match s with
      | [] => none
      | c :: rest => (splitOnceAux fuel rest pat).map (fun pr => (c :: pr.1, pr.2))

def splitOnce (s pat : Str) : Option (Str × Str) :=
  splitOnceAux (s.length + 1) s pat

/-- `str::contains` for a literal pattern. -/
def containsSub (s pat : Str) : Bool :=
  (splitOnce s pat).isSome

/-- The `while let Some((before, after)) = text.split_once(PLACEHOLDER)`
loop of `replace_shortcodes`: emit the text before the placeholder (even
when empty), render the next call (`none` models the source's `unwrap`
panics on a missing call or unregistered name), and finish with the
remaining text only if it is non-empty. -/
def splitTextLoop (fuel : Nat) (text : Str) (shortcodes : Shortcodes)
    (calls : List ShortcodeCall) (acc : List Element) :
    Option (List Element × List ShortcodeCall) :=
  match fuel with
  | 0 => none
  | fuel + 1 =>
    match splitOnce text SHORTCODE_PLACEHOLDER with
    | none =>
      if text ≠ [] then some (acc ++ [Element.text text], calls)
      else some (acc, calls)
    | some (before, after) =>
      match calls with
      | [] => none
      | call :: calls' =>
        match alookup shortcodes call.name with
        | none => none
        | some render =>
          splitTextLoop fuel after shortcodes calls'
            (acc ++ [Element.text before, render call.args])

mutual

/-- One node of `replace_shortcodes`: a text node containing the
placeholder splits into pieces; an element recurses into its children. -/
def replaceOne (e : Element) (shortcodes : Shortcodes)
    (calls : List ShortcodeCall) : Option (List Element × List ShortcodeCall) :=
  match e with
  | Element.text t =>
    if containsSub t SHORTCODE_PLACEHOLDER then
      splitTextLoop (t.length + 1) t shortcodes calls []
    else some ([Element.text t], calls)
  | Element.html tag attrs cs =>
    match replaceElems cs shortcodes calls with
    | none => none
    | some r => some ([Element.html tag attrs r.1], r.2)

/-- `replace_shortcodes`: walk the tree depth-first, splitting every text
node that contains the placeholder and splicing one rendered call per
occurrence, threading the call iterator through the whole walk. -/
def replaceElems (elements : List Element) (shortcodes : Shortcodes)
    (calls : List ShortcodeCall) : Option (List Element × List ShortcodeCall) :=
  match elements with
  | [] => some ([], calls)
  | e :: rest =>
    match replaceOne e shortcodes calls with
    | none => none
    | some r1 =>
      match replaceElems rest shortcodes r1.2 with
      | none => none
      | some r2 => some (r1.1 ++ r2.1, r2.2)

end

/-- `markdown(text, components)` downstream of the external pulldown-cmark
tokenizer (§6): compile the event stream through the writer, run the
heading-identifier pass, and build the table of contents. -/
def markdown (events : List MdEvent) : List Element × List Heading :=
  let elements := writerRun events
  let r := hiRun elements
  (r.2, TableOfContents.from_headings r.1.headings)

/-- `markdown_with_shortcodes(input, components, shortcodes)`,
parameterized by the external Markdown tokenizer it feeds the
placeholder-bearing buffer to.  The source `unwrap`s the `parse_document`
result, so a parse failure panics (`none`) instead of returning the
structured error. -/
def markdown_with_shortcodes (tokenize : Str → List MdEvent) (input : Str)
    (shortcodes : Shortcodes) : Option (List Element × List Heading) :=
  match parse_document input with
  | .error _ => none
  | .ok r =>
    let m := markdown (tokenize r.1)
    match replaceElems m.1 shortcodes r.2 with
    | none => none
    | some rr => some (rr.1, m.2)

/-- The external tokenizer's event stream for a document that is a single
paragraph of plain text with no Markdown construct: one paragraph
containing one text run. -/
def oneParagraphEvents (s : Str) : List MdEvent :=
  [.start .paragraph, .text s, .stop .paragraph]

/-! ## Association-list lemmas -/

theorem alookup_nil {α β : Type} [DecidableEq α] (k : α) :
    alookup ([] : List (α × β)) k = none := rfl

theorem alookup_cons {α β : Type} [DecidableEq α] (kv : α × β) (m : List (α × β))
    (k : α) : alookup (kv :: m) k = if kv.1 = k then some kv.2 else alookup m k := rfl

theorem alookup_append {α β : Type} [DecidableEq α] (m1 m2 : List (α × β)) (k : α) :
    alookup (m1 ++ m2) k = (alookup m1 k).or (alookup m2 k) := by
  induction m1 with
  | nil => simp [alookup]
  | cons kv rest ih =>
    by_cases h : kv.1 = k <;> simp [alookup, h, ih]

theorem alookup_eq_none_iff {α β : Type} [DecidableEq α] {m : List (α × β)} {k : α} :
    alookup m k = none ↔ k ∉ m.map Prod.fst := by
  induction m with
  | nil => simp [alookup]
  | cons kv rest ih =>
    by_cases h : kv.1 = k
    · simp [alookup, h]
    · simp only [alookup_cons, if_neg h, List.map_cons, List.mem_cons, not_or, ih]
      exact ⟨fun hm => ⟨fun he => h he.symm, hm⟩, fun hm => hm.2⟩

theorem alookup_isSome_iff {α β : Type} [DecidableEq α] {m : List (α × β)} {k : α} :
    (alookup m k).isSome = true ↔ k ∈ m.map Prod.fst := by
  rcases h : alookup m k with _ | v
  · simpa using alookup_eq_none_iff.mp h
  · simp only [Option.isSome_some, true_iff]
    by_contra hk
    rw [alookup_eq_none_iff.mpr hk] at h
    cases h

theorem alookup_perm {α β : Type} [DecidableEq α] {m1 m2 : List (α × β)}
    (h : m1.Perm m2) (nd : (m1.map Prod.fst).Nodup) (k : α) :
    alookup m1 k = alookup m2 k := by
  induction h with
  | nil => rfl
  | cons x h ih =>
    simp only [List.map_cons, List.nodup_cons] at nd
    by_cases hx : x.1 = k <;> simp [alookup, hx, ih nd.2]
  | swap x y l =>
    have hxy : y.1 ≠ x.1 := by
      simp only [List.map_cons, List.nodup_cons, List.mem_cons] at nd
      exact fun h => nd.1 (Or.inl h)
    by_cases hx : x.1 = k
    · have hy : y.1 ≠ k := fun h => hxy (h.trans hx.symm)
      simp [alookup, hx, hy]
    · by_cases hy : y.1 = k <;> simp [alookup, hx, hy]
  | trans h1 h2 ih1 ih2 =>
    rw [ih1 nd, ih2 (((h1.map Prod.fst).nodup_iff).mp nd)]

theorem ainsert_of_fresh {α β : Type} [DecidableEq α] {m : List (α × β)} {k : α}
    (h : alookup m k = none) (v : β) : ainsert m k v = m ++ [(k, v)] := by
  simp [ainsert, h]

theorem map_fst_amodify {α β : Type} [DecidableEq α] (m : List (α × β)) (k : α)
    (f : β → β) : (amodify m k f).map Prod.fst = m.map Prod.fst := by
  unfold amodify
  rw [List.map_map]
  exact List.map_congr_left (fun kv _ => by by_cases h : kv.1 = k <;> simp [h])

theorem alookup_amodify_self {α β : Type} [DecidableEq α] (m : List (α × β))
    (k : α) (f : β → β) : alookup (amodify m k f) k = (alookup m k).map f := by
  induction m with
  | nil => rfl
  | cons kv rest ih =>
    by_cases h : kv.1 = k <;> simp [alookup, amodify, h, ih]
    exact ih

theorem amodify_cons {α β : Type} [DecidableEq α] (kv : α × β) (m : List (α × β))
    (k : α) (f : β → β) :
    amodify (kv :: m) k f =
      (if kv.1 = k then (kv.1, f kv.2) else kv) :: amodify m k f := rfl

theorem alookup_amodify_ne {α β : Type} [DecidableEq α] (m : List (α × β))
    {k k' : α} (h : k' ≠ k) (f : β → β) :
    alookup (amodify m k f) k' = alookup m k' := by
  induction m with
  | nil => rfl
  | cons kv rest ih =>
    rw [amodify_cons]
    by_cases hk : kv.1 = k
    · have hne : kv.1 ≠ k' := fun hh => h (hh.symm.trans hk)
      rw [if_pos hk, alookup_cons, alookup_cons, if_neg hne]
      simp only [ih]
      rw [if_neg hne]
    · rw [if_neg hk, alookup_cons, alookup_cons, ih]

theorem alookup_map_keyed {α β γ : Type} [DecidableEq α] (m : List (α × β))
    (g : α → β → γ) (k : α) :
    alookup (m.map (fun kv => (kv.1, g kv.1 kv.2))) k = (alookup m k).map (g k) := by
  induction m with
  | nil => rfl
  | cons kv rest ih =>
    by_cases h : kv.1 = k
    · rcases h with rfl
      simp [alookup]
    · simp [alookup, h, ih]

theorem foldl_ainsert_fresh {α β γ : Type} [DecidableEq α] (κ : γ → α) (ν : γ → β) :
    ∀ (items : List γ) (m0 : List (α × β)),
      (items.map κ).Nodup → (∀ x ∈ items, alookup m0 (κ x) = none) →
      items.foldl (fun m x => ainsert m (κ x) (ν x)) m0 =
        m0 ++ items.map (fun x => (κ x, ν x)) := by
  intro items
  induction items with
  | nil => simp
  | cons x rest ih =>
    intro m0 hnd hfresh
    simp only [List.map_cons, List.nodup_cons] at hnd
    have h0 : alookup m0 (κ x) = none := hfresh x (List.mem_cons_self x rest)
    simp only [List.foldl_cons, ainsert_of_fresh h0]
    rw [ih (m0 ++ [(κ x, ν x)]) hnd.2]
    · simp
    · intro y hy
      rw [alookup_append, hfresh y (List.mem_cons_of_mem x hy)]
      have hne : κ x ≠ κ y := fun h => hnd.1 (h ▸ List.mem_map_of_mem κ hy)
      simp [alookup, hne]

/-! ## Claim C10 — reading metrics -/

/-- Claim C10, counterexample: at `word_count = 2` (the two-word content
"a b") and `wpm = 2 ^ 64 - 1 ≥ 1`, the `usize` addition wraps and the code
returns `read_time = 0`, which is not the ceiling of `2 / wpm = 1`: the
returned value does not even satisfy `word_count ≤ read_time * wpm`, and a
non-empty word count yields 0. -/
theorem c10_counterexample :
    ReadingMetrics.for_content 2 (2 ^ 64 - 1) =
      some { word_count := 2, read_time := 0 } ∧
    ¬ (2 ≤ 0 * (2 ^ 64 - 1)) := by
  constructor
  · have h1 : (2 ^ 64 - 1 : Nat) ≠ 0 := by norm_num
    have h2 : 2 + (2 ^ 64 - 1 - 1) = 2 ^ 64 := by norm_num
    simp [ReadingMetrics.for_content, h1, h2]
  · simp

/-- Claim C10 (amended): for `wpm ≥ 1` and no `usize` overflow in
`word_count + wpm - 1`, `for_content` returns the given word count and
`read_time = (word_count + wpm - 1) / wpm`, which is exactly the ceiling of
`word_count / wpm` (characterized by its Galois property), so empty content
reads in 0 minutes and any non-empty word count in at least 1; `wpm = 0`
panics (underflow/division by zero), modelled as `none`. -/
theorem c10_read_time_is_ceiling (word_count wpm : Nat) (h1 : 1 ≤ wpm)
    (h2 : word_count + wpm - 1 < 2 ^ 64) :
    ∃ m, ReadingMetrics.for_content word_count wpm = some m ∧
      m.word_count = word_count ∧
      m.read_time = (word_count + wpm - 1) / wpm ∧
      (∀ n, m.read_time ≤ n ↔ word_count ≤ n * wpm) ∧
      (word_count = 0 → m.read_time = 0) ∧
      (1 ≤ word_count → 1 ≤ m.read_time) ∧
      ReadingMetrics.for_content word_count 0 = none := by
  have hw : wpm ≠ 0 := by omega
  have hadd : word_count + (wpm - 1) = word_count + wpm - 1 := by omega
  have hiff : ∀ n, (word_count + wpm - 1) / wpm ≤ n ↔ word_count ≤ n * wpm := by
    intro n
    rw [Nat.div_le_iff_le_mul_add_pred (by omega), Nat.mul_comm wpm n]
    generalize n * wpm = q
    omega
  have hres : ReadingMetrics.for_content word_count wpm =
      some { word_count := word_count, read_time := (word_count + wpm - 1) / wpm } := by
    unfold ReadingMetrics.for_content
    rw [if_neg hw, hadd, Nat.mod_eq_of_lt h2]
  refine ⟨_, hres, rfl, rfl, hiff, ?_, ?_, ?_⟩
  · intro h0
    subst h0
    exact Nat.div_eq_of_lt (by omega)
  · intro h0
    rw [Nat.le_div_iff_mul_le (by omega : 0 < wpm)]
    omega
  · simp [ReadingMetrics.for_content]

/-- Witness for C10's amended theorem at `word_count = 3`, `wpm = 2`. -/
theorem c10_witness :
    ∃ m, ReadingMetrics.for_content 3 2 = some m ∧
      m.word_count = 3 ∧
      m.read_time = (3 + 2 - 1) / 2 ∧
      (∀ n, m.read_time ≤ n ↔ 3 ≤ n * 2) ∧
      (3 = 0 → m.read_time = 0) ∧
      (1 ≤ 3 → 1 ≤ m.read_time) ∧
      ReadingMetrics.for_content 3 0 = none :=
  c10_read_time_is_ceiling 3 2 (by norm_num) (by norm_num)

/-! ## Claim C3 — the sorting contract -/

/-- Claim C3: `sort_pages_by(Date, pages)` returns the file paths of the
sorted dated partition and of the dateless pages in original relative order
(the partition is order-preserving on both sides); the sorted part is a
permutation of exactly the dated pages, is sorted by date descending with
route-string ascending on ties (`pageLe`), contains only dated pages; and in
the concatenation sorted-then-unsorted no dateless page ever precedes a
dated one. -/
theorem c3_sort_pages_by_spec (pages : List Page) :
    (sort_pages_by .date pages).1 = (sortedPart .date pages).map (fun p => p.file.path) ∧
    (sort_pages_by .date pages).2 =
      (pages.filter (fun p => p.meta.date.isNone)).map (fun p => p.file.path) ∧
    (sortedPart .date pages).Perm (pages.filter (fun p => p.meta.date.isSome)) ∧
    List.Sorted pageLe (sortedPart .date pages) ∧
    (∀ p ∈ sortedPart .date pages, p.meta.date.isSome = true) ∧
    List.Pairwise (fun a b => a.meta.date = none → b.meta.date = none)
      (sortedPart .date pages ++ pages.filter (fun p => p.meta.date.isNone)) := by
  have hpart1 : (pages.partition (hasSortField .date)).1 =
      pages.filter (fun p => p.meta.date.isSome) := by
    rw [List.partition_eq_filter_filter]
    exact List.filter_congr (fun p _ => rfl)
  have hperm : (sortedPart .date pages).Perm
      (pages.filter (fun p => p.meta.date.isSome)) := by
    unfold sortedPart
    rw [hpart1]
    exact List.perm_insertionSort pageLe _
  have hmem : ∀ p ∈ sortedPart .date pages, p.meta.date.isSome = true := by
    intro p hp
    have := hperm.mem_iff.mp hp
    exact (List.mem_filter.mp this).2
  refine ⟨rfl, ?_, hperm, ?_, hmem, ?_⟩
  · unfold sort_pages_by
    rw [List.partition_eq_filter_filter]
    simp only
    congr 1
    exact List.filter_congr (fun p _ => by
      cases h : p.meta.date <;> simp [hasSortField, h])
  · exact List.sorted_insertionSort pageLe _
  · rw [List.pairwise_append]
    refine ⟨?_, ?_, ?_⟩
    · have : ∀ a ∈ sortedPart .date pages, ∀ b : Page,
          a.meta.date = none → b.meta.date = none := by
        intro a ha b hnone
        have := hmem a ha
        rw [hnone] at this
        cases this
      exact List.pairwise_of_forall_mem_list (fun a ha b hb => this a ha b)
    · refine List.pairwise_of_forall_mem_list (fun a _ b hb => ?_)
      intro _
      have := (List.mem_filter.mp hb).2
      exact Option.isNone_iff_eq_none.mp this
    · intro a ha b hb _
      have := (List.mem_filter.mp hb).2
      exact Option.isNone_iff_eq_none.mp this

/-! ## Claim C7 — table-of-contents nesting -/

def c7h2a : Heading := Heading.mk 2 "alpha".toList "Alpha".toList []

def c7h4b : Heading := Heading.mk 4 "beta".toList "Beta".toList []

def c7h2c : Heading := Heading.mk 2 "gamma".toList "Gamma".toList []

/-- Claim C7: the flat sequence H2, H4, H2 produces exactly two top-level
entries, the first with the H4 as its only child (attached under the H2
despite the missing H3) and the second with none; and in general a heading
nests under a candidate parent exactly when its level is strictly greater
than the parent's (`insertIntoParent` succeeds whenever
`parent.level < heading.level`, for any positive descent fuel). -/
theorem c7_toc_skipped_levels :
    TableOfContents.from_headings [c7h2a, c7h4b, c7h2c] =
      [Heading.mk 2 "alpha".toList "Alpha".toList [c7h4b], c7h2c] ∧
    (∀ (parent heading : Heading) (fuel : Nat), 1 ≤ fuel →
      parent.level < heading.level →
      (insertIntoParent fuel parent heading).isSome = true) := by
  constructor
  · rfl
  · intro parent heading fuel hf hlt
    cases fuel with
    | zero => exact absurd hf (by omega)
    | succ n =>
      simp only [insertIntoParent]
      rw [if_neg (Nat.not_le.mpr hlt)]
      split
      · rfl
      · split
        · rfl
        · split <;> rfl

/-- Witness for C7's general nesting rule at the H2/H4 pair with fuel 1. -/
theorem c7_witness :
    TableOfContents.from_headings [c7h2a, c7h4b, c7h2c] =
      [Heading.mk 2 "alpha".toList "Alpha".toList [c7h4b], c7h2c] ∧
    (insertIntoParent 1 c7h2a c7h4b).isSome = true :=
  ⟨c7_toc_skipped_levels.1,
    c7_toc_skipped_levels.2 c7h2a c7h4b 1 (by decide) (by decide)⟩

/-! ## Claim C8 — explicit heading ids -/

def c8Tree : List Element :=
  [Element.html "h2".toList [("id".toList, "custom".toList)]
    [Element.text "Setup".toList]]

/-- Claim C8, counterexample: for an `h2` titled "Setup" that carries the
explicit id `custom`, the pass leaves the attribute untouched, but the
`Heading` record emitted for the table of contents carries the freshly
slugified `setup`, not the explicit `custom` — refuting the claim's second
half. -/
theorem c8_counterexample :
    (hiRun c8Tree).2 = c8Tree ∧
    (hiRun c8Tree).1.headings =
      [Heading.mk 2 "setup".toList "Setup".toList []] ∧
    "setup".toList ≠ "custom".toList := by
  refine ⟨by decide, by decide, by decide⟩

/-- Claim C8 (amended): for every heading element (h2–h6) carrying an
explicit id attribute, the attribute's value is left unchanged (the pass
only inserts an id when none exists), but the `Heading` record emitted for
the table of contents carries the freshly slugified, dedup-counted id
derived from the title — not the explicit attribute — and the slug counter
still increments. -/
theorem c8_explicit_id_amended (tag : Str) (level : Nat) (title v : Str)
    (h : headingLevelOf tag = some level) :
    hiRun [Element.html tag [("id".toList, v)] [Element.text title]] =
      ({ headings := [Heading.mk level
            (slugify (replaceAll title "&quot;".toList [])) title []]
         heading_id_counts :=
           [(slugify (replaceAll title "&quot;".toList []), 1)]
         inside_header := false
         title := none },
       [Element.html tag [("id".toList, v)] [Element.text title]]) := by
  unfold headingLevelOf at h
  split_ifs at h with h2 h3 h4 h5 h6 <;>
    first
    | (cases h2; injection h with h'; cases h'; rfl)
    | (cases h3; injection h with h'; cases h'; rfl)
    | (cases h4; injection h with h'; cases h'; rfl)
    | (cases h5; injection h with h'; cases h'; rfl)
    | (cases h6; injection h with h'; cases h'; rfl)

/-- Witness for C8's amended theorem at an `h3` titled "Guide" with
explicit id "keep-me". -/
theorem c8_witness :
    hiRun [Element.html "h3".toList [("id".toList, "keep-me".toList)]
        [Element.text "Guide".toList]] =
      ({ headings := [Heading.mk 3
            (slugify (replaceAll "Guide".toList "&quot;".toList []))
            "Guide".toList []]
         heading_id_counts :=
           [(slugify (replaceAll "Guide".toList "&quot;".toList []), 1)]
         inside_header := false
         title := none },
       [Element.html "h3".toList [("id".toList, "keep-me".toList)]
         [Element.text "Guide".toList]]) :=
  c8_explicit_id_amended "h3".toList 3 "Guide".toList "keep-me".toList (by decide)

/-! ## Claim C6 — shortcode round-trip -/

def c6Doc : Str := "\x7b\x7b say(msg=\"hi\") \x7d\x7d".toList

def c6Shortcodes : Shortcodes :=
  [("say".toList, fun _ => Element.text "hi!".toList)]

mutual

/-- `true` iff some text node of the element contains the placeholder. -/
def hasPlaceholderElem (e : Element) : Bool :=
  match e with
  | Element.text t => containsSub t SHORTCODE_PLACEHOLDER
  | Element.html _ _ cs => hasPlaceholderList cs

/-- `true` iff some text node in the forest contains the placeholder
token. -/
def hasPlaceholderList (es : List Element) : Bool :=
  match es with
  | [] => false
  | e :: rest => hasPlaceholderElem e || hasPlaceholderList rest

end

/-- Claim C6, counterexample: compiling the one-paragraph document
`\x7b\x7b say(msg="hi") \x7d\x7d` with `say` rendering "hi!" yields a
paragraph whose children are an *empty leading text node* followed by
"hi!" — `replace_shortcodes` pushes the text before the placeholder even
when it is empty — not exactly the single text node "hi!". -/
theorem c6_counterexample :
    markdown_with_shortcodes oneParagraphEvents c6Doc c6Shortcodes =
      some ([Element.html "p".toList []
        [Element.text [], Element.text "hi!".toList]], []) ∧
    [Element.text [], Element.text "hi!".toList] ≠
      [Element.text "hi!".toList] := by
  refine ⟨by decide, by decide⟩

/-- Claim C6 (amended): the document compiles to one paragraph whose
children are an empty text node followed by the text node "hi!", in that
order; no residual placeholder token survives anywhere in the output
tree. -/
theorem c6_shortcode_round_trip :
    markdown_with_shortcodes oneParagraphEvents c6Doc c6Shortcodes =
      some ([Element.html "p".toList []
        [Element.text [], Element.text "hi!".toList]], []) ∧
    hasPlaceholderList
      [Element.html "p".toList []
        [Element.text [], Element.text "hi!".toList]] = false := by
  refine ⟨by decide, by decide⟩

/-! ## Claim C9 — shortcode parse failure -/

def c9BadDoc : Str := "hello \x7b\x7b oops".toList

/-- Claim C9, counterexample: on a document whose text fails the shortcode
micro-grammar, `parse_document` itself produces the structured error (with
the offending offset 13), but `markdown_with_shortcodes` `unwrap`s it and
panics (modelled `none`) instead of returning the error to the caller. -/
theorem c9_counterexample :
    parse_document c9BadDoc = Except.error ⟨13⟩ ∧
    markdown_with_shortcodes oneParagraphEvents c9BadDoc [] = none := by
  refine ⟨by rfl, by rfl⟩

/-- Claim C9 (amended): for every document on which the shortcode
micro-parser fails, `parse_document` returns the structured error with the
offending position, and `markdown_with_shortcodes` aborts by propagating
the failure as a panic (`none`) — it never returns a tree for that
document.  (Compilation is a pure function of the one document; the
aggregate's maps are not in scope, so no shared state can be mutated.) -/
theorem c9_parse_error_panics (tokenize : Str → List MdEvent)
    (shortcodes : Shortcodes) (input : Str) (e : ParseErr)
    (h : parse_document input = .error e) :
    markdown_with_shortcodes tokenize input shortcodes = none ∧
    parse_document c9BadDoc = Except.error ⟨13⟩ := by
  constructor
  · unfold markdown_with_shortcodes
    rw [h]
  · rfl

/-- Witness for C9's amended theorem at the concrete malformed document. -/
theorem c9_witness :
    markdown_with_shortcodes oneParagraphEvents c9BadDoc [] = none ∧
    parse_document c9BadDoc = Except.error ⟨13⟩ :=
  c9_parse_error_panics oneParagraphEvents [] c9BadDoc ⟨13⟩ (by rfl)

/-! ## Fixtures: a root → B → C section chain with one page under C -/

/-- A section as `Section::parse` constructs it: empty child list, file
identity derived from the root and its own path. -/
def mkSection (root filepath : Path) (meta : SectionFrontMatter) : Section :=
  { meta := meta, file := FileInfo.new root filepath, pages := [] }

/-- A page as `Page::parse` constructs it: empty ancestors, file identity
derived from the root and its own path, `route` its route string. -/
def mkPage (root filepath : Path) (meta : PageFrontMatter) (route : String) : Page :=
  { meta := meta, file := FileInfo.new root filepath, path := route, ancestors := [] }

def plainSec : SectionFrontMatter :=
  { page_template := none, sort_by := none, transparent := false }

def transSec : SectionFrontMatter :=
  { page_template := none, sort_by := none, transparent := true }

def plainPageMeta : PageFrontMatter :=
  { date := none, template := none, taxonomies := [] }

/-- The aggregator holding the chain `content/_index.md` (A) →
`content/b/_index.md` (B) → `content/b/c/_index.md` (C) and the single page
`content/b/c/post.md`, with the given front matter for A, B, C. -/
def chainAgg (mA mB mC : SectionFrontMatter) : ContentAggregator :=
  buildAggregator ["content"] []
    [mkSection ["content"] ["content", "_index.md"] mA,
     mkSection ["content"] ["content", "b", "_index.md"] mB,
     mkSection ["content"] ["content", "b", "c", "_index.md"] mC]
    [mkPage ["content"] ["content", "b", "c", "post.md"] plainPageMeta "/b/c/post"]

/-- The six possible orders behind a permutation of a three-element list. -/
theorem perm_three {α : Type} {a b c : α} {l : List α} (h : l.Perm [a, b, c]) :
    l = [a, b, c] ∨ l = [b, a, c] ∨ l = [b, c, a] ∨ l = [a, c, b] ∨
      l = [c, a, b] ∨ l = [c, b, a] := by
  have hm := List.mem_permutations'.mpr h
  rw [show ([a, b, c].permutations') =
    [[a, b, c], [b, a, c], [b, c, a], [a, c, b], [c, a, b], [c, b, a]] from rfl] at hm
  simpa using hm

/-! ## Claim C4 — the transparent-section walk -/

/-- Claim C4: in the chain A → B → C with the page under C —
(1) with B transparent and C not, the walk stops at C immediately: the
page's ancestors are `[A, B, C]` (ending with C) and only C's child list
receives the page; (2) with C transparent and B not, the page is appended
to C's and then B's child list, the walk stops at B (A is not reached) and
the ancestors end at B; (3) with every section transparent the walk climbs
through C, B and A and stops silently at the content root. -/
theorem c4_transparent_walk :
    ((alookup (chainAgg plainSec transSec plainSec).aggregate.2.1
        ["content", "b", "c", "post.md"]).map (fun p => p.ancestors) =
      some [["content", "_index.md"], ["content", "b", "_index.md"],
        ["content", "b", "c", "_index.md"]] ∧
     (alookup (chainAgg plainSec transSec plainSec).aggregate.1
        ["content", "b", "c", "_index.md"]).map (fun s => s.pages) =
      some [["content", "b", "c", "post.md"]] ∧
     (alookup (chainAgg plainSec transSec plainSec).aggregate.1
        ["content", "b", "_index.md"]).map (fun s => s.pages) = some [] ∧
     (alookup (chainAgg plainSec transSec plainSec).aggregate.1
        ["content", "_index.md"]).map (fun s => s.pages) = some []) ∧
    ((alookup (chainAgg plainSec plainSec transSec).aggregate.2.1
        ["content", "b", "c", "post.md"]).map (fun p => p.ancestors) =
      some [["content", "_index.md"], ["content", "b", "_index.md"]] ∧
     (alookup (chainAgg plainSec plainSec transSec).aggregate.1
        ["content", "b", "c", "_index.md"]).map (fun s => s.pages) =
      some [["content", "b", "c", "post.md"]] ∧
     (alookup (chainAgg plainSec plainSec transSec).aggregate.1
        ["content", "b", "_index.md"]).map (fun s => s.pages) =
      some [["content", "b", "c", "post.md"]] ∧
     (alookup (chainAgg plainSec plainSec transSec).aggregate.1
        ["content", "_index.md"]).map (fun s => s.pages) = some []) ∧
    ((alookup (chainAgg transSec transSec transSec).aggregate.2.1
        ["content", "b", "c", "post.md"]).map (fun p => p.ancestors) =
      some [["content", "_index.md"]] ∧
     (alookup (chainAgg transSec transSec transSec).aggregate.1
        ["content", "b", "c", "_index.md"]).map (fun s => s.pages) =
      some [["content", "b", "c", "post.md"]] ∧
     (alookup (chainAgg transSec transSec transSec).aggregate.1
        ["content", "b", "_index.md"]).map (fun s => s.pages) =
      some [["content", "b", "c", "post.md"]] ∧
     (alookup (chainAgg transSec transSec transSec).aggregate.1
        ["content", "_index.md"]).map (fun s => s.pages) =
      some [["content", "b", "c", "post.md"]]) := by
  exact ⟨⟨rfl, rfl, rfl, rfl⟩, ⟨rfl, rfl, rfl, rfl⟩, ⟨rfl, rfl, rfl, rfl⟩⟩

/-! ## Claim C1 — ancestor ordering -/

/-- Claim C1, counterexample: with C (the page's immediate parent) marked
transparent, the walk's second hop overwrites the page's ancestors with
`[A, B]` — not `[A, B, C]` as the claim states for every chain. -/
theorem c1_counterexample :
    (alookup (chainAgg plainSec plainSec transSec).aggregate.2.1
        ["content", "b", "c", "post.md"]).map (fun p => p.ancestors) =
      some [["content", "_index.md"], ["content", "b", "_index.md"]] ∧
    ([["content", "_index.md"], ["content", "b", "_index.md"]] : List Path) ≠
      [["content", "_index.md"], ["content", "b", "_index.md"],
        ["content", "b", "c", "_index.md"]] := by
  exact ⟨rfl, by decide⟩

/-- Claim C1 (amended): for the chain A (content root) → B → C with a page
under C, *provided C is not transparent*, the aggregated page's ancestors
are exactly `[A, B, C]` (root to immediate parent), for every front matter
of A and B, every front matter of the page, and every order in which the
sections and the page were added to the aggregator. -/
theorem c1_ancestor_ordering (mA mB mC : SectionFrontMatter)
    (pm : PageFrontMatter) (route : String) (secs : List Section)
    (pgs : List Page) (hC : mC.transparent = false)
    (hsecs : secs.Perm [mkSection ["content"] ["content", "_index.md"] mA,
      mkSection ["content"] ["content", "b", "_index.md"] mB,
      mkSection ["content"] ["content", "b", "c", "_index.md"] mC])
    (hpgs : pgs.Perm [mkPage ["content"] ["content", "b", "c", "post.md"] pm route]) :
    (alookup (buildAggregator ["content"] [] secs pgs).aggregate.2.1
        ["content", "b", "c", "post.md"]).map (fun p => p.ancestors) =
      some [["content", "_index.md"], ["content", "b", "_index.md"],
        ["content", "b", "c", "_index.md"]] := by
  obtain ⟨pt, sb, tr⟩ := mC
  have htr : tr = false := hC
  subst htr
  obtain rfl := List.perm_singleton.mp hpgs
  rcases perm_three hsecs with rfl | rfl | rfl | rfl | rfl | rfl <;> rfl

/-- Witness for C1's amended theorem: the canonical insertion order with
default front matter everywhere. -/
theorem c1_witness :
    (alookup (buildAggregator ["content"] []
        [mkSection ["content"] ["content", "_index.md"] plainSec,
         mkSection ["content"] ["content", "b", "_index.md"] plainSec,
         mkSection ["content"] ["content", "b", "c", "_index.md"] plainSec]
        [mkPage ["content"] ["content", "b", "c", "post.md"] plainPageMeta
          "/b/c/post"]).aggregate.2.1
        ["content", "b", "c", "post.md"]).map (fun p => p.ancestors) =
      some [["content", "_index.md"], ["content", "b", "_index.md"],
        ["content", "b", "c", "_index.md"]] :=
  c1_ancestor_ordering plainSec plainSec plainSec plainPageMeta "/b/c/post"
    _ _ (by decide) (List.Perm.refl _) (List.Perm.refl _)

/-! ## Aggregator-state characterization lemmas -/

theorem alookup_mem {α β : Type} [DecidableEq α] {m : List (α × β)} {k : α}
    {v : β} (h : alookup m k = some v) : (k, v) ∈ m := by
  induction m with
  | nil => cases h
  | cons kv rest ih =>
    rw [alookup_cons] at h
    by_cases hk : kv.1 = k
    · rw [if_pos hk] at h
      cases h
      subst hk
      exact List.mem_cons_self _ _
    · rw [if_neg hk] at h
      exact List.mem_cons_of_mem _ (ih h)

theorem map_fst_ainsert {α β : Type} [DecidableEq α] (m : List (α × β)) (k : α)
    (v : β) :
    (ainsert m k v).map Prod.fst =
      if (alookup m k).isSome then m.map Prod.fst else m.map Prod.fst ++ [k] := by
  unfold ainsert
  split
  · rw [List.map_map]
    exact List.map_congr_left (fun kv _ => by by_cases h : kv.1 = k <;> simp [h])
  · simp

theorem mem_keys_ainsert {α β : Type} [DecidableEq α] {m : List (α × β)} {k' : α}
    (k : α) (v : β) (h : k' ∈ m.map Prod.fst) :
    k' ∈ (ainsert m k v).map Prod.fst := by
  rw [map_fst_ainsert]
  split
  · exact h
  · exact List.mem_append_left _ h

theorem self_mem_keys_ainsert {α β : Type} [DecidableEq α] (m : List (α × β))
    (k : α) (v : β) : k ∈ (ainsert m k v).map Prod.fst := by
  rw [map_fst_ainsert]
  split
  · exact alookup_isSome_iff.mp (by assumption)
  · exact List.mem_append_right _ (List.mem_singleton_self k)

theorem mem_foldl_ainsert {α β γ : Type} [DecidableEq α] (κ : γ → α) (ν : γ → β) :
    ∀ (items : List γ) (m0 : List (α × β)) (kv : α × β),
      kv ∈ items.foldl (fun m x => ainsert m (κ x) (ν x)) m0 →
      kv ∈ m0 ∨ ∃ x ∈ items, kv = (κ x, ν x) := by
  intro items
  induction items with
  | nil => intro m0 kv h; exact Or.inl h
  | cons x rest ih =>
    intro m0 kv h
    rcases ih _ kv h with hm | ⟨y, hy, rfl⟩
    · unfold ainsert at hm
      by_cases hs : (alookup m0 (κ x)).isSome
      all_goals simp only [hs, if_true, if_false, Bool.false_eq_true] at hm
      · rcases List.mem_map.mp hm with ⟨kv0, hkv0, heq⟩
        by_cases hx : kv0.1 = κ x
        · rw [if_pos hx] at heq
          exact Or.inr ⟨x, List.mem_cons_self x rest, by rw [← heq, hx]⟩
        · rw [if_neg hx] at heq
          exact Or.inl (heq ▸ hkv0)
      · rcases List.mem_append.mp hm with hm | hm
        · exact Or.inl hm
        · exact Or.inr ⟨x, List.mem_cons_self x rest, List.mem_singleton.mp hm⟩
    · exact Or.inr ⟨y, List.mem_cons_of_mem x hy, rfl⟩

theorem keys_foldl_ainsert_mono {α β γ : Type} [DecidableEq α] (κ : γ → α)
    (ν : γ → β) :
    ∀ (items : List γ) (m0 : List (α × β)) (k : α), k ∈ m0.map Prod.fst →
      k ∈ (items.foldl (fun m y => ainsert m (κ y) (ν y)) m0).map Prod.fst := by
  intro items
  induction items with
  | nil => intro m0 k h; exact h
  | cons y rest ih => intro m0 k h; exact ih _ k (mem_keys_ainsert _ _ h)

theorem mem_keys_foldl_ainsert {α β γ : Type} [DecidableEq α] (κ : γ → α)
    (ν : γ → β) :
    ∀ (items : List γ) (m0 : List (α × β)) (x : γ), x ∈ items →
      κ x ∈ (items.foldl (fun m y => ainsert m (κ y) (ν y)) m0).map Prod.fst := by
  intro items
  induction items with
  | nil => intro m0 x h; cases h
  | cons y rest ih =>
    intro m0 x hx
    rcases List.mem_cons.mp hx with rfl | hx
    · exact keys_foldl_ainsert_mono κ ν rest _ (κ x)
        (self_mem_keys_ainsert m0 (κ x) (ν x))
    · exact ih _ x hx

theorem alookup_pairs_nodup {α β γ : Type} [DecidableEq α] (κ : γ → α)
    (ν : γ → β) :
    ∀ (items : List γ), (items.map κ).Nodup → ∀ x ∈ items,
      alookup (items.map (fun y => (κ y, ν y))) (κ x) = some (ν x) := by
  intro items
  induction items with
  | nil => intro _ x hx; cases hx
  | cons y rest ih =>
    intro hnd x hx
    simp only [List.map_cons, List.nodup_cons] at hnd
    rcases List.mem_cons.mp hx with rfl | hx'
    · simp [alookup]
    · have hk : κ y ≠ κ x := fun h => hnd.1 (h ▸ List.mem_map_of_mem κ hx')
      simp only [List.map_cons, alookup_cons, if_neg hk]
      exact ih hnd.2 x hx'

theorem alookup_foldl_ainsert_nodup {α β γ : Type} [DecidableEq α] (κ : γ → α)
    (ν : γ → β) (items : List γ) (hnd : (items.map κ).Nodup) {x : γ}
    (hx : x ∈ items) :
    alookup (items.foldl (fun m y => ainsert m (κ y) (ν y)) []) (κ x) =
      some (ν x) := by
  rw [foldl_ainsert_fresh κ ν items [] hnd (fun _ _ => rfl), List.nil_append]
  exact alookup_pairs_nodup κ ν items hnd x hx

theorem buildAggregator_content_path (cp : Path) (taxdefs : List String)
    (secs : List Section) (pgs : List Page) :
    (buildAggregator cp taxdefs secs pgs).content_path = cp := by
  unfold buildAggregator
  have h1 : ∀ (l : List Section) (a : ContentAggregator),
      (l.foldl ContentAggregator.add_section a).content_path = a.content_path := by
    intro l
    induction l with
    | nil => intro a; rfl
    | cons s rest ih => intro a; rw [List.foldl_cons, ih]; rfl
  have h2 : ∀ (l : List Page) (a : ContentAggregator),
      (l.foldl ContentAggregator.add_page a).content_path = a.content_path := by
    intro l
    induction l with
    | nil => intro a; rfl
    | cons p rest ih => intro a; rw [List.foldl_cons, ih]; rfl
  rw [h2, h1]
  rfl

theorem buildAggregator_sections (cp : Path) (taxdefs : List String)
    (secs : List Section) (pgs : List Page) :
    (buildAggregator cp taxdefs secs pgs).sections =
      secs.foldl (fun m s => ainsert m s.file.path s) [] := by
  unfold buildAggregator
  have h1 : ∀ (l : List Section) (a : ContentAggregator),
      (l.foldl ContentAggregator.add_section a).sections =
        l.foldl (fun m s => ainsert m s.file.path s) a.sections := by
    intro l
    induction l with
    | nil => intro a; rfl
    | cons s rest ih => intro a; rw [List.foldl_cons, ih]; rfl
  have h2 : ∀ (l : List Page) (a : ContentAggregator),
      (l.foldl ContentAggregator.add_page a).sections = a.sections := by
    intro l
    induction l with
    | nil => intro a; rfl
    | cons p rest ih => intro a; rw [List.foldl_cons, ih]; rfl
  rw [h2, h1]
  rfl

theorem buildAggregator_pages (cp : Path) (taxdefs : List String)
    (secs : List Section) (pgs : List Page) :
    (buildAggregator cp taxdefs secs pgs).pages =
      pgs.foldl (fun m p => ainsert m p.file.path p) [] := by
  unfold buildAggregator
  have h1 : ∀ (l : List Section) (a : ContentAggregator),
      (l.foldl ContentAggregator.add_section a).pages = a.pages := by
    intro l
    induction l with
    | nil => intro a; rfl
    | cons s rest ih => intro a; rw [List.foldl_cons, ih]; rfl
  have h2 : ∀ (l : List Page) (a : ContentAggregator),
      (l.foldl ContentAggregator.add_page a).pages =
        l.foldl (fun m p => ainsert m p.file.path p) a.pages := by
    intro l
    induction l with
    | nil => intro a; rfl
    | cons p rest ih => intro a; rw [List.foldl_cons, ih]; rfl
  rw [h2, h1]
  rfl

theorem buildAggregator_taxonomies (cp : Path) (taxdefs : List String)
    (secs : List Section) (pgs : List Page) :
    (buildAggregator cp taxdefs secs pgs).taxonomies =
      pgs.foldl (fun txs p => addPageTax p txs)
        (taxdefs.foldl (fun m name => ainsert m name []) []) := by
  unfold buildAggregator
  have h1 : ∀ (l : List Section) (a : ContentAggregator),
      (l.foldl ContentAggregator.add_section a).taxonomies = a.taxonomies := by
    intro l
    induction l with
    | nil => intro a; rfl
    | cons s rest ih => intro a; rw [List.foldl_cons, ih]; rfl
  have h2 : ∀ (l : List Page) (a : ContentAggregator),
      (l.foldl ContentAggregator.add_page a).taxonomies =
        l.foldl (fun txs p => addPageTax p txs) a.taxonomies := by
    intro l
    induction l with
    | nil => intro a; rfl
    | cons p rest ih => intro a; rw [List.foldl_cons, ih]; rfl
  rw [h2, h1]
  rfl

/-! ## Taxonomy-bucket characterization -/

/-- The (taxonomy, term) bucket of a taxonomy index, empty when absent. -/
def bucketOf (txs : List (String × List (String × List Path)))
    (tname term : String) : List Path :=
  ((alookup txs tname).bind (fun bm => alookup bm term)).getD []

/-- The page keys one page's front matter contributes to a (taxonomy, term)
bucket: one copy of `pk` per declaration of `term` under `tname`. -/
def contribAux (pk : Path) (tname term : String)
    (pairs : List (String × List String)) : List Path :=
  (pairs.filter (fun pr => pr.1 = tname)).flatMap
    (fun pr => (pr.2.filter (fun t => t = term)).map (fun _ => pk))

theorem alookup_bucketPush_self (b : List (String × List Path)) (term : String)
    (p : Path) :
    alookup (bucketPush b term p) term = some ((alookup b term).getD [] ++ [p]) := by
  unfold bucketPush
  cases h : alookup b term with
  | none => simp only [h, Option.isSome_none, Bool.false_eq_true, if_false]
            rw [alookup_append, h]
            simp [alookup]
  | some ps => simp only [h, Option.isSome_some, if_true]
               rw [alookup_amodify_self, h]
               rfl

theorem alookup_bucketPush_ne (b : List (String × List Path)) {term term' : String}
    (h : term' ≠ term) (p : Path) :
    alookup (bucketPush b term p) term' = alookup b term' := by
  unfold bucketPush
  split
  · exact alookup_amodify_ne b h _
  · rw [alookup_append]
    have hne : term ≠ term' := fun hh => h hh.symm
    have : alookup [(term, [p])] term' = none := by
      simp [alookup, hne]
    rw [this]
    cases alookup b term' <;> rfl

theorem terms_fold_getD (p : Path) (term : String) :
    ∀ (terms : List String) (b : List (String × List Path)),
      (alookup (terms.foldl (fun b t => bucketPush b t p) b) term).getD [] =
        (alookup b term).getD [] ++ (terms.filter (fun t => t = term)).map (fun _ => p) := by
  intro terms
  induction terms with
  | nil => intro b; simp
  | cons t rest ih =>
    intro b
    rw [List.foldl_cons, ih]
    by_cases ht : t = term
    · subst ht
      rw [alookup_bucketPush_self]
      simp [List.filter_cons]
    · rw [alookup_bucketPush_ne b (fun hh => ht hh.symm)]
      simp only [List.filter_cons, ht]
      simp [List.append_assoc, decide_eq_true_eq, ht]

theorem map_fst_addPageTax (page : Page)
    (txs : List (String × List (String × List Path))) :
    (addPageTax page txs).map Prod.fst = txs.map Prod.fst := by
  unfold addPageTax
  generalize page.meta.taxonomies = pairs
  induction pairs generalizing txs with
  | nil => rfl
  | cons pr rest ih =>
    rw [List.foldl_cons]
    cases h : alookup txs pr.1 with
    | none => rw [ih]
    | some bm => rw [ih, map_fst_amodify]

theorem isSome_alookup_addPageTax (page : Page)
    (txs : List (String × List (String × List Path))) (tname : String) :
    (alookup (addPageTax page txs) tname).isSome = (alookup txs tname).isSome := by
  by_cases h : (alookup txs tname).isSome
  · rw [h]
    exact alookup_isSome_iff.mpr
      ((map_fst_addPageTax page txs) ▸ alookup_isSome_iff.mp h)
  · rw [Bool.eq_false_iff.mpr h]
    by_contra hc
    have hc' : (alookup (addPageTax page txs) tname).isSome = true := by
      cases hh : (alookup (addPageTax page txs) tname).isSome
      · rw [hh] at hc; exact absurd rfl hc
      · rfl
    exact h (alookup_isSome_iff.mpr
      ((map_fst_addPageTax page txs) ▸ alookup_isSome_iff.mp hc'))

theorem addPageTax_bucketOf (page : Page)
    (txs : List (String × List (String × List Path))) (tname term : String) :
    bucketOf (addPageTax page txs) tname term =
      bucketOf txs tname term ++
        (if (alookup txs tname).isSome then
          contribAux page.file.path tname term page.meta.taxonomies
        else []) := by
  unfold addPageTax bucketOf
  generalize page.meta.taxonomies = pairs
  generalize page.file.path = pk
  induction pairs generalizing txs with
  | nil => simp [contribAux]
  | cons pr rest ih =>
    rw [List.foldl_cons]
    by_cases hpr : pr.1 = tname
    · subst hpr
      cases h : alookup txs pr.1 with
      | none =>
        rw [ih]
        simp [h]
      | some bm =>
        rw [ih]
        simp only [alookup_amodify_self, h, Option.map_some']
        simp only [Option.some_bind, Option.isSome_some, if_true]
        rw [terms_fold_getD]
        simp [contribAux, List.filter_cons, List.append_assoc]
    · cases h : alookup txs pr.1 with
      | none =>
        rw [ih]
        have hne : contribAux pk tname term (pr :: rest) =
            contribAux pk tname term rest := by
          simp [contribAux, List.filter_cons, hpr]
        rw [hne]
      | some bm =>
        rw [ih]
        have hne : tname ≠ pr.1 := fun hh => hpr hh.symm
        rw [alookup_amodify_ne txs hne]
        have hc : contribAux pk tname term (pr :: rest) =
            contribAux pk tname term rest := by
          simp [contribAux, List.filter_cons, hpr]
        rw [hc]

/-- The final taxonomy index of `buildAggregator`: every (taxonomy, term)
bucket of a configured taxonomy is exactly the concatenation, in page
insertion order, of each page's declared contributions. -/
theorem foldl_addPageTax_bucketOf (tname term : String) :
    ∀ (pgs : List Page) (txs : List (String × List (String × List Path))),
      bucketOf (pgs.foldl (fun txs p => addPageTax p txs) txs) tname term =
        bucketOf txs tname term ++
          (if (alookup txs tname).isSome then
            pgs.flatMap (fun p => contribAux p.file.path tname term p.meta.taxonomies)
          else []) := by
  intro pgs
  induction pgs with
  | nil => intro txs; simp
  | cons p rest ih =>
    intro txs
    rw [List.foldl_cons, ih, addPageTax_bucketOf]
    by_cases hs : (alookup txs tname).isSome
    · rw [if_pos hs, if_pos hs,
        if_pos (by rw [isSome_alookup_addPageTax]; exact hs)]
      simp [List.append_assoc]
    · rw [if_neg hs, if_neg hs,
        if_neg (by rw [isSome_alookup_addPageTax]; exact hs)]
      simp

/-- Every bucket of the freshly seeded taxonomy index is empty. -/
theorem bucketOf_seed (taxdefs : List String) (tname term : String) :
    bucketOf (taxdefs.foldl (fun m name => ainsert m name []) []) tname term = [] := by
  unfold bucketOf
  cases h : alookup (taxdefs.foldl (fun m name => ainsert m name []) []) tname with
  | none => rfl
  | some bm =>
    have hmem := alookup_mem h
    rcases mem_foldl_ainsert (fun name => name) (fun _ => []) taxdefs [] _ hmem with
      hm | ⟨x, _, heq⟩
    · cases hm
    · have : bm = [] := congrArg Prod.snd heq
      subst this
      rfl

/-! ## The placement walk, characterized -/

/-- The index path the walk starts from for a page. -/
def startOf (p : Page) : Path := p.file.parent ++ [indexMd]

/-- The fuel `aggregate` supplies for a page's walk. -/
def fuelOf (p : Page) : Nat := (startOf p).length + 1

/-- A section lookup restricted to the fields the walk reads (front matter
and file identity) — invariant under child-list pushes. -/
def metaLookup (S : List (Path × Section)) (k : Path) :
    Option (SectionFrontMatter × FileInfo) :=
  (alookup S k).map (fun s => (s.meta, s.file))

/-- The section keys the walk visits (and pushes the page into), in hop
order. -/
def visitedKeys (fuel : Nat) (sections : List (Path × Section)) (spath : Path) :
    List Path :=
  match fuel with
  | 0 => []
  | fuel + 1 =>
    match alookup sections spath with
    | none => []
    | some sec =>
      spath ::
        (if sec.meta.transparent then
          match nextIndexPath spath with
          | some nxt => visitedKeys fuel sections nxt
          | none => []
        else [])

/-- The page value the walk produces, computed against the *unmutated*
section map (the walk's own pushes touch only child lists, which the walk
never reads). -/
def placedPage (fuel : Nat) (sections : List (Path × Section))
    (ancestors : List (Path × List Path)) (page : Page) (spath : Path) : Page :=
  match fuel with
  | 0 => page
  | fuel + 1 =>
    match alookup sections spath with
    | none => page
    | some sec =>
      let anc := ((alookup ancestors spath).getD []) ++ [sec.file.path]
      let tmpl :=
        if page.meta.template = none then resolveTemplate sections anc
        else page.meta.template
      let page' :=
        { page with ancestors := anc, meta := { page.meta with template := tmpl } }
      if sec.meta.transparent then
        match nextIndexPath spath with
        | some nxt => placedPage fuel sections ancestors page' nxt
        | none => page'
      else page'

/-- One hop's rewrite of the page record (ancestors overwritten, template
resolved if still unset). -/
def placedStep (S : List (Path × Section)) (tbl : List (Path × List Path))
    (page : Page) (sp : Path) (sec : Section) : Page :=
  let anc := ((alookup tbl sp).getD []) ++ [sec.file.path]
  let tmpl :=
    if page.meta.template = none then resolveTemplate S anc
    else page.meta.template
  { page with ancestors := anc, meta := { page.meta with template := tmpl } }

theorem metaLookup_cases {S1 S2 : List (Path × Section)} {k : Path}
    (h : metaLookup S1 k = metaLookup S2 k) :
    (alookup S1 k = none ∧ alookup S2 k = none) ∨
    (∃ s1 s2, alookup S1 k = some s1 ∧ alookup S2 k = some s2 ∧
      s1.meta = s2.meta ∧ s1.file = s2.file) := by
  unfold metaLookup at h
  cases h1 : alookup S1 k <;> cases h2 : alookup S2 k <;> rw [h1, h2] at h
  · exact Or.inl ⟨rfl, rfl⟩
  · cases h
  · cases h
  · rename_i s1 s2
    simp only [Option.map_some', Option.some.injEq, Prod.mk.injEq] at h
    exact Or.inr ⟨s1, s2, rfl, rfl, h.1, h.2⟩

theorem resolveTemplate_congr {S1 S2 : List (Path × Section)}
    (h : ∀ k, metaLookup S1 k = metaLookup S2 k) (anc : List Path) :
    resolveTemplate S1 anc = resolveTemplate S2 anc := by
  unfold resolveTemplate
  congr 1
  funext k
  rcases metaLookup_cases (h k) with ⟨h1, h2⟩ | ⟨s1, s2, h1, h2, hm, _⟩
  · rw [h1, h2]
  · rw [h1, h2]
    show s1.meta.page_template = s2.meta.page_template
    rw [hm]

theorem visitedKeys_congr {S1 S2 : List (Path × Section)}
    (h : ∀ k, metaLookup S1 k = metaLookup S2 k) :
    ∀ (fuel : Nat) (sp : Path), visitedKeys fuel S1 sp = visitedKeys fuel S2 sp := by
  intro fuel
  induction fuel with
  | zero => intro sp; rfl
  | succ n ih =>
    intro sp
    rcases metaLookup_cases (h sp) with ⟨h1, h2⟩ | ⟨s1, s2, h1, h2, hm, _⟩
    · simp [visitedKeys, h1, h2]
    · simp only [visitedKeys, h1, h2, hm]
      cases hn : nextIndexPath sp <;> simp [hn, ih]

theorem placedPage_congr {S1 S2 : List (Path × Section)}
    (tbl : List (Path × List Path))
    (h : ∀ k, metaLookup S1 k = metaLookup S2 k) :
    ∀ (fuel : Nat) (page : Page) (sp : Path),
      placedPage fuel S1 tbl page sp = placedPage fuel S2 tbl page sp := by
  intro fuel
  induction fuel with
  | zero => intro page sp; rfl
  | succ n ih =>
    intro page sp
    rcases metaLookup_cases (h sp) with ⟨h1, h2⟩ | ⟨s1, s2, h1, h2, hm, hf⟩
    · simp [placedPage, h1, h2]
    · simp only [placedPage, h1, h2, hm, hf, resolveTemplate_congr h]
      cases hn : nextIndexPath sp <;> simp [hn, ih]

theorem metaLookup_amodify_pushChild (S : List (Path × Section)) (k pk k' : Path) :
    metaLookup (amodify S k (pushChild pk)) k' = metaLookup S k' := by
  unfold metaLookup
  by_cases hk : k' = k
  · subst hk
    rw [alookup_amodify_self]
    cases alookup S k' <;> rfl
  · rw [alookup_amodify_ne _ hk]

theorem metaLookup_pushFold (pk : Path) :
    ∀ (vs : List Path) (S : List (Path × Section)) (k' : Path),
      metaLookup (vs.foldl (fun m k => amodify m k (pushChild pk)) S) k' =
        metaLookup S k' := by
  intro vs
  induction vs with
  | nil => intro S k'; rfl
  | cons v rest ih =>
    intro S k'
    rw [List.foldl_cons, ih, metaLookup_amodify_pushChild]

/-- The bridge between the source's stateful walk and its pure
characterization: `placePage` pushes the page key into exactly the visited
sections and produces the pure `placedPage` value. -/
theorem placePage_eq :
    ∀ (fuel : Nat) (S : List (Path × Section)) (tbl : List (Path × List Path))
      (pk : Path) (page : Page) (sp : Path),
      placePage fuel S tbl pk page sp =
        ((visitedKeys fuel S sp).foldl (fun m k => amodify m k (pushChild pk)) S,
         placedPage fuel S tbl page sp) := by
  intro fuel
  induction fuel with
  | zero => intro S tbl pk page sp; rfl
  | succ n ih =>
    intro S tbl pk page sp
    cases h : alookup S sp with
    | none => simp [placePage, visitedKeys, placedPage, h]
    | some sec =>
      have hmeta : ∀ k, metaLookup (amodify S sp (pushChild pk)) k = metaLookup S k :=
        fun k => metaLookup_amodify_pushChild S sp pk k
      have hrt : ∀ anc, resolveTemplate (amodify S sp (pushChild pk)) anc =
          resolveTemplate S anc := resolveTemplate_congr hmeta
      by_cases ht : sec.meta.transparent
      · cases hn : nextIndexPath sp with
        | none =>
          simp [placePage, visitedKeys, placedPage, h, ht, hn, hrt]
        | some nxt =>
          simp only [placePage, visitedKeys, placedPage, h, ht, hn, if_true]
          rw [ih, visitedKeys_congr hmeta, placedPage_congr tbl hmeta]
          simp [List.foldl_cons, hrt]
      · simp [placePage, visitedKeys, placedPage, h, ht, hrt]

theorem nextIndexPath_length {sp nxt : Path} (h : nextIndexPath sp = some nxt) :
    nxt.length < sp.length := by
  unfold nextIndexPath at h
  cases sp with
  | nil => cases h
  | cons a rest =>
    cases hd : (a :: rest).dropLast with
    | nil => rw [hd] at h; cases h
    | cons b dir =>
      rw [hd] at h
      cases h
      have hlen : (b :: dir).length = rest.length := by
        have := List.length_dropLast (a :: rest)
        rw [hd] at this
        simpa using this
      simp only [List.length_append, List.length_cons, List.length_dropLast,
        List.length_nil]
      simp only [List.length_cons] at hlen
      omega

theorem mem_visitedKeys_length :
    ∀ (fuel : Nat) (S : List (Path × Section)) (sp x : Path),
      x ∈ visitedKeys fuel S sp → x.length ≤ sp.length := by
  intro fuel
  induction fuel with
  | zero => intro S sp x h; cases h
  | succ n ih =>
    intro S sp x h
    unfold visitedKeys at h
    cases hl : alookup S sp with
    | none => rw [hl] at h; cases h
    | some sec =>
      rw [hl] at h
      rcases List.mem_cons.mp h with rfl | h'
      · exact Nat.le_refl _
      · by_cases ht : sec.meta.transparent
        · rw [if_pos ht] at h'
          cases hn : nextIndexPath sp with
          | none => rw [hn] at h'; cases h'
          | some nxt =>
            rw [hn] at h'
            exact Nat.le_of_lt (Nat.lt_of_le_of_lt (ih S nxt x h')
              (nextIndexPath_length hn))
        · rw [if_neg ht] at h'
          cases h'

theorem visitedKeys_nodup :
    ∀ (fuel : Nat) (S : List (Path × Section)) (sp : Path),
      (visitedKeys fuel S sp).Nodup := by
  intro fuel
  induction fuel with
  | zero => intro S sp; exact List.nodup_nil
  | succ n ih =>
    intro S sp
    unfold visitedKeys
    cases hl : alookup S sp with
    | none => exact List.nodup_nil
    | some sec =>
      rw [List.nodup_cons]
      constructor
      · by_cases ht : sec.meta.transparent
        · rw [if_pos ht]
          cases hn : nextIndexPath sp with
          | none => exact List.not_mem_nil sp
          | some nxt =>
            intro hmem
            have h1 := mem_visitedKeys_length n S nxt sp hmem
            have h2 := nextIndexPath_length hn
            omega
        · rw [if_neg ht]
          exact List.not_mem_nil sp
      · by_cases ht : sec.meta.transparent
        · rw [if_pos ht]
          cases hn : nextIndexPath sp with
          | none => exact List.nodup_nil
          | some nxt => exact ih S nxt
        · rw [if_neg ht]
          exact List.nodup_nil

theorem foldl_amodify_visited (pk : Path) :
    ∀ (vs : List Path), vs.Nodup → ∀ (S : List (Path × Section)) (k : Path),
      alookup (vs.foldl (fun m k' => amodify m k' (pushChild pk)) S) k =
        if k ∈ vs then (alookup S k).map (pushChild pk) else alookup S k := by
  intro vs
  induction vs with
  | nil => intro _ S k; simp
  | cons v rest ih =>
    intro hnd S k
    rw [List.nodup_cons] at hnd
    rw [List.foldl_cons, ih hnd.2]
    by_cases hk : k ∈ v :: rest
    · rcases List.mem_cons.mp hk with rfl | hk'
      · have : k ∉ rest := hnd.1
        rw [if_neg this, if_pos hk, alookup_amodify_self]
      · rw [if_pos hk', if_pos hk]
        have hkv : k ≠ v := fun hh => hnd.1 (hh ▸ hk')
        rw [alookup_amodify_ne _ hkv]
    · have h1 : k ∉ rest := fun hh => hk (List.mem_cons_of_mem v hh)
      have h2 : k ≠ v := fun hh => hk (hh ▸ List.mem_cons_self v rest)
      rw [if_neg h1, if_neg hk, alookup_amodify_ne _ h2]

/-- The placement pass of `aggregate`, characterized: the threaded fold
equals the bulk child-list pushes plus the independently computed placed
pages (all against the pre-placement section map `S0`). -/
theorem placement_fold (tbl : List (Path × List Path)) (S0 : List (Path × Section)) :
    ∀ (P : List (Path × Page)) (S : List (Path × Section)) (acc : List (Path × Page)),
      (∀ k, metaLookup S k = metaLookup S0 k) →
      P.foldl (fun st kv =>
          let parent_section_path := kv.2.file.parent ++ [indexMd]
          let res := placePage (parent_section_path.length + 1) st.1 tbl kv.1 kv.2
            parent_section_path
          (res.1, st.2 ++ [(kv.1, res.2)])) (S, acc) =
        (P.foldl (fun m kv => (visitedKeys (fuelOf kv.2) S0 (startOf kv.2)).foldl
            (fun m' k => amodify m' k (pushChild kv.1)) m) S,
         acc ++ P.map (fun kv =>
           (kv.1, placedPage (fuelOf kv.2) S0 tbl kv.2 (startOf kv.2)))) := by
  intro P
  induction P with
  | nil => intro S acc h; simp
  | cons kv rest ih =>
    intro S acc h
    rw [List.foldl_cons, List.foldl_cons]
    show rest.foldl _
        ((placePage (fuelOf kv.2) S tbl kv.1 kv.2 (startOf kv.2)).1,
         acc ++ [(kv.1, (placePage (fuelOf kv.2) S tbl kv.1 kv.2 (startOf kv.2)).2)]) = _
    rw [placePage_eq]
    have hS' : ∀ k, metaLookup ((visitedKeys (fuelOf kv.2) S (startOf kv.2)).foldl
        (fun m k' => amodify m k' (pushChild kv.1)) S) k = metaLookup S0 k :=
      fun k => (metaLookup_pushFold kv.1 _ S k).trans (h k)
    rw [ih _ _ hS']
    rw [visitedKeys_congr h, placedPage_congr tbl h]
    simp [List.append_assoc]

/-- The per-section reordering pass of `aggregate` (sorted-then-unsorted
for sections with a sort key). -/
def sortSectionStep (pgs : List (Path × Page)) (kv : Path × Section) :
    Path × Section :=
  match kv.2.meta.sort_by with
  | none => kv
  | some sort_by =>
    let sr := sort_pages_by sort_by (kv.2.pages.filterMap (fun p => alookup pgs p))
    (kv.1, { kv.2 with pages := sr.1 ++ sr.2 })

/-- The per-taxonomy reordering pass of `aggregate` (every term bucket
date-sorted). -/
def sortTaxStep (pgs : List (Path × Page)) (tx : String × List (String × List Path)) :
    String × List (String × List Path) :=
  (tx.1, tx.2.map (fun bucket =>
    let sr := sort_pages_by SortBy.date (bucket.2.filterMap (fun p => alookup pgs p))
    (bucket.1, sr.1 ++ sr.2)))

/-- The page map after placement. -/
def placedPages (a : ContentAggregator) : List (Path × Page) :=
  a.pages.map (fun kv =>
    (kv.1, placedPage (fuelOf kv.2) a.sections a.build_ancestors kv.2 (startOf kv.2)))

/-- The section map after placement (bulk child-list pushes). -/
def pushedSections (a : ContentAggregator) : List (Path × Section) :=
  a.pages.foldl (fun m kv => (visitedKeys (fuelOf kv.2) a.sections (startOf kv.2)).foldl
    (fun m' k => amodify m' k (pushChild kv.1)) m) a.sections

/-- `aggregate`, fully characterized through the pure placement
functions. -/
theorem aggregate_eq (a : ContentAggregator) :
    a.aggregate = ((pushedSections a).map (sortSectionStep (placedPages a)),
      placedPages a,
      a.taxonomies.map (sortTaxStep (placedPages a))) := by
  unfold ContentAggregator.aggregate
  simp only [placement_fold a.build_ancestors a.sections a.pages a.sections []
    (fun _ => rfl), List.nil_append]
  rfl

theorem map_fst_pushChildFold (pk : Path) :
    ∀ (vs : List Path) (S : List (Path × Section)),
      (vs.foldl (fun m k => amodify m k (pushChild pk)) S).map Prod.fst =
        S.map Prod.fst := by
  intro vs
  induction vs with
  | nil => intro S; rfl
  | cons v rest ih => intro S; rw [List.foldl_cons, ih, map_fst_amodify]

theorem map_fst_pushfold (S0 : List (Path × Section)) :
    ∀ (P : List (Path × Page)) (S : List (Path × Section)),
      (P.foldl (fun m kv => (visitedKeys (fuelOf kv.2) S0 (startOf kv.2)).foldl
          (fun m' k => amodify m' k (pushChild kv.1)) m) S).map Prod.fst =
        S.map Prod.fst := by
  intro P
  induction P with
  | nil => intro S; rfl
  | cons kv rest ih =>
    intro S
    rw [List.foldl_cons, ih, map_fst_pushChildFold]

theorem map_fst_pushedSections (a : ContentAggregator) :
    (pushedSections a).map Prod.fst = a.sections.map Prod.fst :=
  map_fst_pushfold a.sections a.pages a.sections

theorem alookup_pushfold (S0 : List (Path × Section)) :
    ∀ (P : List (Path × Page)) (S : List (Path × Section)) (k : Path),
      alookup (P.foldl (fun m kv => (visitedKeys (fuelOf kv.2) S0 (startOf kv.2)).foldl
          (fun m' k' => amodify m' k' (pushChild kv.1)) m) S) k =
        (alookup S k).map (fun s => { s with pages := s.pages ++
          (P.filter (fun kv =>
            decide (k ∈ visitedKeys (fuelOf kv.2) S0 (startOf kv.2)))).map Prod.fst }) := by
  intro P
  induction P with
  | nil =>
    intro S k
    cases h : alookup S k <;> simp [h]
  | cons kv rest ih =>
    intro S k
    rw [List.foldl_cons, ih, foldl_amodify_visited kv.1 _ (visitedKeys_nodup _ _ _)]
    by_cases hk : k ∈ visitedKeys (fuelOf kv.2) S0 (startOf kv.2)
    · rw [if_pos hk]
      cases alookup S k with
      | none => simp
      | some s => simp [List.filter_cons, hk, pushChild, List.append_assoc]
    · rw [if_neg hk]
      cases alookup S k with
      | none => simp
      | some s => simp [List.filter_cons, hk]

theorem alookup_pushedSections (a : ContentAggregator) (k : Path) :
    alookup (pushedSections a) k =
      (alookup a.sections k).map (fun s => { s with pages := s.pages ++
        (a.pages.filter (fun kv =>
          decide (k ∈ visitedKeys (fuelOf kv.2) a.sections (startOf kv.2)))).map Prod.fst }) :=
  alookup_pushfold a.sections a.pages a.sections k

theorem alookup_placedPages (a : ContentAggregator) (k : Path) :
    alookup (placedPages a) k = (alookup a.pages k).map
      (fun p => placedPage (fuelOf p) a.sections a.build_ancestors p (startOf p)) :=
  alookup_map_keyed a.pages
    (fun _ p => placedPage (fuelOf p) a.sections a.build_ancestors p (startOf p)) k

/-- The walk rewrites only `ancestors` and `meta.template`: file identity,
route string, date and taxonomy declarations survive placement. -/
theorem placedPage_preserves :
    ∀ (fuel : Nat) (S : List (Path × Section)) (tbl : List (Path × List Path))
      (page : Page) (sp : Path),
      (placedPage fuel S tbl page sp).file = page.file ∧
      (placedPage fuel S tbl page sp).path = page.path ∧
      (placedPage fuel S tbl page sp).meta.date = page.meta.date ∧
      (placedPage fuel S tbl page sp).meta.taxonomies = page.meta.taxonomies := by
  intro fuel
  induction fuel with
  | zero => intro S tbl page sp; exact ⟨rfl, rfl, rfl, rfl⟩
  | succ n ih =>
    intro S tbl page sp
    cases hl : alookup S sp with
    | none => simp [placedPage, hl]
    | some sec =>
      by_cases ht : sec.meta.transparent
      · cases hn : nextIndexPath sp with
        | none => simp [placedPage, hl, ht, hn]
        | some nxt =>
          simp only [placedPage, hl, ht, hn, if_true]
          exact ih S tbl _ nxt
      · simp [placedPage, hl, ht]

/-- Every ancestor the walk assigns is a key of the section map, provided
the ancestor table's entries are and the page started with such
ancestors. -/
theorem placedPage_ancestors_sub :
    ∀ (fuel : Nat) (S : List (Path × Section)) (tbl : List (Path × List Path))
      (page : Page) (sp : Path),
      (∀ kv, kv ∈ S → kv.1 = kv.2.file.path) →
      (∀ k l, alookup tbl k = some l → ∀ x ∈ l, x ∈ S.map Prod.fst) →
      (∀ x ∈ page.ancestors, x ∈ S.map Prod.fst) →
      ∀ x ∈ (placedPage fuel S tbl page sp).ancestors, x ∈ S.map Prod.fst := by
  intro fuel
  induction fuel with
  | zero => intro S tbl page sp _ _ hpage; exact hpage
  | succ n ih =>
    intro S tbl page sp hS htbl hpage
    cases hl : alookup S sp with
    | none =>
      have heq : placedPage (n + 1) S tbl page sp = page := by
        simp [placedPage, hl]
      rw [heq]
      exact hpage
    | some sec =>
      have hanc : ∀ x ∈ ((alookup tbl sp).getD []) ++ [sec.file.path],
          x ∈ S.map Prod.fst := by
        intro x hx
        rcases List.mem_append.mp hx with hx' | hx'
        · cases htl : alookup tbl sp with
          | none => rw [htl] at hx'; cases hx'
          | some l =>
            rw [htl] at hx'
            exact htbl sp l htl x hx'
        · rw [List.mem_singleton.mp hx']
          have hmem := alookup_mem hl
          have := hS _ hmem
          rw [← this]
          exact List.mem_map_of_mem Prod.fst hmem
      have hanc' : ∀ x ∈ (placedStep S tbl page sp sec).ancestors,
          x ∈ S.map Prod.fst := hanc
      by_cases ht : sec.meta.transparent
      · cases hn : nextIndexPath sp with
        | none =>
          have heq : placedPage (n + 1) S tbl page sp =
              placedStep S tbl page sp sec := by
            simp [placedPage, hl, ht, hn, placedStep]
          rw [heq]
          exact hanc'
        | some nxt =>
          have heq : placedPage (n + 1) S tbl page sp =
              placedPage n S tbl (placedStep S tbl page sp sec) nxt := by
            simp [placedPage, hl, ht, hn, placedStep]
          rw [heq]
          exact ih S tbl _ nxt hS htbl hanc'
      · have heq : placedPage (n + 1) S tbl page sp =
            placedStep S tbl page sp sec := by
          simp [placedPage, hl, ht, placedStep]
        rw [heq]
        exact hanc'

/-- Every entry of a section's computed ancestor list is a key of the
section map, provided the content root's index path is one. -/
theorem sectionAncestors_sub (cp : Path) (S : List (Path × Section)) (s : Section)
    (hroot : cp ++ [indexMd] ∈ S.map Prod.fst)
    (hS : ∀ kv, kv ∈ S → kv.1 = kv.2.file.path) :
    ∀ x ∈ sectionAncestors cp S s, x ∈ S.map Prod.fst := by
  unfold sectionAncestors
  split
  · intro x hx; cases hx
  · have hone : ∀ (st : Path × List Path) (comp : String),
        (∀ x ∈ st.2, x ∈ S.map Prod.fst) →
        ∀ x ∈ (ancestorStep S s st comp).2, x ∈ S.map Prod.fst := by
      intro st comp hst
      unfold ancestorStep
      by_cases hcur : st.1 ++ [comp] = s.file.parent
      · rw [if_pos hcur]
        exact hst
      · rw [if_neg hcur]
        cases hl : alookup S ((st.1 ++ [comp]) ++ [indexMd]) with
        | none => exact hst
        | some ancestor =>
          intro y hy
          rcases List.mem_append.mp hy with hy' | hy'
          · exact hst y hy'
          · rw [List.mem_singleton.mp hy']
            have hmem := alookup_mem hl
            have := hS _ hmem
            rw [← this]
            exact List.mem_map_of_mem Prod.fst hmem
    have hstep : ∀ (comps : List String) (st : Path × List Path),
        (∀ x ∈ st.2, x ∈ S.map Prod.fst) →
        ∀ x ∈ (comps.foldl (ancestorStep S s) st).2, x ∈ S.map Prod.fst := by
      intro comps
      induction comps with
      | nil => intro st hst x hx; exact hst x hx
      | cons comp rest ihc =>
        intro st hst x hx
        rw [List.foldl_cons] at hx
        exact ihc _ (hone st comp hst) x hx
    intro x hx
    refine hstep s.file.components (cp, [cp ++ [indexMd]]) ?_ x hx
    intro y hy
    rw [List.mem_singleton.mp hy]
    exact hroot

/-- The ancestor table's entries are keys of the section map (given the
root index section exists). -/
theorem build_ancestors_sub (a : ContentAggregator)
    (hroot : a.content_path ++ [indexMd] ∈ a.sections.map Prod.fst)
    (hS : ∀ kv, kv ∈ a.sections → kv.1 = kv.2.file.path) :
    ∀ k l, alookup a.build_ancestors k = some l →
      ∀ x ∈ l, x ∈ a.sections.map Prod.fst := by
  intro k l hl x hx
  have hmem := alookup_mem hl
  unfold ContentAggregator.build_ancestors at hmem
  rcases List.mem_map.mp hmem with ⟨kv, hkv, heq⟩
  have : l = sectionAncestors a.content_path a.sections kv.2 :=
    (congrArg Prod.snd heq).symm
  subst this
  exact sectionAncestors_sub a.content_path a.sections kv.2 hroot hS x hx

/-! ## Claim C2 — post-aggregate key invariants -/

theorem nodup_keys_ainsert {α β : Type} [DecidableEq α] {m : List (α × β)}
    (h : (m.map Prod.fst).Nodup) (k : α) (v : β) :
    ((ainsert m k v).map Prod.fst).Nodup := by
  rw [map_fst_ainsert]
  split
  · exact h
  · rename_i hs
    have hk : k ∉ m.map Prod.fst := fun hmem => hs (alookup_isSome_iff.mpr hmem)
    simp [List.nodup_append, h, hk]

theorem nodup_keys_foldl_ainsert {α β γ : Type} [DecidableEq α] (κ : γ → α)
    (ν : γ → β) :
    ∀ (items : List γ) (m0 : List (α × β)), (m0.map Prod.fst).Nodup →
      ((items.foldl (fun m y => ainsert m (κ y) (ν y)) m0).map Prod.fst).Nodup := by
  intro items
  induction items with
  | nil => intro m0 h; exact h
  | cons y rest ih => intro m0 h; exact ih _ (nodup_keys_ainsert h (κ y) (ν y))

theorem alookup_of_mem_nodup {α β : Type} [DecidableEq α] :
    ∀ {m : List (α × β)}, (m.map Prod.fst).Nodup → ∀ {kv : α × β}, kv ∈ m →
      alookup m kv.1 = some kv.2 := by
  intro m
  induction m with
  | nil => intro _ kv h; cases h
  | cons x rest ih =>
    intro hnd kv hkv
    simp only [List.map_cons, List.nodup_cons] at hnd
    rcases List.mem_cons.mp hkv with rfl | h'
    · simp [alookup]
    · have hx : x.1 ≠ kv.1 := fun hh => hnd.1 (hh ▸ List.mem_map_of_mem Prod.fst h')
      rw [alookup_cons, if_neg hx]
      exact ih hnd.2 h'

theorem map_fst_placedPages (a : ContentAggregator) :
    (placedPages a).map Prod.fst = a.pages.map Prod.fst := by
  unfold placedPages
  rw [List.map_map]
  exact List.map_congr_left (fun kv _ => rfl)

theorem map_fst_sortSections (pgs : List (Path × Page))
    (l : List (Path × Section)) :
    (l.map (sortSectionStep pgs)).map Prod.fst = l.map Prod.fst := by
  rw [List.map_map]
  refine List.map_congr_left (fun kv _ => ?_)
  show (sortSectionStep pgs kv).1 = kv.1
  unfold sortSectionStep
  cases kv.2.meta.sort_by <;> rfl

/-- Every entry of the built aggregator's section map is keyed by its own
file path and is one of the added sections. -/
theorem mem_buildAggregator_sections (cp : Path) (taxdefs : List String)
    (secs : List Section) (pgs : List Page) :
    ∀ kv ∈ (buildAggregator cp taxdefs secs pgs).sections,
      kv.1 = kv.2.file.path ∧ kv.2 ∈ secs := by
  intro kv hkv
  rw [buildAggregator_sections] at hkv
  rcases mem_foldl_ainsert (fun s : Section => s.file.path) (fun s => s)
      secs [] kv hkv with h | ⟨s, hs, rfl⟩
  · cases h
  · exact ⟨rfl, hs⟩

/-- Every entry of the built aggregator's page map is keyed by its own file
path and is one of the added pages. -/
theorem mem_buildAggregator_pages (cp : Path) (taxdefs : List String)
    (secs : List Section) (pgs : List Page) :
    ∀ kv ∈ (buildAggregator cp taxdefs secs pgs).pages,
      kv.1 = kv.2.file.path ∧ kv.2 ∈ pgs := by
  intro kv hkv
  rw [buildAggregator_pages] at hkv
  rcases mem_foldl_ainsert (fun p : Page => p.file.path) (fun p => p)
      pgs [] kv hkv with h | ⟨p, hp, rfl⟩
  · cases h
  · exact ⟨rfl, hp⟩

/-- Every key either group of `sort_pages_by` returns is the file path of
one of the input pages. -/
theorem sort_pages_by_mem (sb : SortBy) (pages : List Page) (x : Path)
    (hx : x ∈ (sort_pages_by sb pages).1 ∨ x ∈ (sort_pages_by sb pages).2) :
    ∃ p ∈ pages, x = p.file.path := by
  unfold sort_pages_by sortedPart at hx
  rcases hx with hx | hx
  · rcases List.mem_map.mp hx with ⟨p, hp, rfl⟩
    have hp' : p ∈ (pages.partition (hasSortField sb)).1 :=
      (List.perm_insertionSort pageLe _).mem_iff.mp hp
    rw [List.partition_eq_filter_filter] at hp'
    exact ⟨p, List.mem_of_mem_filter hp', rfl⟩
  · rcases List.mem_map.mp hx with ⟨p, hp, rfl⟩
    rw [List.partition_eq_filter_filter] at hp
    exact ⟨p, List.mem_of_mem_filter hp, rfl⟩

/-- What a successful lookup of the placed page map yields: the placement
of the originally inserted page, with file path, date, route and taxonomy
declarations intact. -/
theorem placedPages_lookup_spec (a : ContentAggregator)
    (hco : ∀ kv ∈ a.pages, kv.1 = kv.2.file.path) {k : Path} {p : Page}
    (h : alookup (placedPages a) k = some p) :
    ∃ q, alookup a.pages k = some q ∧
      p = placedPage (fuelOf q) a.sections a.build_ancestors q (startOf q) ∧
      p.file.path = k ∧ p.meta.date = q.meta.date ∧ p.path = q.path ∧
      p.meta.taxonomies = q.meta.taxonomies := by
  rw [alookup_placedPages] at h
  cases hq : alookup a.pages k with
  | none => rw [hq] at h; cases h
  | some q =>
    rw [hq] at h
    simp only [Option.map_some', Option.some.injEq] at h
    have hpres := placedPage_preserves (fuelOf q) a.sections a.build_ancestors q
      (startOf q)
    have hk : k = q.file.path := hco _ (alookup_mem hq)
    subst h
    exact ⟨q, rfl, rfl, by rw [hpres.1, hk], hpres.2.2.1, hpres.2.1, hpres.2.2.2⟩

/-- The sorted-then-unsorted reordering of one taxonomy term bucket
(`aggregate`'s taxonomy pass for a single bucket). -/
def sortedBucket (pgs : List (Path × Page)) (ks : List Path) : List Path :=
  (sort_pages_by SortBy.date (ks.filterMap (fun p => alookup pgs p))).1 ++
    (sort_pages_by SortBy.date (ks.filterMap (fun p => alookup pgs p))).2

theorem mem_sortedBucket {pgs : List (Path × Page)} {ks : List Path} {x : Path}
    (h : x ∈ sortedBucket pgs ks) :
    ∃ k ∈ ks, ∃ p, alookup pgs k = some p ∧ x = p.file.path := by
  unfold sortedBucket at h
  rcases List.mem_append.mp h with h | h
  · rcases sort_pages_by_mem _ _ x (Or.inl h) with ⟨p, hp, rfl⟩
    rcases List.mem_filterMap.mp hp with ⟨k, hk, hlk⟩
    exact ⟨k, hk, p, hlk, rfl⟩
  · rcases sort_pages_by_mem _ _ x (Or.inr h) with ⟨p, hp, rfl⟩
    rcases List.mem_filterMap.mp hp with ⟨k, hk, hlk⟩
    exact ⟨k, hk, p, hlk, rfl⟩

/-- Every (taxonomy, term) bucket `aggregate` returns is the corresponding
pre-placement bucket, re-sorted against the placed page map. -/
theorem bucketOf_aggregate (a : ContentAggregator) (tname term : String) :
    bucketOf a.aggregate.2.2 tname term =
      sortedBucket (placedPages a) (bucketOf a.taxonomies tname term) := by
  rw [aggregate_eq]
  show bucketOf (a.taxonomies.map (sortTaxStep (placedPages a))) tname term = _
  unfold bucketOf
  have houter : alookup (a.taxonomies.map (sortTaxStep (placedPages a))) tname =
      (alookup a.taxonomies tname).map (fun bl => bl.map
        (fun bucket => (bucket.1, sortedBucket (placedPages a) bucket.2))) :=
    alookup_map_keyed a.taxonomies (fun _ bl => bl.map
      (fun bucket => (bucket.1, sortedBucket (placedPages a) bucket.2))) tname
  rw [houter]
  cases hbl : alookup a.taxonomies tname with
  | none => rfl
  | some bl =>
    have hinner : alookup (bl.map
        (fun bucket => (bucket.1, sortedBucket (placedPages a) bucket.2))) term =
        (alookup bl term).map (fun ks => sortedBucket (placedPages a) ks) :=
      alookup_map_keyed bl (fun _ ks => sortedBucket (placedPages a) ks) term
    simp only [Option.map_some', Option.some_bind]
    rw [hinner]
    cases hks : alookup bl term with
    | none => rfl
    | some ks => rfl

theorem mem_contribAux {pk x : Path} {tname term : String}
    {pairs : List (String × List String)}
    (h : x ∈ contribAux pk tname term pairs) :
    x = pk ∧ ∃ pr ∈ pairs, pr.1 = tname ∧ term ∈ pr.2 := by
  unfold contribAux at h
  rcases List.mem_flatMap.mp h with ⟨pr, hpr, hx⟩
  rcases List.mem_map.mp hx with ⟨t, ht, rfl⟩
  have h1 := List.mem_of_mem_filter hpr
  have h2 : pr.1 = tname := by
    have := (List.mem_filter.mp hpr).2
    simpa using this
  have h3 := List.mem_of_mem_filter ht
  have h4 : t = term := by
    have := (List.mem_filter.mp ht).2
    simpa using this
  exact ⟨rfl, pr, h1, h2, h4 ▸ h3⟩

/-- The pre-placement (taxonomy, term) bucket of a built aggregator: empty
for an unconfigured taxonomy, otherwise the pages' declared contributions
in insertion order. -/
theorem bucketOf_buildAggregator (cp : Path) (taxdefs : List String)
    (secs : List Section) (pgs : List Page) (tname term : String) :
    bucketOf (buildAggregator cp taxdefs secs pgs).taxonomies tname term =
      if (alookup (taxdefs.foldl (fun m name => ainsert m name [])
          ([] : List (String × List (String × List Path)))) tname).isSome
      then pgs.flatMap (fun p => contribAux p.file.path tname term p.meta.taxonomies)
      else [] := by
  rw [buildAggregator_taxonomies, foldl_addPageTax_bucketOf, bucketOf_seed]
  simp

theorem c2_aux_section_keys (cp : Path) (taxdefs : List String)
    (secs : List Section) (pgs : List Page) :
    (buildAggregator cp taxdefs secs pgs).aggregate.1.map Prod.fst =
      (buildAggregator cp taxdefs secs pgs).sections.map Prod.fst := by
  rw [aggregate_eq]
  exact (map_fst_sortSections _ _).trans (map_fst_pushedSections _)

theorem c2_aux_page_keys (cp : Path) (taxdefs : List String)
    (secs : List Section) (pgs : List Page) :
    (buildAggregator cp taxdefs secs pgs).aggregate.2.1.map Prod.fst =
      (buildAggregator cp taxdefs secs pgs).pages.map Prod.fst := by
  rw [aggregate_eq]
  exact map_fst_placedPages _

/-! ## The aggregate's panics, modelled faithfully

`aggregate` can panic in three places: the inherited-template scan unwraps
every ancestor lookup (`self.sections.get(ancestor).unwrap()`), the section
reordering pass indexes the page map (`&self.pages[path]`), and the
taxonomy pass unwraps its page lookups (`self.pages.get(page).unwrap()`).
`aggregateP` below mirrors the source with `none` as the panic; the total
functions above coincide with it exactly on panic-free inputs
(`aggregateP_eq`). -/

/-- The template scan's loop body over the reversed ancestor list (nearest
first): `none` is the `unwrap` panic on a missing ancestor key, `some t`
the scan's result. -/
def templateScan (sections : List (Path × Section)) :
    List Path → Option (Option String)
  | [] => some none
  | k :: rest =>
    match alookup sections k with
    | none => none
    | some s =>
      match s.meta.page_template with
      | some t => some (some t)
      | none => templateScan sections rest

/-- The inherited-template scan with the source's `unwrap` panic kept. -/
def resolveTemplateP (sections : List (Path × Section))
    (ancestors : List Path) : Option (Option String) :=
  templateScan sections ancestors.reverse

theorem templateScan_eq (S : List (Path × Section)) :
    ∀ (l : List Path), (∀ k ∈ l, k ∈ S.map Prod.fst) →
      templateScan S l = some (l.findSome? (fun k =>
        (alookup S k).bind (fun s => s.meta.page_template))) := by
  intro l
  induction l with
  | nil => intro _; rfl
  | cons k rest ih =>
    intro h
    have hk : (alookup S k).isSome = true :=
      alookup_isSome_iff.mpr (h k (List.mem_cons_self k rest))
    rcases Option.isSome_iff_exists.mp hk with ⟨s, hs⟩
    show (match alookup S k with
      | none => none
      | some s =>
        match s.meta.page_template with
        | some t => some (some t)
        | none => templateScan S rest) = _
    rw [hs, List.findSome?_cons, hs]
    cases ht : s.meta.page_template with
    | none =>
      simp only [Option.some_bind, ht]
      exact ih (fun k' hk' => h k' (List.mem_cons_of_mem k hk'))
    | some t => simp [Option.some_bind, ht]

/-- On ancestor lists whose entries are all present, the panicking scan
returns exactly the total `resolveTemplate`. -/
theorem resolveTemplateP_eq (S : List (Path × Section)) (anc : List Path)
    (h : ∀ k ∈ anc, k ∈ S.map Prod.fst) :
    resolveTemplateP S anc = some (resolveTemplate S anc) := by
  unfold resolveTemplateP resolveTemplate
  exact templateScan_eq S anc.reverse (fun k hk => h k (List.mem_reverse.mp hk))

/-- The per-page walk of `aggregate` with the template scan's panic kept:
`none` is the `unwrap` panic inside the scan. -/
def placePageP (fuel : Nat) (sections : List (Path × Section))
    (ancestors : List (Path × List Path)) (path : Path) (page : Page)
    (parent_section_path : Path) :
    Option (List (Path × Section) × Page) :=
  match fuel with
  | 0 => some (sections, page)
  | fuel + 1 =>
    match alookup sections parent_section_path with
    | none => some (sections, page)
    | some parent_section =>
      let sections' := amodify sections parent_section_path (pushChild path)
      let anc := ((alookup ancestors parent_section_path).getD []) ++
        [parent_section.file.path]
      match (if page.meta.template = none then resolveTemplateP sections' anc
        else some page.meta.template) with
      | none => none
      | some tmpl =>
        let page' :=
          { page with ancestors := anc, meta := { page.meta with template := tmpl } }
        if parent_section.meta.transparent then
          match nextIndexPath parent_section_path with
          | some parent => placePageP fuel sections' ancestors path page' parent
          | none => some (sections', page')
        else some (sections', page')

/-- A panic-propagating traversal: `none` as soon as `f` panics on an
element, otherwise the list of results (the `.map(...).collect()` over a
panicking closure). -/
def olist {α β : Type} (f : α → Option β) : List α → Option (List β)
  | [] => some []
  | x :: rest =>
    match f x with
    | none => none
    | some y => (olist f rest).map (fun ys => y :: ys)

theorem olist_eq_map {α β : Type} (f : α → Option β) (g : α → β) :
    ∀ (l : List α), (∀ x ∈ l, f x = some (g x)) → olist f l = some (l.map g) := by
  intro l
  induction l with
  | nil => intro _; rfl
  | cons x rest ih =>
    intro h
    show (match f x with
      | none => none
      | some y => (olist f rest).map (fun ys => y :: ys)) = _
    rw [h x (List.mem_cons_self x rest),
      ih (fun y hy => h y (List.mem_cons_of_mem x hy))]
    rfl

theorem olist_eq_some {α β : Type} (f : α → Option β) :
    ∀ (l : List α), (∀ x ∈ l, (f x).isSome = true) →
      olist f l = some (l.filterMap f) := by
  intro l
  induction l with
  | nil => intro _; rfl
  | cons x rest ih =>
    intro h
    rcases Option.isSome_iff_exists.mp (h x (List.mem_cons_self x rest)) with ⟨y, hy⟩
    show (match f x with
      | none => none
      | some y => (olist f rest).map (fun ys => y :: ys)) = _
    rw [hy, ih (fun z hz => h z (List.mem_cons_of_mem x hz))]
    simp [List.filterMap_cons, hy]

/-- One section's reordering step with the source's panicking page-map
indexing (`&self.pages[path]`), which runs before the sort-key check. -/
def sectionStepP (pages : List (Path × Page)) (kv : Path × Section) :
    Option (Path × Section) :=
  match olist (fun p => alookup pages p) kv.2.pages with
  | none => none
  | some ps =>
    match kv.2.meta.sort_by with
    | none => some kv
    | some sort_by =>
      let sr := sort_pages_by sort_by ps
      some (kv.1, { kv.2 with pages := sr.1 ++ sr.2 })

/-- One taxonomy's reordering step with the source's panicking page
lookups (`self.pages.get(page).unwrap()`). -/
def taxStepP (pages : List (Path × Page))
    (tx : String × List (String × List Path)) :
    Option (String × List (String × List Path)) :=
  (olist (fun bucket =>
    (olist (fun p => alookup pages p) bucket.2).map (fun ps =>
      let sr := sort_pages_by SortBy.date ps
      (bucket.1, sr.1 ++ sr.2))) tx.2).map (fun bl => (tx.1, bl))

/-- `ContentAggregator::aggregate` with every panic site kept: `none` is a
panic in the template scan, the section pass's page indexing, or the
taxonomy pass's page lookups. -/
def ContentAggregator.aggregateP (a : ContentAggregator) :
    Option (List (Path × Section) × List (Path × Page) ×
      List (String × List (String × List Path))) :=
  match a.pages.foldl
      (fun (st? : Option (List (Path × Section) × List (Path × Page))) kv =>
        st?.bind (fun st =>
          let parent_section_path := kv.2.file.parent ++ [indexMd]
          (placePageP (parent_section_path.length + 1) st.1 a.build_ancestors
            kv.1 kv.2 parent_section_path).map
            (fun res => (res.1, st.2 ++ [(kv.1, res.2)]))))
      (some (a.sections, [])) with
  | none => none
  | some placed =>
    match olist (sectionStepP placed.2) placed.1 with
    | none => none
    | some sections =>
      match olist (taxStepP placed.2) a.taxonomies with
      | none => none
      | some taxonomies => some (sections, placed.2, taxonomies)

theorem coherence_amodify_pushChild {S : List (Path × Section)}
    (hS : ∀ kv ∈ S, kv.1 = kv.2.file.path) (sp pk : Path) :
    ∀ kv ∈ amodify S sp (pushChild pk), kv.1 = kv.2.file.path := by
  intro kv hkv
  unfold amodify at hkv
  rcases List.mem_map.mp hkv with ⟨kv0, hkv0, rfl⟩
  show (if kv0.1 = sp then (kv0.1, pushChild pk kv0.2) else kv0).1 =
    (if kv0.1 = sp then (kv0.1, pushChild pk kv0.2) else kv0).2.file.path
  by_cases h : kv0.1 = sp
  · rw [if_pos h]
    exact hS kv0 hkv0
  · rw [if_neg h]
    exact hS kv0 hkv0

theorem coherence_pushChildFold (pk : Path) :
    ∀ (vs : List Path) (S : List (Path × Section)),
      (∀ kv ∈ S, kv.1 = kv.2.file.path) →
      ∀ kv ∈ vs.foldl (fun m k => amodify m k (pushChild pk)) S,
        kv.1 = kv.2.file.path := by
  intro vs
  induction vs with
  | nil => intro S hS kv hkv; exact hS kv hkv
  | cons v rest ih =>
    intro S hS kv hkv
    rw [List.foldl_cons] at hkv
    exact ih _ (coherence_amodify_pushChild hS v pk) kv hkv

theorem placePage_fst_keys (fuel : Nat) (S : List (Path × Section))
    (tbl : List (Path × List Path)) (pk : Path) (page : Page) (sp : Path) :
    ((placePage fuel S tbl pk page sp).1).map Prod.fst = S.map Prod.fst := by
  rw [placePage_eq]
  exact map_fst_pushChildFold pk _ S

theorem placePage_fst_coherence (fuel : Nat) (S : List (Path × Section))
    (tbl : List (Path × List Path)) (pk : Path) (page : Page) (sp : Path)
    (hS : ∀ kv ∈ S, kv.1 = kv.2.file.path) :
    ∀ kv ∈ (placePage fuel S tbl pk page sp).1, kv.1 = kv.2.file.path := by
  rw [placePage_eq]
  exact coherence_pushChildFold pk _ S hS

/-- On inputs where the ancestor table's entries are all section keys, the
panicking walk completes and agrees with the total one. -/
theorem placePageP_eq :
    ∀ (fuel : Nat) (S : List (Path × Section)) (tbl : List (Path × List Path))
      (pk : Path) (page : Page) (sp : Path),
      (∀ kv ∈ S, kv.1 = kv.2.file.path) →
      (∀ k l, alookup tbl k = some l → ∀ x ∈ l, x ∈ S.map Prod.fst) →
      placePageP fuel S tbl pk page sp = some (placePage fuel S tbl pk page sp) := by
  intro fuel
  induction fuel with
  | zero => intro S tbl pk page sp _ _; rfl
  | succ n ih =>
    intro S tbl pk page sp hS htbl
    cases hl : alookup S sp with
    | none => simp [placePageP, placePage, hl]
    | some sec =>
      have hanc : ∀ x ∈ ((alookup tbl sp).getD []) ++ [sec.file.path],
          x ∈ (amodify S sp (pushChild pk)).map Prod.fst := by
        rw [map_fst_amodify]
        intro x hx
        rcases List.mem_append.mp hx with hx' | hx'
        · cases htl : alookup tbl sp with
          | none => rw [htl] at hx'; cases hx'
          | some l => rw [htl] at hx'; exact htbl sp l htl x hx'
        · rw [List.mem_singleton.mp hx']
          have hmem := alookup_mem hl
          have := hS _ hmem
          rw [← this]
          exact List.mem_map_of_mem Prod.fst hmem
      have hres := resolveTemplateP_eq (amodify S sp (pushChild pk)) _ hanc
      have hmatch : (if page.meta.template = none
            then resolveTemplateP (amodify S sp (pushChild pk))
              (((alookup tbl sp).getD []) ++ [sec.file.path])
            else some page.meta.template) =
          some (if page.meta.template = none
            then resolveTemplate (amodify S sp (pushChild pk))
              (((alookup tbl sp).getD []) ++ [sec.file.path])
            else page.meta.template) := by
        by_cases htm : page.meta.template = none
        · rw [if_pos htm, if_pos htm, hres]
        · rw [if_neg htm, if_neg htm]
      have hS' : ∀ kv ∈ amodify S sp (pushChild pk), kv.1 = kv.2.file.path :=
        coherence_amodify_pushChild hS sp pk
      have htbl' : ∀ k l, alookup tbl k = some l → ∀ x ∈ l,
          x ∈ (amodify S sp (pushChild pk)).map Prod.fst := by
        intro k l h x hx
        rw [map_fst_amodify]
        exact htbl k l h x hx
      by_cases ht : sec.meta.transparent
      · cases hn : nextIndexPath sp with
        | none => simp [placePageP, placePage, hl, ht, hn, hmatch]
        | some nxt =>
          simp only [placePageP, placePage, hl, ht, hn, hmatch, if_true]
          exact ih _ tbl pk _ nxt hS' htbl'
      · simp [placePageP, placePage, hl, ht, hmatch]

/-- The panicking placement fold completes and agrees with the total one
when the ancestor table's entries are all section keys. -/
theorem placeFoldP_eq (tbl : List (Path × List Path)) :
    ∀ (P : List (Path × Page)) (S : List (Path × Section))
      (acc : List (Path × Page)),
      (∀ kv ∈ S, kv.1 = kv.2.file.path) →
      (∀ k l, alookup tbl k = some l → ∀ x ∈ l, x ∈ S.map Prod.fst) →
      P.foldl (fun st? kv => st?.bind (fun st =>
          let parent_section_path := kv.2.file.parent ++ [indexMd]
          (placePageP (parent_section_path.length + 1) st.1 tbl kv.1 kv.2
            parent_section_path).map
            (fun res => (res.1, st.2 ++ [(kv.1, res.2)]))))
        (some (S, acc)) =
      some (P.foldl (fun st kv =>
          let parent_section_path := kv.2.file.parent ++ [indexMd]
          let res := placePage (parent_section_path.length + 1) st.1 tbl kv.1
            kv.2 parent_section_path
          (res.1, st.2 ++ [(kv.1, res.2)])) (S, acc)) := by
  intro P
  induction P with
  | nil => intro S acc _ _; rfl
  | cons kv rest ih =>
    intro S acc hS htbl
    rw [List.foldl_cons, List.foldl_cons]
    have h1 := placePageP_eq ((kv.2.file.parent ++ [indexMd]).length + 1) S tbl
      kv.1 kv.2 (kv.2.file.parent ++ [indexMd]) hS htbl
    have hacc : ((some (S, acc) :
        Option (List (Path × Section) × List (Path × Page))).bind (fun st =>
          let parent_section_path := kv.2.file.parent ++ [indexMd]
          (placePageP (parent_section_path.length + 1) st.1 tbl kv.1 kv.2
            parent_section_path).map
            (fun res => (res.1, st.2 ++ [(kv.1, res.2)])))) =
        some ((placePage ((kv.2.file.parent ++ [indexMd]).length + 1) S tbl
            kv.1 kv.2 (kv.2.file.parent ++ [indexMd])).1,
          acc ++ [(kv.1, (placePage ((kv.2.file.parent ++ [indexMd]).length + 1)
            S tbl kv.1 kv.2 (kv.2.file.parent ++ [indexMd])).2)]) := by
      show ((placePageP ((kv.2.file.parent ++ [indexMd]).length + 1) S tbl kv.1
        kv.2 (kv.2.file.parent ++ [indexMd])).map
          (fun res => (res.1, acc ++ [(kv.1, res.2)]))) = _
      rw [h1]
      rfl
    rw [hacc]
    exact ih _ _
      (placePage_fst_coherence _ S tbl kv.1 kv.2 _ hS)
      (fun k l hkl x hx => by
        rw [placePage_fst_keys]
        exact htbl k l hkl x hx)

theorem sectionStepP_eq (pages : List (Path × Page)) (kv : Path × Section)
    (h : ∀ pk ∈ kv.2.pages, (alookup pages pk).isSome = true) :
    sectionStepP pages kv = some (sortSectionStep pages kv) := by
  unfold sectionStepP sortSectionStep
  rw [olist_eq_some _ _ h]
  cases hsb : kv.2.meta.sort_by <;> rfl

theorem taxStepP_eq (pages : List (Path × Page))
    (tx : String × List (String × List Path))
    (h : ∀ b ∈ tx.2, ∀ pk ∈ b.2, (alookup pages pk).isSome = true) :
    taxStepP pages tx = some (sortTaxStep pages tx) := by
  unfold taxStepP sortTaxStep
  have hb : ∀ b ∈ tx.2,
      (olist (fun p => alookup pages p) b.2).map (fun ps =>
        let sr := sort_pages_by SortBy.date ps
        (b.1, sr.1 ++ sr.2)) =
      some ((fun bucket =>
        let sr := sort_pages_by SortBy.date
          (bucket.2.filterMap (fun p => alookup pages p))
        (bucket.1, sr.1 ++ sr.2)) b) := by
    intro b hbmem
    rw [olist_eq_some _ _ (h b hbmem)]
    rfl
  rw [olist_eq_map _ _ _ hb]
  rfl

/-! ### Taxonomy bucket members come from added pages -/

theorem bucketPush_members (b : List (String × List Path)) (term : String)
    (p : Path) :
    ∀ e ∈ bucketPush b term p, ∀ x ∈ e.2, (∃ e0 ∈ b, x ∈ e0.2) ∨ x = p := by
  intro e he x hx
  unfold bucketPush at he
  split at he
  · unfold amodify at he
    rcases List.mem_map.mp he with ⟨e0, he0, rfl⟩
    have hx' : x ∈ (if e0.1 = term then (e0.1, e0.2 ++ [p]) else e0).2 := hx
    by_cases h : e0.1 = term
    · rw [if_pos h] at hx'
      rcases List.mem_append.mp hx' with h1 | h1
      · exact Or.inl ⟨e0, he0, h1⟩
      · exact Or.inr (List.mem_singleton.mp h1)
    · rw [if_neg h] at hx'
      exact Or.inl ⟨e0, he0, hx'⟩
  · rcases List.mem_append.mp he with h1 | h1
    · exact Or.inl ⟨e, h1, hx⟩
    · have he' : e = (term, [p]) := List.mem_singleton.mp h1
      subst he'
      exact Or.inr (List.mem_singleton.mp hx)

theorem termsFold_members (p : Path) :
    ∀ (terms : List String) (b : List (String × List Path)),
      ∀ e ∈ terms.foldl (fun b t => bucketPush b t p) b, ∀ x ∈ e.2,
        (∃ e0 ∈ b, x ∈ e0.2) ∨ x = p := by
  intro terms
  induction terms with
  | nil => intro b e he x hx; exact Or.inl ⟨e, he, hx⟩
  | cons t rest ih =>
    intro b e he x hx
    rw [List.foldl_cons] at he
    rcases ih _ e he x hx with ⟨e0, he0, hx0⟩ | h
    · exact bucketPush_members b t p e0 he0 x hx0
    · exact Or.inr h

theorem addPageTax_members (page : Page) :
    ∀ (txs : List (String × List (String × List Path))),
      ∀ tx ∈ addPageTax page txs, ∀ b ∈ tx.2, ∀ x ∈ b.2,
        (∃ tx0 ∈ txs, ∃ b0 ∈ tx0.2, x ∈ b0.2) ∨ x = page.file.path := by
  unfold addPageTax
  generalize page.meta.taxonomies = pairs
  generalize page.file.path = pk
  induction pairs with
  | nil => intro txs tx htx b hb x hx; exact Or.inl ⟨tx, htx, b, hb, hx⟩
  | cons pr rest ih =>
    intro txs tx htx b hb x hx
    rw [List.foldl_cons] at htx
    rcases ih _ tx htx b hb x hx with ⟨tx0, htx0, b0, hb0, hx0⟩ | h
    · cases hl : alookup txs pr.1 with
      | none =>
        rw [hl] at htx0
        exact Or.inl ⟨tx0, htx0, b0, hb0, hx0⟩
      | some bm =>
        rw [hl] at htx0
        unfold amodify at htx0
        rcases List.mem_map.mp htx0 with ⟨tx1, htx1, rfl⟩
        have hb0' : b0 ∈ (if tx1.1 = pr.1
            then (tx1.1, pr.2.foldl (fun b term => bucketPush b term pk) tx1.2)
            else tx1).2 := hb0
        by_cases hkey1 : tx1.1 = pr.1
        · rw [if_pos hkey1] at hb0'
          rcases termsFold_members pk pr.2 tx1.2 b0 hb0' x hx0 with
            ⟨e0, he0, hxe⟩ | h
          · exact Or.inl ⟨tx1, htx1, e0, he0, hxe⟩
          · exact Or.inr h
        · rw [if_neg hkey1] at hb0'
          exact Or.inl ⟨tx1, htx1, b0, hb0', hx0⟩
    · exact Or.inr h

theorem foldl_addPageTax_members :
    ∀ (pgs : List Page) (txs : List (String × List (String × List Path))),
      ∀ tx ∈ pgs.foldl (fun txs p => addPageTax p txs) txs, ∀ b ∈ tx.2,
        ∀ x ∈ b.2,
        (∃ tx0 ∈ txs, ∃ b0 ∈ tx0.2, x ∈ b0.2) ∨ ∃ q ∈ pgs, x = q.file.path := by
  intro pgs
  induction pgs with
  | nil => intro txs tx htx b hb x hx; exact Or.inl ⟨tx, htx, b, hb, hx⟩
  | cons q rest ih =>
    intro txs tx htx b hb x hx
    rw [List.foldl_cons] at htx
    rcases ih _ tx htx b hb x hx with ⟨tx0, htx0, b0, hb0, hx0⟩ | ⟨q', hq', hxq⟩
    · rcases addPageTax_members q txs tx0 htx0 b0 hb0 x hx0 with
        ⟨tx1, htx1, b1, hb1, hx1⟩ | h
      · exact Or.inl ⟨tx1, htx1, b1, hb1, hx1⟩
      · exact Or.inr ⟨q, List.mem_cons_self q rest, h⟩
    · exact Or.inr ⟨q', List.mem_cons_of_mem q hq', hxq⟩

/-- Every page key in a pre-placement taxonomy bucket of a built aggregator
is a key of its page map. -/
theorem buildAggregator_tax_members (cp : Path) (taxdefs : List String)
    (secs : List Section) (pgs : List Page) :
    ∀ tx ∈ (buildAggregator cp taxdefs secs pgs).taxonomies, ∀ b ∈ tx.2,
      ∀ pk ∈ b.2, pk ∈ (buildAggregator cp taxdefs secs pgs).pages.map Prod.fst := by
  intro tx htx b hb pk hpk
  rw [buildAggregator_taxonomies] at htx
  rcases foldl_addPageTax_members pgs _ tx htx b hb pk hpk with
    ⟨tx0, htx0, b0, hb0, _⟩ | ⟨q, hq, rfl⟩
  · rcases mem_foldl_ainsert (fun name : String => name)
        (fun _ => ([] : List (String × List Path))) taxdefs [] tx0 htx0 with
      h | ⟨nm, _, rfl⟩
    · cases h
    · exact absurd hb0 (List.not_mem_nil b0)
  · rw [buildAggregator_pages]
    have hmem : q.file.path ∈ List.map Prod.fst
        (pgs.foldl (fun m p => ainsert m p.file.path p) []) :=
      mem_keys_foldl_ainsert (fun p : Page => p.file.path) (fun p => p)
        pgs [] q hq
    exact hmem

/-- On panic-free inputs — ancestor-table entries are section keys, section
keys are distinct and coherent, pre-placement child lists are empty, and
taxonomy bucket members are page keys — the panicking `aggregateP`
completes with exactly the total model's result. -/
theorem aggregateP_eq (a : ContentAggregator)
    (hS : ∀ kv ∈ a.sections, kv.1 = kv.2.file.path)
    (hnd : (a.sections.map Prod.fst).Nodup)
    (htbl : ∀ k l, alookup a.build_ancestors k = some l →
      ∀ x ∈ l, x ∈ a.sections.map Prod.fst)
    (hfresh : ∀ kv ∈ a.sections, kv.2.pages = [])
    (htax : ∀ tx ∈ a.taxonomies, ∀ b ∈ tx.2, ∀ pk ∈ b.2,
      pk ∈ a.pages.map Prod.fst) :
    a.aggregateP = some a.aggregate := by
  have hfold := placeFoldP_eq a.build_ancestors a.pages a.sections [] hS htbl
  have hplacement := placement_fold a.build_ancestors a.sections a.pages
    a.sections [] (fun _ => rfl)
  have hsecstep : ∀ kv ∈ pushedSections a,
      sectionStepP (placedPages a) kv =
        some (sortSectionStep (placedPages a) kv) := by
    intro kv hkv
    apply sectionStepP_eq
    have hndP : ((pushedSections a).map Prod.fst).Nodup := by
      rw [map_fst_pushedSections]
      exact hnd
    have hlk := alookup_of_mem_nodup hndP hkv
    rw [alookup_pushedSections] at hlk
    rcases Option.map_eq_some'.mp hlk with ⟨s0, hs0, hval⟩
    intro pk hpk
    rw [← hval] at hpk
    replace hpk : pk ∈ s0.pages ++
        ((a.pages.filter (fun kv2 =>
          decide (kv.1 ∈ visitedKeys (fuelOf kv2.2) a.sections
            (startOf kv2.2)))).map Prod.fst) := hpk
    have hs0p : s0.pages = [] := hfresh (kv.1, s0) (alookup_mem hs0)
    rw [hs0p, List.nil_append] at hpk
    rcases List.mem_map.mp hpk with ⟨kv0, hkv0f, rfl⟩
    rw [alookup_isSome_iff, map_fst_placedPages]
    exact List.mem_map_of_mem Prod.fst (List.mem_of_mem_filter hkv0f)
  have hsec := olist_eq_map (sectionStepP (placedPages a))
    (sortSectionStep (placedPages a)) (pushedSections a) hsecstep
  have htaxstep : ∀ tx ∈ a.taxonomies,
      taxStepP (placedPages a) tx = some (sortTaxStep (placedPages a) tx) := by
    intro tx htx
    apply taxStepP_eq
    intro b hb pk hpk
    rw [alookup_isSome_iff, map_fst_placedPages]
    exact htax tx htx b hb pk hpk
  have htax' := olist_eq_map (taxStepP (placedPages a))
    (sortTaxStep (placedPages a)) a.taxonomies htaxstep
  have h1 : a.aggregateP = (match olist (sectionStepP (placedPages a))
      (pushedSections a) with
    | none => none
    | some sections =>
      match olist (taxStepP (placedPages a)) a.taxonomies with
      | none => none
      | some taxonomies => some (sections, placedPages a, taxonomies)) := by
    show (match a.pages.foldl
        (fun (st? : Option (List (Path × Section) × List (Path × Page))) kv =>
          st?.bind (fun st =>
            let parent_section_path := kv.2.file.parent ++ [indexMd]
            (placePageP (parent_section_path.length + 1) st.1 a.build_ancestors
              kv.1 kv.2 parent_section_path).map
              (fun res => (res.1, st.2 ++ [(kv.1, res.2)]))))
        (some (a.sections, [])) with
      | none => none
      | some placed =>
        match olist (sectionStepP placed.2) placed.1 with
        | none => none
        | some sections =>
          match olist (taxStepP placed.2) a.taxonomies with
          | none => none
          | some taxonomies => some (sections, placed.2, taxonomies)) = _
    rw [hfold, hplacement]
    rfl
  rw [h1, hsec, htax', aggregate_eq]

/-- The bridge at the public surface: an aggregator built with a root
section, duplicate-free section paths and empty initial child lists never
panics, and `aggregateP` returns the total model's result. -/
theorem buildAggregator_bridge (cp : Path) (taxdefs : List String)
    (secs : List Section) (pgs : List Page)
    (hroot : ∃ s ∈ secs, s.file.path = cp ++ [indexMd])
    (hfreshS : ∀ s ∈ secs, s.pages = []) :
    (buildAggregator cp taxdefs secs pgs).aggregateP =
      some (buildAggregator cp taxdefs secs pgs).aggregate := by
  have hSco : ∀ kv ∈ (buildAggregator cp taxdefs secs pgs).sections,
      kv.1 = kv.2.file.path :=
    fun kv h => (mem_buildAggregator_sections cp taxdefs secs pgs kv h).1
  have hrootk : cp ++ [indexMd] ∈
      (buildAggregator cp taxdefs secs pgs).sections.map Prod.fst := by
    rcases hroot with ⟨s, hs, hpath⟩
    rw [buildAggregator_sections]
    have hmem : s.file.path ∈ List.map Prod.fst
        (secs.foldl (fun m s => ainsert m s.file.path s) []) :=
      mem_keys_foldl_ainsert (fun s : Section => s.file.path) (fun s => s)
        secs [] s hs
    rw [hpath] at hmem
    exact hmem
  have hrootk' : (buildAggregator cp taxdefs secs pgs).content_path ++
      [indexMd] ∈ (buildAggregator cp taxdefs secs pgs).sections.map Prod.fst := by
    rw [buildAggregator_content_path]
    exact hrootk
  refine aggregateP_eq _ hSco ?_
    (build_ancestors_sub (buildAggregator cp taxdefs secs pgs) hrootk' hSco)
    ?_ (buildAggregator_tax_members cp taxdefs secs pgs)
  · rw [buildAggregator_sections]
    exact nodup_keys_foldl_ainsert (fun s : Section => s.file.path)
      (fun s => s) secs [] List.nodup_nil
  · exact fun kv h =>
      hfreshS kv.2 (mem_buildAggregator_sections cp taxdefs secs pgs kv h).2

theorem sortSectionStep_pages_cases (pgs : List (Path × Page))
    (kv : Path × Section) :
    ((sortSectionStep pgs kv).2.pages = kv.2.pages ∧ kv.2.meta.sort_by = none) ∨
    (∃ sb, kv.2.meta.sort_by = some sb ∧ (sortSectionStep pgs kv).2.pages =
      (sort_pages_by sb (kv.2.pages.filterMap (fun p => alookup pgs p))).1 ++
        (sort_pages_by sb (kv.2.pages.filterMap (fun p => alookup pgs p))).2) := by
  unfold sortSectionStep
  cases h : kv.2.meta.sort_by with
  | none => exact Or.inl ⟨rfl, rfl⟩
  | some sb => exact Or.inr ⟨sb, rfl, rfl⟩

/-- A `blog` section and a template-less page under it, but no root
`_index.md` section: the inherited-template scan reaches the seeded root
ancestor key and panics. -/
def c2BlogOnly : ContentAggregator :=
  buildAggregator ["content"] []
    [mkSection ["content"] ["content", "blog", "_index.md"] plainSec]
    [mkPage ["content"] ["content", "blog", "post.md"] plainPageMeta "/blog/post"]

def c2TaxMeta : PageFrontMatter :=
  { date := none, template := none, taxonomies := [("tags", ["rust"])] }

/-- The aggregator of claim C2's failure: the same file path added twice,
first declaring `tags = [rust]`, then declaring nothing. -/
def c2DupTax : ContentAggregator :=
  buildAggregator ["content"] ["tags"] []
    [mkPage ["content"] ["content", "a.md"] c2TaxMeta "/a",
     mkPage ["content"] ["content", "a.md"] plainPageMeta "/a"]

/-- Claim C2, counterexample.  When the same page path is added twice —
first declaring a taxonomy term, then not — `aggregate` completes without
touching any panic site (no section is ever looked up, the one bucket key
is a page-map key), and the returned `tags`/`rust` bucket holds the key of
a final page that declares no taxonomy at all, refuting the third
invariant.  Alongside: the root-less `c2BlogOnly` input panics in the
template scan (`self.sections.get(ancestor).unwrap()`), which is why the
amended theorem requires a root section. -/
theorem c2_counterexample :
    c2BlogOnly.aggregateP = none ∧
    (c2DupTax.aggregateP.map (fun r =>
        (bucketOf r.2.2 "tags" "rust",
         (alookup r.2.1 ["content", "a.md"]).map (fun p => p.meta.taxonomies))) =
      some ([["content", "a.md"]], some [])) := by
  constructor
  · rfl
  · rfl

/-- Claim C2 (amended): for every aggregator populated through the public
surface — provided a section for the content root's `_index.md` was added,
every added section starts with an empty child list, every added page
starts with an empty ancestor list, and no two added pages share a file
path — `aggregate` completes without panicking (the panicking `aggregateP`
returns the total model's result), and in that result (1) every entry of
every returned page's ancestors list is a key of the returned section map,
(2) every entry of every returned section's child list is a key of the
returned page map, and (3) every page key in a (taxonomy, term) bucket is
mapped by the returned page map to a page that declares that taxonomy/term
pair. -/
theorem c2_invariants (cp : Path) (taxdefs : List String)
    (secs : List Section) (pgs : List Page)
    (hroot : ∃ s ∈ secs, s.file.path = cp ++ [indexMd])
    (hfreshS : ∀ s ∈ secs, s.pages = [])
    (hfreshP : ∀ p ∈ pgs, p.ancestors = [])
    (hnd : (pgs.map (fun p => p.file.path)).Nodup) :
    ((buildAggregator cp taxdefs secs pgs).aggregateP =
      some (buildAggregator cp taxdefs secs pgs).aggregate) ∧
    (∀ kv ∈ (buildAggregator cp taxdefs secs pgs).aggregate.2.1,
        ∀ x ∈ kv.2.ancestors,
          x ∈ (buildAggregator cp taxdefs secs pgs).aggregate.1.map Prod.fst) ∧
    (∀ kv ∈ (buildAggregator cp taxdefs secs pgs).aggregate.1,
        ∀ x ∈ kv.2.pages,
          x ∈ (buildAggregator cp taxdefs secs pgs).aggregate.2.1.map Prod.fst) ∧
    (∀ tname term,
        ∀ pk ∈ bucketOf (buildAggregator cp taxdefs secs pgs).aggregate.2.2
          tname term,
          ∃ p, alookup (buildAggregator cp taxdefs secs pgs).aggregate.2.1 pk =
              some p ∧
            ∃ pr ∈ p.meta.taxonomies, pr.1 = tname ∧ term ∈ pr.2) := by
  have hcoS := mem_buildAggregator_sections cp taxdefs secs pgs
  have hcoP := mem_buildAggregator_pages cp taxdefs secs pgs
  have hSco : ∀ kv ∈ (buildAggregator cp taxdefs secs pgs).sections,
      kv.1 = kv.2.file.path := fun kv h => (hcoS kv h).1
  have hrootk : cp ++ [indexMd] ∈
      (buildAggregator cp taxdefs secs pgs).sections.map Prod.fst := by
    rcases hroot with ⟨s, hs, hpath⟩
    rw [buildAggregator_sections]
    have hmem : s.file.path ∈ List.map Prod.fst
        (secs.foldl (fun m s => ainsert m s.file.path s) []) :=
      mem_keys_foldl_ainsert (fun s : Section => s.file.path) (fun s => s)
        secs [] s hs
    rw [hpath] at hmem
    exact hmem
  have hrootk' : (buildAggregator cp taxdefs secs pgs).content_path ++ [indexMd] ∈
      (buildAggregator cp taxdefs secs pgs).sections.map Prod.fst := by
    rw [buildAggregator_content_path]
    exact hrootk
  have htbl := build_ancestors_sub (buildAggregator cp taxdefs secs pgs) hrootk' hSco
  refine ⟨buildAggregator_bridge cp taxdefs secs pgs hroot hfreshS, ?_, ?_, ?_⟩
  · intro kv hkv x hx
    rw [c2_aux_section_keys]
    rw [aggregate_eq] at hkv
    replace hkv : kv ∈ placedPages (buildAggregator cp taxdefs secs pgs) := hkv
    unfold placedPages at hkv
    rcases List.mem_map.mp hkv with ⟨kv0, hkv0, rfl⟩
    have hx' : x ∈ (placedPage (fuelOf kv0.2)
        (buildAggregator cp taxdefs secs pgs).sections
        (buildAggregator cp taxdefs secs pgs).build_ancestors kv0.2
        (startOf kv0.2)).ancestors := hx
    refine placedPage_ancestors_sub (fuelOf kv0.2) _ _ kv0.2 (startOf kv0.2)
      hSco htbl ?_ x hx'
    intro y hy
    rw [hfreshP kv0.2 (hcoP kv0 hkv0).2] at hy
    cases hy
  · intro kv hkv x hx
    rw [c2_aux_page_keys]
    rw [aggregate_eq] at hkv
    replace hkv : kv ∈ (pushedSections (buildAggregator cp taxdefs secs pgs)).map
        (sortSectionStep (placedPages (buildAggregator cp taxdefs secs pgs))) := hkv
    rcases List.mem_map.mp hkv with ⟨kv', hkv', rfl⟩
    rcases sortSectionStep_pages_cases
        (placedPages (buildAggregator cp taxdefs secs pgs)) kv' with
      ⟨hpg, _⟩ | ⟨sb, _, hpg⟩
    · rw [hpg] at hx
      have hndS : ((pushedSections (buildAggregator cp taxdefs secs pgs)).map
          Prod.fst).Nodup := by
        rw [map_fst_pushedSections, buildAggregator_sections]
        exact nodup_keys_foldl_ainsert (fun s : Section => s.file.path)
          (fun s => s) secs [] List.nodup_nil
      have hlk : alookup (pushedSections (buildAggregator cp taxdefs secs pgs))
          kv'.1 = some kv'.2 := alookup_of_mem_nodup hndS hkv'
      rw [alookup_pushedSections] at hlk
      rcases Option.map_eq_some'.mp hlk with ⟨s0, hs0, hval⟩
      rw [← hval] at hx
      replace hx : x ∈ s0.pages ++
          (((buildAggregator cp taxdefs secs pgs).pages.filter (fun kv =>
            decide (kv'.1 ∈ visitedKeys (fuelOf kv.2)
              (buildAggregator cp taxdefs secs pgs).sections
              (startOf kv.2)))).map Prod.fst) := hx
      rw [hfreshS s0 (hcoS (kv'.1, s0) (alookup_mem hs0)).2, List.nil_append] at hx
      rcases List.mem_map.mp hx with ⟨kv0, hkv0f, rfl⟩
      exact List.mem_map_of_mem Prod.fst (List.mem_of_mem_filter hkv0f)
    · rw [hpg] at hx
      rcases sort_pages_by_mem sb _ x (List.mem_append.mp hx) with ⟨pg, hpg', rfl⟩
      rcases List.mem_filterMap.mp hpg' with ⟨k0, _, hlk0⟩
      rcases placedPages_lookup_spec _ (fun kv h => (hcoP kv h).1) hlk0 with
        ⟨q, hq, _, hfp, _⟩
      rw [hfp]
      exact alookup_isSome_iff.mp (by rw [hq]; rfl)
  · intro tname term pk hpk
    rw [bucketOf_aggregate] at hpk
    rcases mem_sortedBucket hpk with ⟨k0, hk0, p, hlkp, rfl⟩
    rcases placedPages_lookup_spec _ (fun kv h => (hcoP kv h).1) hlkp with
      ⟨q, hq, _, hfp, _, _, htax⟩
    refine ⟨p, ?_, ?_⟩
    · rw [aggregate_eq]
      show alookup (placedPages (buildAggregator cp taxdefs secs pgs))
        p.file.path = some p
      rw [hfp]
      exact hlkp
    · rw [bucketOf_buildAggregator] at hk0
      split at hk0
      · rcases List.mem_flatMap.mp hk0 with ⟨q', hq', hcontrib⟩
        rcases mem_contribAux hcontrib with ⟨hkq, pr, hpr, hprt, hterm⟩
        have hq'lk : alookup (buildAggregator cp taxdefs secs pgs).pages
            q'.file.path = some q' := by
          rw [buildAggregator_pages]
          exact alookup_foldl_ainsert_nodup (fun p : Page => p.file.path)
            (fun p => p) pgs hnd hq'
        rw [hkq, hq'lk] at hq
        obtain rfl := Option.some.inj hq
        rw [htax]
        exact ⟨pr, hpr, hprt, hterm⟩
      · cases hk0

/-- Witness for C2's amended theorem: a root section, a `blog` section and
one page under `blog` declaring `tags = [rust]`. -/
theorem c2_witness :
    (∃ s ∈ [mkSection ["content"] ["content", "_index.md"] plainSec,
        mkSection ["content"] ["content", "blog", "_index.md"] plainSec],
      s.file.path = ["content"] ++ [indexMd]) ∧
    (((buildAggregator ["content"] ["tags"]
        [mkSection ["content"] ["content", "_index.md"] plainSec,
         mkSection ["content"] ["content", "blog", "_index.md"] plainSec]
        [mkPage ["content"] ["content", "blog", "post.md"] c2TaxMeta
          "/blog/post"]).aggregateP =
      some (buildAggregator ["content"] ["tags"]
        [mkSection ["content"] ["content", "_index.md"] plainSec,
         mkSection ["content"] ["content", "blog", "_index.md"] plainSec]
        [mkPage ["content"] ["content", "blog", "post.md"] c2TaxMeta
          "/blog/post"]).aggregate) ∧
    (∀ kv ∈ (buildAggregator ["content"] ["tags"]
        [mkSection ["content"] ["content", "_index.md"] plainSec,
         mkSection ["content"] ["content", "blog", "_index.md"] plainSec]
        [mkPage ["content"] ["content", "blog", "post.md"] c2TaxMeta
          "/blog/post"]).aggregate.2.1,
        ∀ x ∈ kv.2.ancestors,
          x ∈ (buildAggregator ["content"] ["tags"]
            [mkSection ["content"] ["content", "_index.md"] plainSec,
             mkSection ["content"] ["content", "blog", "_index.md"] plainSec]
            [mkPage ["content"] ["content", "blog", "post.md"] c2TaxMeta
              "/blog/post"]).aggregate.1.map Prod.fst) ∧
    (∀ kv ∈ (buildAggregator ["content"] ["tags"]
        [mkSection ["content"] ["content", "_index.md"] plainSec,
         mkSection ["content"] ["content", "blog", "_index.md"] plainSec]
        [mkPage ["content"] ["content", "blog", "post.md"] c2TaxMeta
          "/blog/post"]).aggregate.1,
        ∀ x ∈ kv.2.pages,
          x ∈ (buildAggregator ["content"] ["tags"]
            [mkSection ["content"] ["content", "_index.md"] plainSec,
             mkSection ["content"] ["content", "blog", "_index.md"] plainSec]
            [mkPage ["content"] ["content", "blog", "post.md"] c2TaxMeta
              "/blog/post"]).aggregate.2.1.map Prod.fst) ∧
    (∀ tname term,
        ∀ pk ∈ bucketOf (buildAggregator ["content"] ["tags"]
          [mkSection ["content"] ["content", "_index.md"] plainSec,
           mkSection ["content"] ["content", "blog", "_index.md"] plainSec]
          [mkPage ["content"] ["content", "blog", "post.md"] c2TaxMeta
            "/blog/post"]).aggregate.2.2 tname term,
          ∃ p, alookup (buildAggregator ["content"] ["tags"]
              [mkSection ["content"] ["content", "_index.md"] plainSec,
               mkSection ["content"] ["content", "blog", "_index.md"] plainSec]
              [mkPage ["content"] ["content", "blog", "post.md"] c2TaxMeta
                "/blog/post"]).aggregate.2.1 pk = some p ∧
            ∃ pr ∈ p.meta.taxonomies, pr.1 = tname ∧ term ∈ pr.2)) :=
  ⟨by decide,
   c2_invariants ["content"] ["tags"]
     [mkSection ["content"] ["content", "_index.md"] plainSec,
      mkSection ["content"] ["content", "blog", "_index.md"] plainSec]
     [mkPage ["content"] ["content", "blog", "post.md"] c2TaxMeta "/blog/post"]
     (by decide) (by decide) (by decide) (by decide)⟩

/-! ## Claim C5 — determinism across map iteration orders -/

/-- Two sorted lists that are permutations of one another are equal,
assuming antisymmetry only for the members involved. -/
theorem eq_of_sorted_perm_antisymm {α : Type} {r : α → α → Prop} :
    ∀ {l₁ l₂ : List α}, l₁.Sorted r → l₂.Sorted r → l₁.Perm l₂ →
      (∀ a ∈ l₁, ∀ b ∈ l₂, r a b → r b a → a = b) → l₁ = l₂ := by
  intro l₁
  induction l₁ with
  | nil =>
    intro l₂ _ _ hp _
    exact (hp.symm.eq_nil).symm
  | cons a t₁ ih =>
    intro l₂ h₁ h₂ hp hanti
    cases l₂ with
    | nil => cases hp.eq_nil
    | cons b t₂ =>
      have hab : a = b := by
        have ha2 : a ∈ b :: t₂ := hp.mem_iff.mp (List.mem_cons_self a t₁)
        have hb1 : b ∈ a :: t₁ := hp.symm.mem_iff.mp (List.mem_cons_self b t₂)
        rcases List.mem_cons.mp ha2 with h | ha2'
        · exact h
        · rcases List.mem_cons.mp hb1 with h | hb1'
          · exact h.symm
          · exact hanti a (List.mem_cons_self a t₁) b (List.mem_cons_self b t₂)
              ((List.sorted_cons.mp h₁).1 b hb1')
              ((List.sorted_cons.mp h₂).1 a ha2')
      subst hab
      have hteq : t₁ = t₂ :=
        ih (List.sorted_cons.mp h₁).2 (List.sorted_cons.mp h₂).2 hp.cons_inv
          (fun x hx y hy hxy hyx => hanti x (List.mem_cons_of_mem a hx) y
            (List.mem_cons_of_mem a hy) hxy hyx)
      rw [hteq]

/-- Mutual `pageLe` pins down the comparator's two fields. -/
theorem pageLe_antisymm_fields {a b : Page} (hab : pageLe a b)
    (hba : pageLe b a) :
    a.meta.date.getD "" = b.meta.date.getD "" ∧ a.path = b.path := by
  rcases hab with h1 | ⟨h1, h1'⟩ <;> rcases hba with h2 | ⟨h2, h2'⟩
  · exact absurd (lt_trans h1 h2) (lt_irrefl _)
  · rw [h2] at h1
    exact absurd h1 (lt_irrefl _)
  · rw [h1] at h2
    exact absurd h2 (lt_irrefl _)
  · exact ⟨h1.symm, le_antisymm h1' h2'⟩

/-- `sort_pages_by Date` returns the same pair on any two permuted inputs,
provided every input page is dated and no two pages tie on both the date
and the route string. -/
theorem sort_pages_by_eq_of_perm {l₁ l₂ : List Page} (hperm : l₁.Perm l₂)
    (hall : ∀ p ∈ l₁, hasSortField SortBy.date p = true)
    (hanti : ∀ a ∈ l₁, ∀ b ∈ l₁, pageLe a b → pageLe b a → a = b) :
    sort_pages_by SortBy.date l₁ = sort_pages_by SortBy.date l₂ := by
  have hall₂ : ∀ p ∈ l₂, hasSortField SortBy.date p = true :=
    fun p hp => hall p (hperm.mem_iff.mpr hp)
  have hnil₁ : l₁.filter (not ∘ hasSortField SortBy.date) = [] := by
    rw [List.filter_eq_nil_iff]
    intro p hp
    simp [Function.comp, hall p hp]
  have hnil₂ : l₂.filter (not ∘ hasSortField SortBy.date) = [] := by
    rw [List.filter_eq_nil_iff]
    intro p hp
    simp [Function.comp, hall₂ p hp]
  have hsperm : (List.insertionSort pageLe
      (l₁.filter (hasSortField SortBy.date))).Perm
      (List.insertionSort pageLe (l₂.filter (hasSortField SortBy.date))) :=
    (List.perm_insertionSort _ _).trans ((hperm.filter _).trans
      (List.perm_insertionSort _ _).symm)
  have hseq : List.insertionSort pageLe (l₁.filter (hasSortField SortBy.date)) =
      List.insertionSort pageLe (l₂.filter (hasSortField SortBy.date)) := by
    refine eq_of_sorted_perm_antisymm (List.sorted_insertionSort _ _)
      (List.sorted_insertionSort _ _) hsperm ?_
    intro x hx y hy hxy hyx
    have hx' : x ∈ l₁ :=
      List.mem_of_mem_filter ((List.perm_insertionSort pageLe _).mem_iff.mp hx)
    have hy' : y ∈ l₁ := hperm.mem_iff.mpr
      (List.mem_of_mem_filter ((List.perm_insertionSort pageLe _).mem_iff.mp hy))
    exact hanti x hx' y hy' hxy hyx
  unfold sort_pages_by sortedPart
  simp only [List.partition_eq_filter_filter]
  rw [hseq, hnil₁, hnil₂]

/-- `sortedBucket` is insensitive to permuting the key list when every
resolvable page is dated and the comparator is antisymmetric on them. -/
theorem sortedBucket_eq_of_perm (pp : List (Path × Page)) {ks₁ ks₂ : List Path}
    (hperm : ks₁.Perm ks₂)
    (hdate : ∀ k p, alookup pp k = some p → p.meta.date.isSome = true)
    (hanti : ∀ k p, alookup pp k = some p → ∀ k' p', alookup pp k' = some p' →
      p.meta.date = p'.meta.date → p.path = p'.path → p = p') :
    sortedBucket pp ks₁ = sortedBucket pp ks₂ := by
  have hin : (ks₁.filterMap (fun q => alookup pp q)).Perm
      (ks₂.filterMap (fun q => alookup pp q)) := hperm.filterMap _
  have hall : ∀ p ∈ ks₁.filterMap (fun q => alookup pp q),
      hasSortField SortBy.date p = true := by
    intro p hp
    rcases List.mem_filterMap.mp hp with ⟨k, _, hk⟩
    show p.meta.date.isSome = true
    exact hdate k p hk
  have hanti' : ∀ a ∈ ks₁.filterMap (fun q => alookup pp q),
      ∀ b ∈ ks₁.filterMap (fun q => alookup pp q),
      pageLe a b → pageLe b a → a = b := by
    intro a ha b hb hab hba
    rcases List.mem_filterMap.mp ha with ⟨ka, _, hka⟩
    rcases List.mem_filterMap.mp hb with ⟨kb, _, hkb⟩
    rcases pageLe_antisymm_fields hab hba with ⟨hd, hpth⟩
    rcases Option.isSome_iff_exists.mp (hdate ka a hka) with ⟨da, hda⟩
    rcases Option.isSome_iff_exists.mp (hdate kb b hkb) with ⟨db, hdb⟩
    have hdd : a.meta.date = b.meta.date := by
      rw [hda, hdb] at hd ⊢
      simp only [Option.getD_some] at hd
      rw [hd]
    exact hanti ka a hka kb b hkb hdd hpth
  have h := sort_pages_by_eq_of_perm hin hall hanti'
  unfold sortedBucket
  rw [h]

/-- The walk only reads the ancestor table through `alookup`, so tables
with equal lookups place pages identically. -/
theorem placedPage_tbl_congr (S : List (Path × Section))
    {tbl1 tbl2 : List (Path × List Path)}
    (h : ∀ k, alookup tbl1 k = alookup tbl2 k) :
    ∀ (fuel : Nat) (page : Page) (sp : Path),
      placedPage fuel S tbl1 page sp = placedPage fuel S tbl2 page sp := by
  intro fuel
  induction fuel with
  | zero => intro page sp; rfl
  | succ n ih =>
    intro page sp
    cases hl : alookup S sp with
    | none => simp [placedPage, hl]
    | some sec =>
      simp only [placedPage, hl, h sp]
      cases hn : nextIndexPath sp <;> simp [hn, ih]

theorem ancestorStep_congr {S1 S2 : List (Path × Section)}
    (h : ∀ k, alookup S1 k = alookup S2 k) (s : Section)
    (st : Path × List Path) (comp : String) :
    ancestorStep S1 s st comp = ancestorStep S2 s st comp := by
  unfold ancestorStep
  rw [h]

/-- `build_ancestors`' per-section walk only reads the section map through
`alookup`. -/
theorem sectionAncestors_congr (cp : Path) {S1 S2 : List (Path × Section)}
    (h : ∀ k, alookup S1 k = alookup S2 k) (s : Section) :
    sectionAncestors cp S1 s = sectionAncestors cp S2 s := by
  unfold sectionAncestors
  split
  · rfl
  · have hfold : ∀ (comps : List String) (st : Path × List Path),
        comps.foldl (ancestorStep S1 s) st = comps.foldl (ancestorStep S2 s) st := by
      intro comps
      induction comps with
      | nil => intro st; rfl
      | cons c rest ih =>
        intro st
        rw [List.foldl_cons, List.foldl_cons, ancestorStep_congr h, ih]
    rw [hfold]

theorem sortSectionStep_fst (pgs : List (Path × Page)) (kv : Path × Section) :
    (sortSectionStep pgs kv).1 = kv.1 := by
  unfold sortSectionStep
  cases kv.2.meta.sort_by <;> rfl

theorem sortSectionStep_meta (pgs : List (Path × Page)) (kv : Path × Section) :
    (sortSectionStep pgs kv).2.meta = kv.2.meta := by
  unfold sortSectionStep
  cases kv.2.meta.sort_by <;> rfl

theorem alookup_map_sortSectionStep (pgs : List (Path × Page)) :
    ∀ (l : List (Path × Section)) (k : Path),
      alookup (l.map (sortSectionStep pgs)) k =
        (alookup l k).map (fun s => (sortSectionStep pgs (k, s)).2) := by
  intro l
  induction l with
  | nil => intro k; rfl
  | cons kv rest ih =>
    intro k
    rw [List.map_cons, alookup_cons, alookup_cons, sortSectionStep_fst]
    by_cases h : kv.1 = k
    · subst h
      rw [if_pos rfl, if_pos rfl]
      rfl
    · rw [if_neg h, if_neg h, ih]

theorem map_fst_map_keyed {α β γ : Type} (κ : β → α) (ν : β → γ) (l : List β) :
    (l.map (fun x => (κ x, ν x))).map Prod.fst = l.map κ := by
  rw [List.map_map]
  exact List.map_congr_left (fun _ _ => rfl)

/-- With no two added sections sharing a file path, the built section map
is literally the added sections paired with their keys, in insertion
order. -/
theorem buildAggregator_sections_explicit (cp : Path) (taxdefs : List String)
    (secs : List Section) (pgs : List Page)
    (hsnd : (secs.map (fun s => s.file.path)).Nodup) :
    (buildAggregator cp taxdefs secs pgs).sections =
      secs.map (fun s => (s.file.path, s)) := by
  rw [buildAggregator_sections]
  have h := foldl_ainsert_fresh (fun s : Section => s.file.path) (fun s => s)
    secs [] hsnd (fun _ _ => rfl)
  exact h.trans (List.nil_append _)

/-- With no two added pages sharing a file path, the built page map is
literally the added pages paired with their keys, in insertion order. -/
theorem buildAggregator_pages_explicit (cp : Path) (taxdefs : List String)
    (secs : List Section) (pgs : List Page)
    (hpnd : (pgs.map (fun p => p.file.path)).Nodup) :
    (buildAggregator cp taxdefs secs pgs).pages =
      pgs.map (fun p => (p.file.path, p)) := by
  rw [buildAggregator_pages]
  have h := foldl_ainsert_fresh (fun p : Page => p.file.path) (fun p => p)
    pgs [] hpnd (fun _ _ => rfl)
  exact h.trans (List.nil_append _)

theorem build_ancestors_explicit (cp : Path) (taxdefs : List String)
    (secs : List Section) (pgs : List Page)
    (hsnd : (secs.map (fun s => s.file.path)).Nodup) :
    (buildAggregator cp taxdefs secs pgs).build_ancestors =
      secs.map (fun s => (s.file.path,
        sectionAncestors cp (secs.map (fun s => (s.file.path, s))) s)) := by
  unfold ContentAggregator.build_ancestors
  rw [buildAggregator_content_path,
    buildAggregator_sections_explicit cp taxdefs secs pgs hsnd, List.map_map]
  exact List.map_congr_left (fun s _ => rfl)

theorem placedPages_explicit (cp : Path) (taxdefs : List String)
    (secs : List Section) (pgs : List Page)
    (hpnd : (pgs.map (fun p => p.file.path)).Nodup) :
    placedPages (buildAggregator cp taxdefs secs pgs) =
      pgs.map (fun p => (p.file.path,
        placedPage (fuelOf p) (buildAggregator cp taxdefs secs pgs).sections
          (buildAggregator cp taxdefs secs pgs).build_ancestors p (startOf p))) := by
  unfold placedPages
  rw [buildAggregator_pages_explicit cp taxdefs secs pgs hpnd, List.map_map]
  exact List.map_congr_left (fun p _ => rfl)

/-- `sortedBucket` only reads the page map through `alookup`. -/
theorem sortedBucket_congr {pp1 pp2 : List (Path × Page)}
    (h : ∀ k, alookup pp1 k = alookup pp2 k) (ks : List Path) :
    sortedBucket pp1 ks = sortedBucket pp2 ks := by
  have hf : alookup pp1 = alookup pp2 := funext h
  unfold sortedBucket
  rw [hf]

/-- The root section of claim C5's counterexample: sorted by date. -/
def c5Root : Section :=
  mkSection ["content"] ["content", "_index.md"]
    { page_template := none, sort_by := some SortBy.date, transparent := false }

def c5P1 : Page := mkPage ["content"] ["content", "p1.md"] plainPageMeta "/p1"

def c5P2 : Page := mkPage ["content"] ["content", "p2.md"] plainPageMeta "/p2"

/-- Claim C5, counterexample: two *dateless* pages under a date-sorted root
section land in the unsorted tail, whose order is the page map's iteration
order — so two runs differing only in insertion order both complete
without panicking (shown through the panic-faithful `aggregateP`) yet
return different child lists for the same section. -/
theorem c5_counterexample :
    [c5P1, c5P2].Perm [c5P2, c5P1] ∧
    c5Root.meta.sort_by = some SortBy.date ∧
    ((buildAggregator ["content"] [] [c5Root] [c5P1, c5P2]).aggregateP.map
        (fun r => (alookup r.1 ["content", "_index.md"]).map (fun s => s.pages)) =
      some (some [["content", "p1.md"], ["content", "p2.md"]])) ∧
    ((buildAggregator ["content"] [] [c5Root] [c5P2, c5P1]).aggregateP.map
        (fun r => (alookup r.1 ["content", "_index.md"]).map (fun s => s.pages)) =
      some (some [["content", "p2.md"], ["content", "p1.md"]])) ∧
    ([["content", "p1.md"], ["content", "p2.md"]] : List Path) ≠
      [["content", "p2.md"], ["content", "p1.md"]] := by
  exact ⟨by decide, rfl, rfl, rfl, by decide⟩

/-- The page keys `aggregate`'s placement pass appends to the section at
key `k`, in page-map iteration order. -/
def pushedKeys (a : ContentAggregator) (k : Path) : List Path :=
  (a.pages.filter (fun kv =>
    decide (k ∈ visitedKeys (fuelOf kv.2) a.sections (startOf kv.2)))).map Prod.fst

/-- Claim C5 (amended): for inputs where a root `_index.md` section was
added, every added section starts with an empty child list, no two
sections and no two pages share a file path, every page carries a date,
and no two pages tie on both date and route string, any two insertion
orders of the same sections and pages both complete without panicking
(shown through the panic-faithful `aggregateP`) and yield the same final
child list for every section with a sort key and the same final list for
every (taxonomy, term) bucket. -/
theorem c5_determinism (cp : Path) (taxdefs : List String)
    (secs secs' : List Section) (pgs pgs' : List Page)
    (hsp : secs.Perm secs') (hpp : pgs.Perm pgs')
    (hroot : ∃ s ∈ secs, s.file.path = cp ++ [indexMd])
    (hfreshS : ∀ s ∈ secs, s.pages = [])
    (hsnd : (secs.map (fun s => s.file.path)).Nodup)
    (hpnd : (pgs.map (fun p => p.file.path)).Nodup)
    (hdated : ∀ p ∈ pgs, p.meta.date.isSome = true)
    (hinj : ∀ p ∈ pgs, ∀ q ∈ pgs, p.meta.date = q.meta.date →
      p.path = q.path → p = q) :
    ((buildAggregator cp taxdefs secs pgs).aggregateP =
      some (buildAggregator cp taxdefs secs pgs).aggregate) ∧
    ((buildAggregator cp taxdefs secs' pgs').aggregateP =
      some (buildAggregator cp taxdefs secs' pgs').aggregate) ∧
    (∀ k s sb,
      alookup (buildAggregator cp taxdefs secs pgs).aggregate.1 k = some s →
      s.meta.sort_by = some sb →
      ∃ s', alookup (buildAggregator cp taxdefs secs' pgs').aggregate.1 k =
          some s' ∧ s'.pages = s.pages) ∧
    (∀ tname term,
      bucketOf (buildAggregator cp taxdefs secs pgs).aggregate.2.2 tname term =
      bucketOf (buildAggregator cp taxdefs secs' pgs').aggregate.2.2
        tname term) := by
  have hroot' : ∃ s ∈ secs', s.file.path = cp ++ [indexMd] := by
    rcases hroot with ⟨s, hs, hpath⟩
    exact ⟨s, hsp.mem_iff.mp hs, hpath⟩
  have hfreshS' : ∀ s ∈ secs', s.pages = [] :=
    fun s h => hfreshS s (hsp.mem_iff.mpr h)
  have hsnd' : (secs'.map (fun s => s.file.path)).Nodup :=
    (hsp.map _).nodup_iff.mp hsnd
  have hpnd' : (pgs'.map (fun p => p.file.path)).Nodup :=
    (hpp.map _).nodup_iff.mp hpnd
  have hndSM : ((secs.map (fun s => (s.file.path, s))).map Prod.fst).Nodup := by
    rw [map_fst_map_keyed]
    exact hsnd
  have hSL : ∀ k, alookup (buildAggregator cp taxdefs secs pgs).sections k =
      alookup (buildAggregator cp taxdefs secs' pgs').sections k := by
    intro k
    rw [buildAggregator_sections_explicit cp taxdefs secs pgs hsnd,
      buildAggregator_sections_explicit cp taxdefs secs' pgs' hsnd']
    exact alookup_perm (hsp.map _) hndSM k
  have hML : ∀ k, metaLookup (buildAggregator cp taxdefs secs pgs).sections k =
      metaLookup (buildAggregator cp taxdefs secs' pgs').sections k := by
    intro k
    unfold metaLookup
    rw [hSL k]
  have hSLM : ∀ k, alookup (secs.map (fun s => (s.file.path, s))) k =
      alookup (secs'.map (fun s => (s.file.path, s))) k := by
    intro k
    rw [← buildAggregator_sections_explicit cp taxdefs secs pgs hsnd,
      ← buildAggregator_sections_explicit cp taxdefs secs' pgs' hsnd']
    exact hSL k
  have hT2' : (buildAggregator cp taxdefs secs' pgs').build_ancestors =
      secs'.map (fun s => (s.file.path,
        sectionAncestors cp (secs.map (fun s => (s.file.path, s))) s)) := by
    rw [build_ancestors_explicit cp taxdefs secs' pgs' hsnd']
    exact List.map_congr_left (fun s _ => by
      rw [sectionAncestors_congr cp (fun k => (hSLM k).symm) s])
  have hndTM : ((secs.map (fun s => (s.file.path,
      sectionAncestors cp (secs.map (fun s => (s.file.path, s))) s))).map
      Prod.fst).Nodup := by
    rw [map_fst_map_keyed]
    exact hsnd
  have hTL : ∀ k,
      alookup (buildAggregator cp taxdefs secs pgs).build_ancestors k =
      alookup (buildAggregator cp taxdefs secs' pgs').build_ancestors k := by
    intro k
    rw [build_ancestors_explicit cp taxdefs secs pgs hsnd, hT2']
    exact alookup_perm (hsp.map _) hndTM k
  have hplaced : ∀ (fuel : Nat) (p : Page) (sp : Path),
      placedPage fuel (buildAggregator cp taxdefs secs' pgs').sections
        (buildAggregator cp taxdefs secs' pgs').build_ancestors p sp =
      placedPage fuel (buildAggregator cp taxdefs secs pgs).sections
        (buildAggregator cp taxdefs secs pgs).build_ancestors p sp := by
    intro fuel p sp
    rw [placedPage_congr (buildAggregator cp taxdefs secs' pgs').build_ancestors
      (fun k => (hML k).symm) fuel p sp]
    exact placedPage_tbl_congr _ (fun k => (hTL k).symm) fuel p sp
  have hpp2 : placedPages (buildAggregator cp taxdefs secs' pgs') =
      pgs'.map (fun p => (p.file.path,
        placedPage (fuelOf p) (buildAggregator cp taxdefs secs pgs).sections
          (buildAggregator cp taxdefs secs pgs).build_ancestors p
          (startOf p))) := by
    rw [placedPages_explicit cp taxdefs secs' pgs' hpnd']
    exact List.map_congr_left (fun p _ => by rw [hplaced])
  have hndPM : ((pgs.map (fun p => (p.file.path,
      placedPage (fuelOf p) (buildAggregator cp taxdefs secs pgs).sections
        (buildAggregator cp taxdefs secs pgs).build_ancestors p
        (startOf p)))).map Prod.fst).Nodup := by
    rw [map_fst_map_keyed]
    exact hpnd
  have hPL : ∀ k, alookup (placedPages (buildAggregator cp taxdefs secs pgs)) k =
      alookup (placedPages (buildAggregator cp taxdefs secs' pgs')) k := by
    intro k
    rw [placedPages_explicit cp taxdefs secs pgs hpnd, hpp2]
    exact alookup_perm (hpp.map _) hndPM k
  have hcoP1 : ∀ kv ∈ (buildAggregator cp taxdefs secs pgs).pages,
      kv.1 = kv.2.file.path :=
    fun kv h => (mem_buildAggregator_pages cp taxdefs secs pgs kv h).1
  have hdateLk : ∀ k p,
      alookup (placedPages (buildAggregator cp taxdefs secs pgs)) k = some p →
      p.meta.date.isSome = true := by
    intro k p h
    rcases placedPages_lookup_spec _ hcoP1 h with ⟨q, hq, _, _, hdq, _, _⟩
    rw [hdq]
    exact hdated q (mem_buildAggregator_pages cp taxdefs secs pgs _
      (alookup_mem hq)).2
  have hantiLk : ∀ k p,
      alookup (placedPages (buildAggregator cp taxdefs secs pgs)) k = some p →
      ∀ k' p',
        alookup (placedPages (buildAggregator cp taxdefs secs pgs)) k' =
          some p' →
        p.meta.date = p'.meta.date → p.path = p'.path → p = p' := by
    intro k p h k' p' h' hd hr
    rcases placedPages_lookup_spec _ hcoP1 h with ⟨q, hq, hpl, _, hdq, hrq, _⟩
    rcases placedPages_lookup_spec _ hcoP1 h' with
      ⟨q', hq', hpl', _, hdq', hrq', _⟩
    have hqq : q = q' :=
      hinj q (mem_buildAggregator_pages cp taxdefs secs pgs _
          (alookup_mem hq)).2
        q' (mem_buildAggregator_pages cp taxdefs secs pgs _
          (alookup_mem hq')).2
        (by rw [← hdq, ← hdq', hd]) (by rw [← hrq, ← hrq', hr])
    rw [hpl, hpl', hqq]
  refine ⟨buildAggregator_bridge cp taxdefs secs pgs hroot hfreshS,
    buildAggregator_bridge cp taxdefs secs' pgs' hroot' hfreshS', ?_, ?_⟩
  · intro k s sb hlk hsb
    rw [aggregate_eq] at hlk
    replace hlk : alookup
        ((pushedSections (buildAggregator cp taxdefs secs pgs)).map
          (sortSectionStep (placedPages (buildAggregator cp taxdefs secs pgs))))
        k = some s := hlk
    rw [alookup_map_sortSectionStep, alookup_pushedSections] at hlk
    rcases Option.map_eq_some'.mp hlk with ⟨mid, hmid, hs⟩
    rcases Option.map_eq_some'.mp hmid with ⟨s₀, hs₀, hmidv⟩
    subst hmidv
    subst hs
    have hlk₂ : alookup (buildAggregator cp taxdefs secs' pgs').aggregate.1 k =
        some ((sortSectionStep
          (placedPages (buildAggregator cp taxdefs secs' pgs'))
          (k, { s₀ with pages := (s₀.pages ++
            pushedKeys (buildAggregator cp taxdefs secs' pgs') k) })).2) := by
      rw [aggregate_eq]
      show alookup
        ((pushedSections (buildAggregator cp taxdefs secs' pgs')).map
          (sortSectionStep
            (placedPages (buildAggregator cp taxdefs secs' pgs')))) k = _
      rw [alookup_map_sortSectionStep, alookup_pushedSections, ← hSL k, hs₀]
      rfl
    refine ⟨_, hlk₂, ?_⟩
    have hsb₀ : s₀.meta.sort_by = some sb := by
      rw [sortSectionStep_meta] at hsb
      exact hsb
    show (sortSectionStep (placedPages (buildAggregator cp taxdefs secs' pgs'))
        (k, { s₀ with pages := (s₀.pages ++
          pushedKeys (buildAggregator cp taxdefs secs' pgs') k) })).2.pages =
      (sortSectionStep (placedPages (buildAggregator cp taxdefs secs pgs))
        (k, { s₀ with pages := (s₀.pages ++
          pushedKeys (buildAggregator cp taxdefs secs pgs) k) })).2.pages
    rcases sortSectionStep_pages_cases
        (placedPages (buildAggregator cp taxdefs secs pgs))
        (k, { s₀ with pages := (s₀.pages ++
          pushedKeys (buildAggregator cp taxdefs secs pgs) k) }) with
      ⟨_, hnone⟩ | ⟨sb₁, _, hpg₁⟩
    · have hnone' : s₀.meta.sort_by = none := hnone
      rw [hnone'] at hsb₀
      cases hsb₀
    · rcases sortSectionStep_pages_cases
          (placedPages (buildAggregator cp taxdefs secs' pgs'))
          (k, { s₀ with pages := (s₀.pages ++
            pushedKeys (buildAggregator cp taxdefs secs' pgs') k) }) with
        ⟨_, hnone⟩ | ⟨sb₂, _, hpg₂⟩
      · have hnone' : s₀.meta.sort_by = none := hnone
        rw [hnone'] at hsb₀
        cases hsb₀
      · rw [hpg₁, hpg₂]
        cases sb₁
        cases sb₂
        show sortedBucket (placedPages (buildAggregator cp taxdefs secs' pgs'))
            (s₀.pages ++ pushedKeys (buildAggregator cp taxdefs secs' pgs') k) =
          sortedBucket (placedPages (buildAggregator cp taxdefs secs pgs))
            (s₀.pages ++ pushedKeys (buildAggregator cp taxdefs secs pgs) k)
        have hpred : ∀ kv : Path × Page,
            decide (k ∈ visitedKeys (fuelOf kv.2)
              (buildAggregator cp taxdefs secs' pgs').sections (startOf kv.2)) =
            decide (k ∈ visitedKeys (fuelOf kv.2)
              (buildAggregator cp taxdefs secs pgs).sections (startOf kv.2)) := by
          intro kv
          rw [visitedKeys_congr (fun k' => (hML k').symm)]
        have hpagesperm : (buildAggregator cp taxdefs secs' pgs').pages.Perm
            (buildAggregator cp taxdefs secs pgs).pages := by
          rw [buildAggregator_pages_explicit cp taxdefs secs pgs hpnd,
            buildAggregator_pages_explicit cp taxdefs secs' pgs' hpnd']
          exact (hpp.map _).symm
        have hpushperm :
            (pushedKeys (buildAggregator cp taxdefs secs' pgs') k).Perm
            (pushedKeys (buildAggregator cp taxdefs secs pgs) k) := by
          unfold pushedKeys
          have hfil : (buildAggregator cp taxdefs secs' pgs').pages.filter
              (fun kv => decide (k ∈ visitedKeys (fuelOf kv.2)
                (buildAggregator cp taxdefs secs' pgs').sections
                (startOf kv.2))) =
            (buildAggregator cp taxdefs secs' pgs').pages.filter
              (fun kv => decide (k ∈ visitedKeys (fuelOf kv.2)
                (buildAggregator cp taxdefs secs pgs).sections
                (startOf kv.2))) :=
            List.filter_congr (fun kv _ => hpred kv)
          rw [hfil]
          exact (hpagesperm.filter _).map _
        calc sortedBucket (placedPages (buildAggregator cp taxdefs secs' pgs'))
              (s₀.pages ++ pushedKeys (buildAggregator cp taxdefs secs' pgs') k)
            = sortedBucket (placedPages (buildAggregator cp taxdefs secs pgs))
              (s₀.pages ++
                pushedKeys (buildAggregator cp taxdefs secs' pgs') k) :=
              sortedBucket_congr (fun k' => (hPL k').symm) _
          _ = sortedBucket (placedPages (buildAggregator cp taxdefs secs pgs))
              (s₀.pages ++ pushedKeys (buildAggregator cp taxdefs secs pgs) k) :=
              sortedBucket_eq_of_perm _ (hpushperm.append_left s₀.pages)
                hdateLk hantiLk
  · intro tname term
    rw [bucketOf_aggregate, bucketOf_aggregate, bucketOf_buildAggregator,
      bucketOf_buildAggregator]
    refine Eq.trans ?_ (sortedBucket_congr hPL _)
    by_cases hc : (alookup (taxdefs.foldl (fun m name => ainsert m name [])
        ([] : List (String × List (String × List Path)))) tname).isSome = true
    · rw [if_pos hc, if_pos hc]
      exact sortedBucket_eq_of_perm _ (hpp.flatMap_right _) hdateLk hantiLk
    · rw [if_neg hc, if_neg hc]

def c5SecA : Section :=
  mkSection ["content"] ["content", "_index.md"]
    { page_template := none, sort_by := some SortBy.date, transparent := false }

def c5SecB : Section :=
  mkSection ["content"] ["content", "blog", "_index.md"] plainSec

def c5Q1 : Page :=
  mkPage ["content"] ["content", "a.md"]
    { date := some "2024-01-02", template := none,
      taxonomies := [("tags", ["rust"])] } "/a"

def c5Q2 : Page :=
  mkPage ["content"] ["content", "b.md"]
    { date := some "2024-01-01", template := none,
      taxonomies := [("tags", ["rust"])] } "/b"

/-- Witness for C5's amended theorem: two sections and two dated, tagged
pages, both lists reversed between the runs. -/
theorem c5_witness :
    (([c5SecA, c5SecB] : List Section).Perm [c5SecB, c5SecA] ∧
      ([c5Q1, c5Q2] : List Page).Perm [c5Q2, c5Q1]) ∧
    (((buildAggregator ["content"] ["tags"] [c5SecA, c5SecB]
        [c5Q1, c5Q2]).aggregateP =
      some (buildAggregator ["content"] ["tags"] [c5SecA, c5SecB]
        [c5Q1, c5Q2]).aggregate) ∧
      ((buildAggregator ["content"] ["tags"] [c5SecB, c5SecA]
          [c5Q2, c5Q1]).aggregateP =
        some (buildAggregator ["content"] ["tags"] [c5SecB, c5SecA]
          [c5Q2, c5Q1]).aggregate) ∧
      (∀ k s sb,
        alookup (buildAggregator ["content"] ["tags"] [c5SecA, c5SecB]
          [c5Q1, c5Q2]).aggregate.1 k = some s →
        s.meta.sort_by = some sb →
        ∃ s', alookup (buildAggregator ["content"] ["tags"] [c5SecB, c5SecA]
            [c5Q2, c5Q1]).aggregate.1 k = some s' ∧ s'.pages = s.pages) ∧
      (∀ tname term,
        bucketOf (buildAggregator ["content"] ["tags"] [c5SecA, c5SecB]
          [c5Q1, c5Q2]).aggregate.2.2 tname term =
        bucketOf (buildAggregator ["content"] ["tags"] [c5SecB, c5SecA]
          [c5Q2, c5Q1]).aggregate.2.2 tname term)) :=
  ⟨⟨by decide, by decide⟩,
   c5_determinism ["content"] ["tags"] [c5SecA, c5SecB] [c5SecB, c5SecA]
     [c5Q1, c5Q2] [c5Q2, c5Q1] (by decide) (by decide) (by decide) (by decide)
     (by decide) (by decide) (by decide) (by decide)⟩

end Razorbill
